import Mathlib

/-! # player-stat-collector: the durable event pipeline

A shallow embedding of the write-ahead log (`wal.go`), its tail reader
(`wal_reader.go`), the line counter and the address functions of `helpers.go`,
the flusher (`flusher.go`), the event builder (`event.go`) and the two caches
it reads (`domain.go`, `geomapper.go`), followed by theorems about them.

Modelling boundary.

* A segment file is the list of its newline-terminated lines (each `Line` is
  the bytes of a line without the final newline); `Append` writes one whole
  line with one `Write`, so this is the shape of every file the WAL produces.
* The WAL directory is a finite map from segment number to segment file, kept
  as an association list read with `List.lookup`; only the canonical names
  `%06d.log` are represented.
* The file system is fault free: the only failure of a file operation is that
  the file does not exist (reads, writes, renames and removals of existing
  files succeed, and every line fits the 512 KiB buffer of the line scanner).
  `json.Marshal`, `json.Unmarshal` and `bytes.TrimSpace` are library code and
  are taken as parameters (`Codec`).
* Go `int` values are unbounded integers (`Int`); segment and line numbers
  never come near the 64-bit range.
* Every operation below is one atomic step.  The locks of the log and of the
  domain cache are not modelled; the read-write lock of the geo mapper is the
  count of the read locks held (`RWMutex`).
* Go strings are Lean strings, and the functions of the Go standard library
  on them are taken as parameters (`GoLib`).  The store and the clock of the
  flusher are an oracle (`Store`).
-/

namespace PlayerStat

/-! ## Data model -/

/-- The bytes of one line of a segment file, the final newline excluded. -/
abbrev Line := List Nat

/-- The telemetry record of `event.go`. -/
structure Event where
  ts : Int
  userID : Int
  domainID : Int
  geoID : Int
  geoGroupID : Int
  domainTypeID : Int
  visitorIP : List Nat
  fileID : Int
  eventName : String
deriving DecidableEq, Repr

/-- The library functions the log uses on records: `json.Marshal` (which can
fail, and whose output is one line: it holds no raw newline), `bytes.TrimSpace`
applied to a raw line, and `json.Unmarshal`. -/
structure Codec where
  marshal : Event → Option Line
  trimSpace : Line → Line
  unmarshal : Line → Option Event

/-- The struct `CommitPos` of `wal.go`: `line` lines of segment `seg` are committed. -/
structure CommitPos where
  seg : Int
  line : Int
deriving DecidableEq, Repr

/-- The struct `AppendPos` of `wal.go`. -/
structure AppendPos where
  seg : Int
  line : Int
deriving DecidableEq, Repr

/-- Lexicographic order on `(seg, line)`. -/
def CommitPos.le (a b : CommitPos) : Prop :=
  a.seg < b.seg ∨ (a.seg = b.seg ∧ a.line ≤ b.line)

instance (a b : CommitPos) : Decidable (CommitPos.le a b) := by
  unfold CommitPos.le
  exact inferInstance

/-- The WAL directory: segment number to the lines of the segment file. -/
abbrev Dir := List (Int × List Line)

/-- The content of the file `commit.meta`. -/
inductive MetaFile where
  | absent
  | unparsable
  | parsed (cp : CommitPos)
deriving DecidableEq, Repr

/-- Errors of the modelled operations. -/
inductive WalErr where
  | badCommitMeta
  | marshalFailed
deriving DecidableEq, Repr

/-- The struct `WAL`.  `dir` and `commitMeta` are the state on disk; the open
append handle `curFile` always belongs to segment `curSeg` (both are set
together in `openSeg`) and is not a separate field. -/
structure WAL where
  dir : Dir
  commitMeta : MetaFile
  segMaxBytes : Int
  curLine : Int
  curSeg : Int
  curSize : Int
  commit : CommitPos
  readPos : CommitPos
deriving DecidableEq, Repr

/-! ## File operations -/

/-- The function `countLines` of `helpers.go` on the file of segment `seg`;
`none` is the error `IsNotExist`. -/
def countLines (dir : Dir) (seg : Int) : Option Nat :=
  (dir.lookup seg).map List.length

/-- Size in bytes of a segment file: every line and its newline. -/
def fileSize (ls : List Line) : Int :=
  ((ls.map (fun l => l.length + 1)).sum : Nat)

/-- Call `os.OpenFile` with `O_CREATE`: the file is created empty when it is missing. -/
def Dir.create (dir : Dir) (seg : Int) : Dir :=
  match dir.lookup seg with
  | some _ => dir
  | none => dir ++ [(seg, [])]

/-- One `Write` of a whole line through an append handle on segment `seg`; a
write through a handle whose file is no longer in the directory is not seen. -/
def Dir.appendLine (dir : Dir) (seg : Int) (l : Line) : Dir :=
  dir.map (fun e => if e.1 = seg then (e.1, e.2 ++ [l]) else e)

/-- Call `os.Remove` of the file of segment `seg`. -/
def Dir.remove (dir : Dir) (seg : Int) : Dir :=
  dir.filter (fun e => e.1 ≠ seg)

/-- Method `WAL.listSegs`: the numbers of the segment files, ascending. -/
def listSegs (dir : Dir) : List Int :=
  ((dir.map Prod.fst).dedup).insertionSort (· ≤ ·)

/-! ## WAL operations (`wal.go`) -/

/-- Method `WAL.loadCommit`. -/
def loadCommit (m : MetaFile) : Except WalErr CommitPos :=
  match m with
  | .absent => .ok ⟨1, 0⟩
  | .unparsable => .error .badCommitMeta
  | .parsed cp =>
    let cp := if cp.seg ≤ 0 then { cp with seg := 1 } else cp
    let cp := if cp.line < 0 then { cp with line := 0 } else cp
    .ok cp

/-- Method `WAL.saveCommitLocked`: write the commit pointer over `commit.meta`. -/
def saveCommitLocked (w : WAL) : WAL :=
  { w with commitMeta := .parsed w.commit }

/-- Method `WAL.openSeg`. -/
def openSeg (w : WAL) (seg : Int) (create : Bool) : WAL :=
  let dir :=
    if create then w.dir.create seg
    else
      match w.dir.lookup seg with
      | some _ => w.dir
      | none => w.dir.create seg
  let ls := (dir.lookup seg).getD []
  { w with dir := dir, curSize := fileSize ls, curSeg := seg, curLine := ls.length }

/-- Method `WAL.openOrCreateTail`. -/
def openOrCreateTail (w : WAL) : WAL :=
  match (listSegs w.dir).getLast? with
  | none => openSeg { w with curSeg := 1 } 1 true
  | some last => openSeg { w with curSeg := last } last false

/-- Function `NewWAL` on a directory holding the segments `dir` and the commit file `m`. -/
def NewWAL (dir : Dir) (m : MetaFile) (segMaxMB : Int) : Except WalErr WAL :=
  match loadCommit m with
  | .error e => .error e
  | .ok cp =>
    .ok (openOrCreateTail
      { dir := dir, commitMeta := m, segMaxBytes := segMaxMB * 1024 * 1024,
        curLine := 0, curSeg := 0, curSize := 0, commit := cp, readPos := cp })

/-- Method `WAL.Append`: the result and the state left behind (the state changes
also when the call fails after a rotation). -/
def Append (cd : Codec) (w : WAL) (ev : Event) : Except WalErr AppendPos × WAL :=
  let w := if w.curSeg < w.commit.seg then openSeg w w.commit.seg true else w
  let w := if w.segMaxBytes > 0 ∧ w.curSize ≥ w.segMaxBytes then openSeg w (w.curSeg + 1) true else w
  match cd.marshal ev with
  | none => (.error .marshalFailed, w)
  | some b =>
    let w := { w with dir := w.dir.appendLine w.curSeg b,
                      curSize := w.curSize + (b.length + 1 : Nat),
                      curLine := w.curLine + 1 }
    (.ok ⟨w.curSeg, w.curLine⟩, w)

/-- Method `WAL.MarkRead`. -/
def MarkRead (w : WAL) (pos : AppendPos) : WAL :=
  if pos.seg > w.readPos.seg ∨ (pos.seg = w.readPos.seg ∧ pos.line > w.readPos.line) then
    { w with readPos := ⟨pos.seg, pos.line⟩ }
  else w

/-- The loop `for n > 0` of `WAL.AdvanceCommit`, at most `fuel` iterations; the
result is the commit pointer at the exit of the loop (by `n = 0` or by a
missing segment file), `none` when `fuel` iterations do not reach the exit. -/
def advanceLoop (dir : Dir) : Nat → CommitPos → Int → Option CommitPos
  | 0, c, n => if n > 0 then none else some c
  | fuel + 1, c, n =>
    if n > 0 then
      match countLines dir c.seg with
      | none => some c
      | some lines =>
        let remainingInSeg : Int := (lines : Int) - c.line
        if remainingInSeg ≤ 0 then
          advanceLoop dir fuel ⟨c.seg + 1, 0⟩ n
        else if n < remainingInSeg then
          advanceLoop dir fuel ⟨c.seg, c.line + n⟩ 0
        else
          advanceLoop dir fuel ⟨c.seg + 1, 0⟩ (n - remainingInSeg)
    else some c

/-- Method `WAL.AdvanceCommit`.  The loop visits each existing segment at most once,
so `dir.length + 1` iterations always reach its exit (`advanceLoop_total`). -/
def AdvanceCommit (w : WAL) (n : Int) : Option WAL :=
  if n ≤ 0 then some w
  else
    match advanceLoop w.dir (w.dir.length + 1) w.commit n with
    | none => none
    | some c => some (saveCommitLocked { w with commit := c })

/-- Method `WAL.Compact`. -/
def Compact (w : WAL) : WAL :=
  let limit := w.commit.seg
  let limit := if w.curSeg < limit then w.curSeg else limit
  let limit := if w.readPos.seg < limit then w.readPos.seg else limit
  { w with dir := (listSegs w.dir).foldl (fun d seg => if seg < limit then d.remove seg else d) w.dir }

/-! ## The tail reader (`wal_reader.go`) -/

/-- The zero value `Event{}`. -/
def Event.zero : Event := ⟨0, 0, 0, 0, 0, 0, [], 0, ""⟩

/-- The struct `WALTailer`.  `file` is the open read handle with its buffered
reader: `some off` when segment `seg` is open and `off` of its lines have been
consumed through the handle, `none` when no file is open.  A segment that is
open for reading is never removed (`Compact` keeps `readPos.seg`), so the lines
behind the handle are the lines of segment `seg` in the directory. -/
structure WALTailer where
  seg : Int
  line : Int
  file : Option Nat
  hasPending : Bool
  pending : Event
deriving DecidableEq, Repr

/-- The event channel seen from the tailer, its only sender: `sent` is every
event enqueued so far, in order; `room n` is the outcome of the `n`-th look at
the channel (`true`: there is room), and `tick` counts the looks so far.  Every
sequence of outcomes is admitted, also a full channel right after a length test
that has found room, which the channel of the program cannot show; `loneSender`
and `Reachable` single out the sequences it can show. -/
structure Chan where
  sent : List Event
  room : Nat → Bool
  tick : Nat

/-- The non-blocking send `select { case out <- ev: ... default: ... }`. -/
def Chan.trySend (c : Chan) (ev : Event) : Bool × Chan :=
  if c.room c.tick then (true, { c with sent := c.sent ++ [ev], tick := c.tick + 1 })
  else (false, { c with tick := c.tick + 1 })

/-- The test `len(out) >= cap(out)`. -/
def Chan.isFull (c : Chan) : Bool × Chan :=
  (!c.room c.tick, { c with tick := c.tick + 1 })

/-- Function `NewWALTailer`. -/
def NewWALTailer (w : WAL) : WALTailer :=
  { seg := w.readPos.seg, line := w.readPos.line, file := none, hasPending := false,
    pending := Event.zero }

/-- Method `WALTailer.close`. -/
def WALTailer.close (t : WALTailer) : WALTailer := { t with file := none }

/-- Method `WALTailer.openIfNeeded`: open segment `seg` when no file is open and the
segment exists, and skip the first `line` lines, stopping at the end of file. -/
def openIfNeeded (w : WAL) (t : WALTailer) : WALTailer :=
  match t.file with
  | some _ => t
  | none =>
    match w.dir.lookup t.seg with
    | none => t
    | some ls => { t with file := some (min t.line.toNat ls.length) }

/-- Method `WALTailer.tryAdvanceToNextSeg`. -/
def tryAdvanceToNextSeg (w : WAL) (t : WALTailer) : Bool × WAL × WALTailer :=
  match w.dir.lookup (t.seg + 1) with
  | some _ =>
    let t := { t.close with seg := t.seg + 1, line := 0 }
    (true, { w with readPos := ⟨t.seg, t.line⟩ }, t)
  | none => (false, w, t)

/-- Method `WALTailer.readNextRawLine`: the line read (`none` for the Go `nil`), the
flag `ok`, and the states left behind. -/
def readNextRawLine (w : WAL) (t : WALTailer) : Option Line × Bool × WAL × WALTailer :=
  let t := openIfNeeded w t
  match t.file with
  | none => (none, false, w, t)
  | some off =>
    match ((w.dir.lookup t.seg).getD [])[off]? with
    | some l => (some l, true, w, { t with file := some (off + 1) })
    | none =>
      match tryAdvanceToNextSeg w t with
      | (true, w, t) => (none, true, w, t)
      | (false, w, t) => (none, false, w, t)

/-- Method `WALTailer.pushPending`. -/
def pushPending (t : WALTailer) (out : Chan) : Bool × WALTailer × Chan :=
  if !t.hasPending then (true, t, out)
  else
    match out.trySend t.pending with
    | (true, out) => (true, { t with hasPending := false }, out)
    | (false, out) => (false, t, out)

/-- The three places of `readOneAndQueue` that count a line as read:
`t.line++` and publication of the read position. -/
def markLineRead (w : WAL) (t : WALTailer) : WAL × WALTailer :=
  let t := { t with line := t.line + 1 }
  ({ w with readPos := ⟨t.seg, t.line⟩ }, t)

/-- Method `WALTailer.readOneAndQueue`. -/
def readOneAndQueue (cd : Codec) (w : WAL) (t : WALTailer) (out : Chan) :
    Bool × WAL × WALTailer × Chan :=
  match pushPending t out with
  | (false, t, out) => (false, w, t, out)
  | (true, t, out) =>
    match readNextRawLine w t with
    | (_, false, w, t) => (false, w, t, out)
    | (none, true, w, t) => (true, w, t, out)
    | (some raw, true, w, t) =>
      let trim := cd.trimSpace raw
      if trim.length = 0 then
        let (w, t) := markLineRead w t
        (true, w, t, out)
      else
        match cd.unmarshal trim with
        | none =>
          let (w, t) := markLineRead w t
          (true, w, t, out)
        | some ev =>
          match out.trySend ev with
          | (true, out) =>
            let (w, t) := markLineRead w t
            (true, w, t, out)
          | (false, out) => (false, w, { t with hasPending := true, pending := ev }, out)

/-- The loop of `WALTailer.drain`, at most `fuel` iterations; `none` when
`fuel` iterations do not reach a `return`. -/
def drainLoop (cd : Codec) : Nat → WAL → WALTailer → Chan → Option (WAL × WALTailer × Chan)
  | 0, _, _, _ => none
  | fuel + 1, w, t, out =>
    match out.isFull with
    | (full, out) =>
      if full && !t.hasPending then some (w, t, out)
      else
        match readOneAndQueue cd w t out with
        | (false, w, t, out) => some (w, t, out)
        | (true, w, t, out) => drainLoop cd fuel w t out

/-- An upper bound on the iterations of one `drain`: every line and every
segment of the directory once, and the iteration that returns. -/
def drainBound (dir : Dir) : Nat :=
  (dir.map (fun e => e.2.length + 1)).sum + 1

/-- Method `WALTailer.drain` (the bound is always enough: `drain_spec`). -/
def drain (cd : Codec) (w : WAL) (t : WALTailer) (out : Chan) :
    Option (WAL × WALTailer × Chan) :=
  drainLoop cd (drainBound w.dir) w t out

/-- Repeated `drain` calls, as `WALTailer.Run` makes them. -/
def drains (cd : Codec) : Nat → WAL → WALTailer → Chan → Option (WAL × WALTailer × Chan)
  | 0, w, t, out => some (w, t, out)
  | n + 1, w, t, out =>
    match drain cd w t out with
    | none => none
    | some (w, t, out) => drains cd n w t out

/-! ## Measures, record counts and example states -/

/-- Number of directory entries whose segment number is at least `s`. -/
def entriesFrom (dir : Dir) (s : Int) : Nat :=
  (dir.filter (fun e => decide (s ≤ e.1))).length

/-- The segment numbers present in the directory. -/
def segNums (dir : Dir) : Finset Int := (dir.map Prod.fst).toFinset

/-- Number of lines of segment `k`, zero when the segment does not exist. -/
def linesIn (dir : Dir) (k : Int) : Nat := (countLines dir k).getD 0

/-- Sum of the line counts of all segments numbered below `s`. -/
def linesBelow (dir : Dir) (s : Int) : Int :=
  Finset.sum ((segNums dir).filter (fun k => k < s)) (fun k => (linesIn dir k : Int))

/-- Number of records below a position. -/
def recordsBelow (dir : Dir) (p : CommitPos) : Int := linesBelow dir p.seg + p.line

/-- Number of records in the whole log. -/
def recordsTotal (dir : Dir) : Int :=
  Finset.sum (segNums dir) (fun k => (linesIn dir k : Int))

/-- A codec for examples: a record is the one-byte line holding its file id. -/
def exCodec : Codec :=
  { marshal := fun e => some [e.fileID.toNat],
    trimSpace := fun l => l,
    unmarshal := fun l =>
      match l with
      | [n] => some ⟨0, 0, 0, 0, 0, 0, [], n, "play"⟩
      | _ => none }

/-- An example event with file id `n`. -/
def exEvent (n : Int) : Event := ⟨0, 0, 0, 0, 0, 0, [], n, "play"⟩

/-- An example log: segment 1 holds two records, segment 2 one; one record is committed. -/
def exWAL : WAL :=
  { dir := [(1, [[7], [8]]), (2, [[9]])], commitMeta := .parsed ⟨1, 1⟩, segMaxBytes := 1048576,
    curLine := 1, curSeg := 2, curSize := 2, commit := ⟨1, 1⟩, readPos := ⟨1, 1⟩ }

/-- An example log whose commit pointer is at the start of a segment that does not exist yet. -/
def exWALAhead : WAL :=
  { dir := [(1, [[7]])], commitMeta := .parsed ⟨2, 0⟩, segMaxBytes := 1048576,
    curLine := 1, curSeg := 1, curSize := 2, commit := ⟨2, 0⟩, readPos := ⟨2, 0⟩ }

/-- The limit of compaction in the words of the specification:
`min(commit.seg, curSeg, readPos.seg)`. -/
def compactLimit (w : WAL) : Int := min w.commit.seg (min w.curSeg w.readPos.seg)

/-- An example log with a fully committed and read first segment. -/
def exWALOld : WAL :=
  { dir := [(1, [[7]]), (2, [[8]]), (3, [])], commitMeta := .parsed ⟨2, 1⟩, segMaxBytes := 1048576,
    curLine := 0, curSeg := 3, curSize := 0, commit := ⟨2, 1⟩, readPos := ⟨3, 0⟩ }

/-- An example log whose current segment has reached the rotation threshold. -/
def exWALFull : WAL :=
  { dir := [(1, [[7]])], commitMeta := .absent, segMaxBytes := 2,
    curLine := 1, curSeg := 1, curSize := 2, commit := ⟨1, 0⟩, readPos := ⟨1, 0⟩ }

/-- An example directory with a gap and a commit file holding out-of-range values. -/
def exDir : Dir := [(3, [[8], [9]]), (1, [[7]])]

/-- The state `NewWAL` recovers from `exDir`. -/
def exRecovered : WAL :=
  { dir := exDir, commitMeta := .parsed ⟨0, -4⟩, segMaxBytes := 1048576,
    curLine := 2, curSeg := 3, curSize := 4, commit := ⟨1, 0⟩, readPos := ⟨1, 0⟩ }

/-! ## The records a tailer has to deliver -/

/-- The lines of segment `k`, none when the segment does not exist. -/
def segLines (dir : Dir) (k : Int) : List Line := (dir.lookup k).getD []

/-- What `readOneAndQueue` makes of a raw line: the event it enqueues, or `none` for a line it
skips (blank after trimming, or not decodable). -/
def decodeLine (cd : Codec) (raw : Line) : Option Event :=
  if (cd.trimSpace raw).length = 0 then none else cd.unmarshal (cd.trimSpace raw)

/-- The records at or beyond the position `(seg, line)`, in segment then line order: the
decodable lines of every existing segment numbered `seg` or more, ascending, without the first
`line` lines of segment `seg` itself. -/
def recordsFrom (cd : Codec) (dir : Dir) (seg line : Int) : List Event :=
  ((((listSegs dir).filter (fun k => decide (seg ≤ k))).map
    (fun k => if k = seg then (segLines dir k).drop line.toNat else segLines dir k)).flatten).filterMap
    (decodeLine cd)

/-- The lines of the segments `s, s + 1, ...` as long as they head the ascending list `ks`. -/
def chain (dir : Dir) : Int → List Int → List Line
  | _, [] => []
  | s, k :: ks => if k = s then segLines dir k ++ chain dir (s + 1) ks else []

/-- The lines of the unbroken run of existing segments `s, s + 1, ...`. -/
def runFrom (dir : Dir) (s : Int) : List Line :=
  chain dir s ((listSegs dir).filter (fun k => decide (s ≤ k)))

/-- The lines the tailer has still to read: the rest of its segment and the run after it. -/
def restLines (dir : Dir) (t : WALTailer) : List Line :=
  match t.file with
  | some off => (segLines dir t.seg).drop off ++ runFrom dir (t.seg + 1)
  | none =>
    match dir.lookup t.seg with
    | none => []
    | some ls => ls.drop t.line.toNat ++ runFrom dir (t.seg + 1)

/-- The record held in the pending slot, if any. -/
def pendingList (t : WALTailer) : List Event :=
  if t.hasPending then [t.pending] else []

/-- Total weight of the directory entries numbered `s` or more: one per line and one per file. -/
def weightFrom (dir : Dir) (s : Int) : Nat :=
  ((dir.filter (fun e => decide (s ≤ e.1))).map (fun e => e.2.length + 1)).sum

/-- A bound on the iterations `drain` can still make: the lines left in the tailer's segment
and the weight of the segments after it. -/
def tailMeasure (dir : Dir) (t : WALTailer) : Nat :=
  weightFrom dir (t.seg + 1) + ((segLines dir t.seg).length - t.file.getD 0)

/-! ## The pipeline as a transition system -/

/-- The log, its tail reader, the event channel and the flusher's progress: `committed` counts
the events the flusher has taken from the channel, stored and committed. -/
structure Sys where
  wal : WAL
  tailer : WALTailer
  out : Chan
  committed : Nat

/-- One iteration of the loop of `WALTailer.drain`: the length test, and `readOneAndQueue`
unless the channel is full and nothing is pending. -/
def drainStep (cd : Codec) (s : Sys) : Sys :=
  match s.out.isFull with
  | (full, out) =>
    if full && !s.tailer.hasPending then { s with out := out }
    else
      ⟨(readOneAndQueue cd s.wal s.tailer out).2.1, (readOneAndQueue cd s.wal s.tailer out).2.2.1,
        (readOneAndQueue cd s.wal s.tailer out).2.2.2, s.committed⟩

/-- The states reachable from a freshly recovered WAL that satisfies `start` by `Append` calls,
iterations of the loop of `drain` and flusher commits; a commit `AdvanceCommit(k)` covers `k`
events that were enqueued and not committed before.  The tailer is the only sender on the
channel and the flusher only takes events from it, so room that the length test has found is
still there at the next look, the send of the same iteration: an iteration is taken under the
schedules with that property (`hroom`), the only ones the channel can show.  The channel may be
full at any length test. -/
inductive Reachable (cd : Codec) (start : WAL → Chan → Prop) : Sys → Prop where
  | init (dir : Dir) (m : MetaFile) (segMaxMB : Int) (w : WAL) (out : Chan)
      (h : NewWAL dir m segMaxMB = .ok w) (hs : out.sent = []) (h0 : start w out) :
      Reachable cd start ⟨w, NewWALTailer w, out, 0⟩
  | append (s : Sys) (ev : Event) (h : Reachable cd start s) :
      Reachable cd start { s with wal := (Append cd s.wal ev).2 }
  | drain (s : Sys) (h : Reachable cd start s)
      (hroom : s.out.room s.out.tick = true → s.out.room (s.out.tick + 1) = true) :
      Reachable cd start (drainStep cd s)
  | commit (s : Sys) (k : Nat) (w : WAL) (h : Reachable cd start s) (hk : 0 < k)
      (hle : s.committed + k ≤ s.out.sent.length) (hw : AdvanceCommit s.wal k = some w) :
      Reachable cd start ⟨w, s.tailer, s.out, s.committed + k⟩

/-- A recovered log whose segments are numbered `lo .. curSeg` without a gap and whose commit
pointer lies inside them, at most at the start of segment `curSeg + 1`. -/
def Consistent (w : WAL) : Prop :=
  ∃ lo, (∀ k, (w.dir.lookup k).isSome ↔ (lo ≤ k ∧ k ≤ w.curSeg)) ∧ lo ≤ w.curSeg ∧
    lo ≤ w.commit.seg ∧ w.commit.seg ≤ w.curSeg + 1 ∧
    w.commit.line ≤ linesIn w.dir w.commit.seg

/-- The start condition of the amended ordering claim: a consistent log, whatever the
schedule of the channel. -/
def consistentStart (w : WAL) (_ : Chan) : Prop :=
  Consistent w

/-- A channel that always has room. -/
def exChan : Chan := ⟨[], fun _ => true, 0⟩

/-- The log recovered from an empty directory. -/
def exFresh : WAL :=
  { dir := [(1, [])], commitMeta := .absent, segMaxBytes := 1048576,
    curLine := 0, curSeg := 1, curSize := 0, commit := ⟨1, 0⟩, readPos := ⟨1, 0⟩ }

/-- The state after one `Append`, one iteration of `drain` and the commit of the one event,
starting from an empty directory. -/
def exAfterCommit : Sys :=
  { wal := { dir := [(1, [[5]])], commitMeta := .parsed ⟨2, 0⟩, segMaxBytes := 1048576,
             curLine := 1, curSeg := 1, curSize := 2, commit := ⟨2, 0⟩, readPos := ⟨1, 1⟩ },
    tailer := { seg := 1, line := 1, file := some 1, hasPending := false, pending := Event.zero },
    out := ⟨[exEvent 5], fun _ => true, 2⟩,
    committed := 1 }

/-- The invariant of the log in the runs of the amended ordering claim: the segments are
`lo .. curSeg`, `curLine` is the line count of segment `curSeg`, and the commit pointer lies
inside the log, at most at the start of segment `curSeg + 1`. -/
structure WalInv (lo : Int) (w : WAL) : Prop where
  segs : ∀ k, (w.dir.lookup k).isSome ↔ (lo ≤ k ∧ k ≤ w.curSeg)
  lo_le : lo ≤ w.curSeg
  curLine : w.curLine = linesIn w.dir w.curSeg
  commit_lo : lo ≤ w.commit.seg
  commit_hi : w.commit.seg ≤ w.curSeg + 1
  commit_line : 0 ≤ w.commit.line
  commit_in : w.commit.line ≤ linesIn w.dir w.commit.seg

/-- A change of the log that keeps `WalInv`, the two pointers and the records below the commit
pointer, and removes no line. -/
structure Grows (lo : Int) (w u : WAL) : Prop where
  inv : WalInv lo u
  commit_eq : u.commit = w.commit
  readPos_eq : u.readPos = w.readPos
  lines_le : ∀ k, linesIn w.dir k ≤ linesIn u.dir k
  below_commit : linesBelow u.dir w.commit.seg = linesBelow w.dir w.commit.seg
  below_le : ∀ p, linesBelow w.dir p ≤ linesBelow u.dir p
  curSeg_le : w.curSeg ≤ u.curSeg

/-- The number of lines of its segment the tailer has consumed: the offset of the open handle,
or `line` (the lines skipped at the next open) when no file is open. -/
def tpos (t : WALTailer) : Int :=
  match t.file with
  | some off => (off : Int)
  | none => t.line

/-- The invariant of the whole system, under every schedule of the channel: the published read
position is the tailer's cursor, the cursor is at most the number of lines consumed, and every
event enqueued or pending and not yet committed is a line consumed beyond the commit pointer. -/
structure SysInv (lo : Int) (s : Sys) : Prop where
  wal : WalInv lo s.wal
  read_seg : s.wal.readPos.seg = s.tailer.seg
  read_line : s.wal.readPos.line = s.tailer.line
  t_line : 0 ≤ s.tailer.line
  line_le : s.tailer.line ≤ tpos s.tailer
  pos_in : tpos s.tailer ≤ linesIn s.wal.dir s.tailer.seg
  enqueued : recordsBelow s.wal.dir s.wal.commit + s.out.sent.length
      + (pendingList s.tailer).length
    ≤ linesBelow s.wal.dir s.tailer.seg + tpos s.tailer + s.committed
  committed_le : s.committed ≤ s.out.sent.length

/-- What holds in addition in the runs of the program, where a send follows a length test that
has found room: the pending slot is empty and the cursor `line` counts exactly the lines
consumed. -/
structure RoomInv (s : Sys) : Prop where
  no_pending : s.tailer.hasPending = false
  pos_eq : tpos s.tailer = s.tailer.line

/-- A schedule in which the channel is full at the first look only. -/
def exChanBusy : Chan := ⟨[], fun n => n != 0, 0⟩

/-- A recovered log holding two uncommitted records. -/
def exTwo : WAL :=
  { dir := [(1, [[7], [8]])], commitMeta := .absent, segMaxBytes := 1048576,
    curLine := 2, curSeg := 1, curSize := 4, commit := ⟨1, 0⟩, readPos := ⟨1, 0⟩ }

/-- The state after three iterations of `drain` on `exTwo` under `exChanBusy` (the first finds
the channel full and reads nothing, the next two enqueue the two records) and the commit of the
two events. -/
def exAfterFull : Sys :=
  { wal := { exTwo with commitMeta := .parsed ⟨2, 0⟩, commit := ⟨2, 0⟩, readPos := ⟨1, 2⟩ },
    tailer := { seg := 1, line := 2, file := some 2, hasPending := false, pending := Event.zero },
    out := ⟨[exEvent 7, exEvent 8], fun n => n != 0, 5⟩,
    committed := 2 }

/-! ## The request path (`event.go`, `helpers.go`, `domain.go`, `geomapper.go`)

Go strings are Lean strings; `len` of a string is its number of bytes.  The functions of the Go
standard library that the request path calls are a parameter `GoLib`; the clock is the
parameter `now`. -/

/-- The library functions called on the request path: `strings.TrimSpace`, `strings.ToLower`,
`strings.ToUpper`, `strconv.Atoi` (`none` for an error), `net.SplitHostPort` (the host, `none`
for an error) and `net.ParseIP` (the bytes of the address, `none` for the Go `nil`).  `Atoi`
rejects the empty text, and `TrimSpace` of the empty text is empty. -/
structure GoLib where
  trimSpace : String → String
  toLower : String → String
  toUpper : String → String
  atoi : String → Option Int
  splitHostPort : String → Option String
  parseIP : String → Option (List Nat)
  atoi_empty : atoi "" = none
  trimSpace_empty : trimSpace "" = ""

/-- The built-in `len` on a string: its number of bytes. -/
def len (s : String) : Nat := s.utf8ByteSize

/-- The types `url.Values` and `http.Header`: the values given for each key, one entry for each
value, in the order of their appearance. -/
abbrev Values := List (String × String)

/-- Methods `url.Values.Get` and `http.Header.Get`: the first value of the key, the empty
string when the key has none. -/
def Values.Get (v : Values) (key : String) : String := (v.lookup key).getD ""

/-- What `buildEvent` and `clientIP16` read of an `http.Request`: the query `r.URL.Query()`,
the header `r.Header` and the peer address `r.RemoteAddr`.  Header names are compared in
their canonical form; the header is keyed here by the names that the code passes to `Get`. -/
structure Request where
  query : Values
  header : Values
  remoteAddr : String

/-- The struct `DomainRow`. -/
structure DomainRow where
  id : Int
  domain : String
  parentID : Int
  domainTypeID : Int
deriving DecidableEq, Repr

/-- The struct `DomainCache`: the map `m`.  Its lock is taken and released by `defer` on the
one return path of `Get` and is not modelled. -/
structure DomainCache where
  m : List (String × DomainRow)

/-- Method `DomainCache.Get`: `none` for the error "domain not found". -/
def DomainCache.Get (lib : GoLib) (c : DomainCache) (name : String) : Option DomainRow :=
  let name := lib.toLower (lib.trimSpace name)
  c.m.lookup name

/-- The struct `Country`. -/
structure Country where
  id : Int
  iso2 : String
  groupID : Int
deriving DecidableEq, Repr

/-- The lock `sync.RWMutex` as one goroutine after another sees it: the number of read locks
held. -/
structure RWMutex where
  readers : Nat
deriving DecidableEq, Repr

/-- Method `RWMutex.RLock`. -/
def RWMutex.RLock (mu : RWMutex) : RWMutex := { mu with readers := mu.readers + 1 }

/-- Method `RWMutex.RUnlock`. -/
def RWMutex.RUnlock (mu : RWMutex) : RWMutex := { mu with readers := mu.readers - 1 }

/-- Method `RWMutex.Lock`: the exclusive lock is granted when no read lock is held; `false`
stands for a call that waits. -/
def RWMutex.Lock (mu : RWMutex) : Bool := mu.readers == 0

/-- The struct `GeoMapper`: the lock `mu`, the map `iso`, and the count `lookups` of the reads
of the map made so far (a ghost field that the code does not have). -/
structure GeoMapper where
  mu : RWMutex
  iso : List (String × Country)
  lookups : Nat
deriving DecidableEq, Repr

/-- Method `GeoMapper.Get`: the row found (`none` for the Go `nil`) and the mapper as the call
leaves it. -/
def GeoMapper.Get (lib : GoLib) (g : GeoMapper) (iso2 : String) : Option Country × GeoMapper :=
  let isoCode := lib.toUpper (lib.trimSpace iso2)
  if len isoCode ≠ 2 then (none, g)
  else
    let g := { g with mu := g.mu.RLock }
    let g := { g with lookups := g.lookups + 1 }
    match g.iso.lookup isoCode with
    | none => (none, g)
    | some v => (some v, { g with mu := g.mu.RUnlock })

/-- Method `GeoMapper.reload` once the query has answered with `rows` (`id`, `iso_code`,
`geo_group_id`): the table is built, a later row replacing an earlier one of the same key, and
installed under the exclusive lock; `none` when that lock is not granted and the call waits. -/
def GeoMapper.reload (lib : GoLib) (g : GeoMapper) (rows : List (Int × String × Int)) :
    Option GeoMapper :=
  let tmp := rows.foldl
    (fun tmp row => (lib.toUpper (lib.trimSpace row.2.1), ⟨row.1, row.2.1, row.2.2⟩) :: tmp) []
  if g.mu.Lock then some { g with iso := tmp } else none

/-- Method `net.IP.To16`: a 4-byte address in its IPv4-mapped form, a 16-byte address as it
is, `none` (the Go `nil`) for any other length. -/
def To16 (ip : List Nat) : Option (List Nat) :=
  if ip.length = 4 then some ([0, 0, 0, 0, 0, 0, 0, 0, 0, 0, 255, 255] ++ ip)
  else if ip.length = 16 then some ip
  else none

/-- Function `ipTo16`; the Go `nil` is the empty list. -/
def ipTo16 (lib : GoLib) (s : String) : List Nat :=
  match lib.parseIP s with
  | none => []
  | some ip =>
    match To16 ip with
    | none => []
    | some ip => ip

/-- The expression `strings.Split(s, ",")[0]`: the text before the first comma. -/
def firstField (s : String) : String := String.mk (s.data.takeWhile (fun c => c != ','))

/-- Function `clientIP16`. -/
def clientIP16 (lib : GoLib) (r : Request) : List Nat :=
  let ip := lib.trimSpace (r.header.Get "CF-Connecting-IP")
  if ip ≠ "" then ipTo16 lib ip
  else
    let xff := r.header.Get "X-Forwarded-For"
    if xff ≠ "" then ipTo16 lib (lib.trimSpace (firstField xff))
    else
      match lib.splitHostPort r.remoteAddr with
      | none => ipTo16 lib r.remoteAddr
      | some host => ipTo16 lib host

/-- The keys of the map `allowedEvents`. -/
def allowedEvents : List String :=
  ["load", "play", "pay", "vast_complete", "p25", "p50", "p75", "p100", "getads", "impression",
    "p1", "fallback", "loaderror"]

/-- The four errors of `buildEvent`: "no event param", "no domain param", "no file_id param"
and "domain not found". -/
inductive BuildErr where
  | noEvent
  | noDomain
  | noFileID
  | domainNotFound
deriving DecidableEq, Repr

/-- Function `buildEvent`: the event or the error, and the geo mapper as the call leaves it;
`now` is `time.Now().UTC()`. -/
def buildEvent (lib : GoLib) (now : Int) (r : Request) (dc : DomainCache) (geo : GeoMapper) :
    Except BuildErr Event × GeoMapper :=
  let q := r.query
  let ev := q.Get "event"
  if !allowedEvents.contains ev then (.error .noEvent, geo)
  else
    let domainName := lib.toLower (lib.trimSpace (q.Get "domain"))
    if domainName = "" then (.error .noDomain, geo)
    else
      match lib.atoi (q.Get "file_id") with
      | none => (.error .noFileID, geo)
      | some fileID =>
        if fileID ≤ 0 then (.error .noFileID, geo)
        else
          match dc.Get lib domainName with
          | none => (.error .domainNotFound, geo)
          | some drow =>
            let ip16 := clientIP16 lib r
            let iso2 := r.header.Get "CF-IPCountry"
            let forceCountry := q.Get "force_country"
            let iso2 := if forceCountry ≠ "" then forceCountry else iso2
            let event : Event :=
              { ts := now, userID := drow.parentID, domainID := drow.id, geoID := 0,
                geoGroupID := 0, domainTypeID := drow.domainTypeID, visitorIP := ip16,
                fileID := fileID, eventName := ev }
            match geo.Get lib iso2 with
            | (none, geo) => (.ok event, geo)
            | (some country, geo) =>
              (.ok { event with geoID := country.id, geoGroupID := country.groupID }, geo)

/-- The first non-empty text of a list, the empty text when there is none (a notion of the
specification, not of the code). -/
def firstNonEmpty : List String → String
  | [] => ""
  | s :: rest => if s ≠ "" then s else firstNonEmpty rest

/-- The peer address without its port: the host that `net.SplitHostPort` gives, the whole of
`r.RemoteAddr` when it gives an error. -/
def peerHost (lib : GoLib) (r : Request) : String :=
  match lib.splitHostPort r.remoteAddr with
  | none => r.remoteAddr
  | some host => host

/-- The address text in the words of the specification: the first non-empty of the
`CF-Connecting-IP` header, the first comma-separated field of `X-Forwarded-For` and the peer
address, each trimmed as `clientIP16` trims it. -/
def specAddress (lib : GoLib) (r : Request) : String :=
  firstNonEmpty [lib.trimSpace (r.header.Get "CF-Connecting-IP"),
    lib.trimSpace (firstField (r.header.Get "X-Forwarded-For")), peerHost lib r]

/-- The canonical 16-byte form of an address text, `net.ParseIP` followed by `To16`: `none`
when the text is not an IP address. -/
def canonical16 (lib : GoLib) (s : String) : Option (List Nat) :=
  (lib.parseIP s).bind To16

/-- The country code that `buildEvent` looks up: `force_country` when that parameter is not
empty, the `CF-IPCountry` header otherwise. -/
def countryCode (r : Request) : String :=
  if r.query.Get "force_country" ≠ "" then r.query.Get "force_country"
  else r.header.Get "CF-IPCountry"

/-! ## The flusher (`flusher.go`)

The store and the clock are an oracle: `ok n` is the outcome of the `n`-th call of
`insertBatch`, and `cancelled n` tells whether at the `n`-th wait after a failed write the
context is done before the backoff has elapsed. -/

/-- The store as the flusher sees it: `rows` holds the batches written so far, in order;
`calls` and `waits` count the writes tried and the waits made. -/
structure Store where
  rows : List (List Event)
  ok : Nat → Bool
  cancelled : Nat → Bool
  calls : Nat
  waits : Nat

/-- Function `insertBatch`: one statement writes the whole batch or nothing; `true` stands for
the `nil` error. -/
def insertBatch (db : Store) (batch : List Event) : Bool × Store :=
  if db.ok db.calls then (true, { db with rows := db.rows ++ [batch], calls := db.calls + 1 })
  else (false, { db with calls := db.calls + 1 })

/-- The wait after a failed write, `select { case <-time.After(backoff): ... case <-ctx.Done():
... }`: `true` when the context is done first. -/
def Store.wait (db : Store) : Bool × Store :=
  (db.cancelled db.waits, { db with waits := db.waits + 1 })

/-- What the flusher does to the outside, in order: a batch written to the store, and a call
of `AdvanceCommit` with its argument. -/
inductive Act where
  | stored (batch : List Event)
  | advanced (n : Int)
deriving DecidableEq, Repr

/-- The variables of the function `flusher`: the log `wal`, the store `db`, the batch `buf`,
the flag `blocked`, whether the function has returned, and the acts so far (a ghost field that
the code does not have). -/
structure Flusher where
  wal : WAL
  db : Store
  buf : List Event
  blocked : Bool
  returned : Bool
  acts : List Act

/-- The loop `for attempt := 1; attempt <= 10; attempt++` of the closure `flush`, with `left`
attempts still to make, and the `return false` behind it. -/
def flushLoop : Nat → Flusher → Bool × Flusher
  | 0, f => (false, f)
  | left + 1, f =>
    match insertBatch f.db f.buf with
    | (false, db) =>
      match db.wait with
      | (true, db) => (false, { f with db := db })
      | (false, db) => flushLoop left { f with db := db }
    | (true, db) =>
      (true, { f with
        db := db
        wal := (AdvanceCommit f.wal f.buf.length).getD f.wal
        acts := f.acts ++ [.stored f.buf, .advanced f.buf.length]
        buf := [] })

/-- The closure `flush`. -/
def flush (f : Flusher) : Bool × Flusher :=
  if f.buf.length = 0 then (true, f) else flushLoop 10 f

/-- The case that the `select` of the flusher loop takes: the context is done, the ticker
fires, or the event `e` is received from the channel. -/
inductive Select where
  | done
  | tick
  | recv (e : Event)

/-- One iteration of the loop of `flusher`; `none` when the case cannot be taken: the function
has returned, or the case is a receive and `inCh` is `nil` because `blocked` is set. -/
def flusherStep (batchMax : Int) (f : Flusher) : Select → Option Flusher
  | .done => if f.returned then none else some { (flush f).2 with returned := true }
  | .tick =>
    if f.returned then none
    else
      match flush f with
      | (ok, f) => some { f with blocked := !ok }
  | .recv e =>
    if f.returned || f.blocked then none
    else
      let f := { f with buf := f.buf ++ [e] }
      if (f.buf.length : Int) ≥ batchMax then
        match flush f with
        | (ok, f) => some { f with blocked := !ok }
      else some f

/-- The states of the flusher: it starts with an empty batch, not blocked, and runs the loop. -/
inductive FlusherReach (batchMax : Int) : Flusher → Prop where
  | start (wal : WAL) (db : Store) : FlusherReach batchMax ⟨wal, db, [], false, false, []⟩
  | step (f g : Flusher) (s : Select) : FlusherReach batchMax f →
      flusherStep batchMax f s = some g → FlusherReach batchMax g

/-! ## Example requests, caches, logs and flusher states -/

/-- The number written by a non-empty run of decimal digits. -/
def exDigits (cs : List Char) : Option Nat :=
  if cs.isEmpty || !cs.all Char.isDigit then none
  else some (cs.foldl (fun n c => 10 * n + (c.toNat - 48)) 0)

/-- A stand-in for `strconv.Atoi` on short decimal texts: an optional sign and digits. -/
def exAtoi (s : String) : Option Int :=
  match s.data with
  | '-' :: cs => (exDigits cs).map (fun n => -(n : Int))
  | '+' :: cs => (exDigits cs).map (fun n => (n : Int))
  | cs => (exDigits cs).map (fun n => (n : Int))

/-- A stand-in for `strings.TrimSpace`. -/
def exTrim (s : String) : String :=
  String.mk ((s.data.dropWhile Char.isWhitespace).reverse.dropWhile Char.isWhitespace).reverse

/-- The fields of a text between its dots. -/
def exFields : List Char → List (List Char)
  | [] => [[]]
  | c :: cs =>
    match exFields cs with
    | [] => [[]]
    | p :: ps => if c = '.' then [] :: p :: ps else (c :: p) :: ps

/-- A stand-in for `net.ParseIP` on dotted IPv4 texts, which `ParseIP` returns in the 16-byte
form; every other text is refused. -/
def exParseIP (s : String) : Option (List Nat) :=
  match (exFields s.data).map exDigits with
  | [some a, some b, some c, some d] =>
    if a ≤ 255 ∧ b ≤ 255 ∧ c ≤ 255 ∧ d ≤ 255 then
      some [0, 0, 0, 0, 0, 0, 0, 0, 0, 0, 255, 255, a, b, c, d]
    else none
  | _ => none

/-- A stand-in for `net.SplitHostPort` on texts `host:port` without brackets: the text before
the last colon. -/
def exSplitHostPort (s : String) : Option String :=
  if s.data.contains ':' then
    some (String.mk ((s.data.reverse.dropWhile (fun c => c != ':')).drop 1).reverse)
  else none

/-- The library on the ASCII texts of the examples. -/
def exLib : GoLib :=
  { trimSpace := exTrim
    toLower := fun s => String.mk (s.data.map Char.toLower)
    toUpper := fun s => String.mk (s.data.map Char.toUpper)
    atoi := exAtoi
    splitHostPort := exSplitHostPort
    parseIP := exParseIP
    atoi_empty := rfl
    trimSpace_empty := rfl }

/-- A domain cache holding the row `(id=7, parent_id=3, domain_type_id=1)` of `example.com`. -/
def exDomains : DomainCache := { m := [("example.com", ⟨7, "example.com", 3, 1⟩)] }

/-- A geo cache holding `DE` as `(id=20, group_id=5)` and `US` as `(id=30, group_id=6)`, no
lock held. -/
def exGeo : GeoMapper :=
  { mu := ⟨0⟩, iso := [("DE", ⟨20, "DE", 5⟩), ("US", ⟨30, "US", 6⟩)], lookups := 0 }

/-- A well-formed request: event `play` of file 42 on ` Example.COM `, country forced to `de`,
sent from `1.2.3.4` through the proxy at `5.6.7.8`. -/
def exRequest : Request :=
  { query := [("event", "play"), ("domain", " Example.COM "), ("file_id", "42"),
      ("force_country", "de")]
    header := [("CF-IPCountry", "US"), ("CF-Connecting-IP", "1.2.3.4")]
    remoteAddr := "5.6.7.8:1234" }

/-- The request `exRequest` with a `CF-Connecting-IP` header that is not an address. -/
def exRequestBadIP : Request :=
  { exRequest with header := [("CF-IPCountry", "US"), ("CF-Connecting-IP", "unknown")] }

/-- The request `exRequest` without `CF-Connecting-IP` and with an `X-Forwarded-For` header
whose first field is empty. -/
def exRequestEmptyField : Request :=
  { exRequest with header := [("CF-IPCountry", "US"), ("X-Forwarded-For", ", 1.2.3.4")] }

/-- An example log whose second line is two bytes that do not decode; the first record is
committed and read. -/
def exCorrupt : WAL :=
  { dir := [(1, [[7], [1, 2], [8]])], commitMeta := .parsed ⟨1, 1⟩, segMaxBytes := 1048576,
    curLine := 3, curSeg := 1, curSize := 7, commit := ⟨1, 1⟩, readPos := ⟨1, 1⟩ }

/-- A schedule in which the channel is full at the third look only: after the first record is
enqueued the length test of `drain` finds the channel full. -/
def exChanTight : Chan := ⟨[], fun n => n != 2, 0⟩

/-- The tailer's cursor is in step with its reader: nothing is pending, the published read
position is the cursor, `line` is the number of lines of the segment consumed so far (the lines
behind the open handle, or the lines to skip at the next open), that number is at most the line
count of the segment, and a segment that is open for reading exists. -/
structure InStep (w : WAL) (t : WALTailer) : Prop where
  no_pending : t.hasPending = false
  line_nonneg : 0 ≤ t.line
  published : w.readPos = ⟨t.seg, t.line⟩
  pos_eq : tpos t = t.line
  pos_in : tpos t ≤ linesIn w.dir t.seg
  open_seg : ∀ off, t.file = some off → (w.dir.lookup t.seg).isSome = true

/-- The schedule is one that a channel with the tailer as its only sender can show during the
first `fuel` iterations of `drain`: the flusher only takes events from the channel, so when the
length test of an iteration finds room, the next look at the channel, the send of that
iteration, finds room too.  The channel may be full at any length test. -/
def loneSenderLoop (cd : Codec) : Nat → WAL → WALTailer → Chan → Bool
  | 0, _, _, _ => true
  | fuel + 1, w, t, out =>
    (!out.room out.tick || out.room (out.tick + 1)) &&
    match out.isFull with
    | (full, out) =>
      if full && !t.hasPending then true
      else
        match readOneAndQueue cd w t out with
        | (false, _, _, _) => true
        | (true, w, t, out) => loneSenderLoop cd fuel w t out

/-- The schedule is one that a channel with the tailer as its only sender can show during `n`
calls of `drain`. -/
def loneSender (cd : Codec) : Nat → WAL → WALTailer → Chan → Bool
  | 0, _, _, _ => true
  | n + 1, w, t, out =>
    loneSenderLoop cd (drainBound w.dir) w t out &&
    match drain cd w t out with
    | none => true
    | some (w, t, out) => loneSender cd n w t out

/-- A store whose first two writes fail and whose third succeeds, no cancellation. -/
def exStore : Store := ⟨[], fun n => n == 2, fun _ => false, 0, 0⟩

/-- A store in which every write fails. -/
def exStoreDown : Store := ⟨[], fun _ => false, fun _ => false, 0, 0⟩

/-- A flusher on the log `exWAL` holding the two uncommitted records in its batch. -/
def exFlusher (db : Store) : Flusher :=
  { wal := exWAL, db := db, buf := [exEvent 8, exEvent 9], blocked := false, returned := false,
    acts := [] }

/-- The flusher after it has received two events with `batchMax = 2` while the store is down:
the `flush` that the second receive ran has failed 10 times. -/
def exBlocked : Flusher :=
  { wal := exWAL, db := { exStoreDown with calls := 10, waits := 10 },
    buf := [exEvent 8, exEvent 9], blocked := true, returned := false, acts := [] }

/-! ## Theorems -/

theorem advanceLoop_of_nonpos (dir : Dir) (f : Nat) (c : CommitPos) (n : Int) (h : n ≤ 0) :
    advanceLoop dir f c n = some c := by
  have hn : ¬ n > 0 := not_lt.mpr h
  cases f <;> simp [advanceLoop, hn]

theorem advanceLoop_zero_pos (dir : Dir) (c : CommitPos) (n : Int) (h : 0 < n) :
    advanceLoop dir 0 c n = none := by
  simp [advanceLoop, h]

theorem advanceLoop_missing (dir : Dir) (f : Nat) (c : CommitPos) (n : Int) (h : 0 < n)
    (hc : countLines dir c.seg = none) : advanceLoop dir (f + 1) c n = some c := by
  simp [advanceLoop, h, hc]

theorem advanceLoop_skip (dir : Dir) (f : Nat) (c : CommitPos) (n : Int) (L : Nat) (h : 0 < n)
    (hc : countLines dir c.seg = some L) (hr : (L : Int) - c.line ≤ 0) :
    advanceLoop dir (f + 1) c n = advanceLoop dir f ⟨c.seg + 1, 0⟩ n := by
  simp [advanceLoop, h, hc, hr]

theorem advanceLoop_inside (dir : Dir) (f : Nat) (c : CommitPos) (n : Int) (L : Nat) (h : 0 < n)
    (hc : countLines dir c.seg = some L) (hr : 0 < (L : Int) - c.line) (hn : n < (L : Int) - c.line) :
    advanceLoop dir (f + 1) c n = some ⟨c.seg, c.line + n⟩ := by
  have hr2 : ¬ ((L : Int) - c.line ≤ 0) := not_le.mpr hr
  rw [advanceLoop]
  simp only [h, hc, hr2, hn, if_true, if_false, gt_iff_lt]
  exact advanceLoop_of_nonpos _ _ _ _ le_rfl

theorem advanceLoop_cross (dir : Dir) (f : Nat) (c : CommitPos) (n : Int) (L : Nat) (h : 0 < n)
    (hc : countLines dir c.seg = some L) (hr : 0 < (L : Int) - c.line) (hn : (L : Int) - c.line ≤ n) :
    advanceLoop dir (f + 1) c n = advanceLoop dir f ⟨c.seg + 1, 0⟩ (n - ((L : Int) - c.line)) := by
  have hr2 : ¬ ((L : Int) - c.line ≤ 0) := not_le.mpr hr
  have hn2 : ¬ (n < (L : Int) - c.line) := not_lt.mpr hn
  rw [advanceLoop]
  simp only [h, hc, hr2, hn2, if_true, if_false, gt_iff_lt]

theorem advanceLoop_succ (dir : Dir) : ∀ (f : Nat) (c : CommitPos) (n : Int) (r : CommitPos),
    advanceLoop dir f c n = some r → advanceLoop dir (f + 1) c n = some r := by
  intro f
  induction f with
  | zero =>
    intro c n r h
    by_cases hn : 0 < n
    · rw [advanceLoop_zero_pos dir c n hn] at h
      cases h
    · have hle : n ≤ 0 := not_lt.mp hn
      rw [advanceLoop_of_nonpos dir _ c n hle] at h ⊢
      exact h
  | succ f ih =>
    intro c n r h
    by_cases hn : 0 < n
    · cases hc : countLines dir c.seg with
      | none =>
        rw [advanceLoop_missing dir _ c n hn hc] at h ⊢
        exact h
      | some L =>
        by_cases hr : (L : Int) - c.line ≤ 0
        · rw [advanceLoop_skip dir _ c n L hn hc hr] at h ⊢
          exact ih _ _ _ h
        · have hr1 : 0 < (L : Int) - c.line := not_le.mp hr
          by_cases hlt : n < (L : Int) - c.line
          · rw [advanceLoop_inside dir _ c n L hn hc hr1 hlt] at h ⊢
            exact h
          · have hge : (L : Int) - c.line ≤ n := not_lt.mp hlt
            rw [advanceLoop_cross dir _ c n L hn hc hr1 hge] at h ⊢
            exact ih _ _ _ h
    · have hle : n ≤ 0 := not_lt.mp hn
      rw [advanceLoop_of_nonpos dir _ c n hle] at h ⊢
      exact h

theorem advanceLoop_mono (dir : Dir) (f g : Nat) (hfg : f ≤ g) (c : CommitPos) (n : Int)
    (r : CommitPos) (h : advanceLoop dir f c n = some r) : advanceLoop dir g c n = some r := by
  induction hfg with
  | refl => exact h
  | step _ ih => exact advanceLoop_succ dir _ c n r ih

theorem advanceLoop_det (dir : Dir) (f g : Nat) (c : CommitPos) (n : Int) (r s : CommitPos)
    (hf : advanceLoop dir f c n = some r) (hg : advanceLoop dir g c n = some s) : r = s := by
  have h1 := advanceLoop_mono dir f (max f g) (le_max_left _ _) c n r hf
  have h2 := advanceLoop_mono dir g (max f g) (le_max_right _ _) c n s hg
  rw [h1] at h2
  exact Option.some.inj h2

theorem entriesFrom_le (dir : Dir) (s : Int) : entriesFrom dir s ≤ dir.length :=
  List.length_filter_le _ _

theorem lookup_some_mem (dir : Dir) (s : Int) (ls : List Line) (h : dir.lookup s = some ls) :
    (s, ls) ∈ dir := by
  induction dir with
  | nil => simp at h
  | cons e t ih =>
    obtain ⟨k, v⟩ := e
    by_cases hk : s = k
    · subst hk
      simp [List.lookup] at h
      subst h
      exact List.mem_cons_self _ _
    · have hb : (s == k) = false := by simpa using hk
      simp [List.lookup, hb] at h
      exact List.mem_cons_of_mem _ (ih h)

theorem entriesFrom_succ_le (dir : Dir) (s : Int) : entriesFrom dir (s + 1) ≤ entriesFrom dir s := by
  unfold entriesFrom
  rw [← List.countP_eq_length_filter, ← List.countP_eq_length_filter]
  apply List.countP_mono_left
  intro x _ hx
  simp only [decide_eq_true_eq] at hx ⊢
  omega

theorem entriesFrom_succ_lt_of_mem (dir : Dir) (s : Int) (ls : List Line) (h : (s, ls) ∈ dir) :
    entriesFrom dir (s + 1) < entriesFrom dir s := by
  induction dir with
  | nil => cases h
  | cons e t ih =>
    have hle := entriesFrom_succ_le t s
    unfold entriesFrom at hle ih ⊢
    rcases List.mem_cons.mp h with h1 | h1
    · subst h1
      have h2 : ¬ (s + 1 ≤ s) := by omega
      simp only [List.filter_cons, le_refl, decide_True, if_true, h2, decide_False,
        List.length_cons]
      simp only [Bool.false_eq_true, if_false]
      omega
    · have h3 := ih h1
      simp only [List.filter_cons]
      by_cases h4 : s + 1 ≤ e.1
      · have h5 : s ≤ e.1 := by omega
        simp only [h4, h5, decide_True, if_true, List.length_cons]
        omega
      · by_cases h5 : s ≤ e.1
        · simp only [h4, h5, decide_True, decide_False, if_true, List.length_cons]
          simp only [Bool.false_eq_true, if_false]
          omega
        · simp only [h4, h5, decide_False]
          simp only [Bool.false_eq_true, if_false]
          omega

theorem entriesFrom_succ_lt (dir : Dir) (s : Int) (L : Nat) (h : countLines dir s = some L) :
    entriesFrom dir (s + 1) < entriesFrom dir s := by
  unfold countLines at h
  cases hl : dir.lookup s with
  | none => rw [hl] at h; simp at h
  | some ls => exact entriesFrom_succ_lt_of_mem dir s ls (lookup_some_mem dir s ls hl)

theorem advanceLoop_total (dir : Dir) : ∀ (f : Nat) (c : CommitPos) (n : Int),
    entriesFrom dir c.seg < f → ∃ r, advanceLoop dir f c n = some r := by
  intro f
  induction f with
  | zero => intro c n h; omega
  | succ f ih =>
    intro c n h
    by_cases hn : 0 < n
    · cases hc : countLines dir c.seg with
      | none => exact ⟨c, advanceLoop_missing dir _ c n hn hc⟩
      | some L =>
        have hlt := entriesFrom_succ_lt dir c.seg L hc
        by_cases hr : (L : Int) - c.line ≤ 0
        · rw [advanceLoop_skip dir _ c n L hn hc hr]
          exact ih _ _ (by simp only; omega)
        · have hr1 : 0 < (L : Int) - c.line := not_le.mp hr
          by_cases hlt2 : n < (L : Int) - c.line
          · exact ⟨_, advanceLoop_inside dir _ c n L hn hc hr1 hlt2⟩
          · have hge : (L : Int) - c.line ≤ n := not_lt.mp hlt2
            rw [advanceLoop_cross dir _ c n L hn hc hr1 hge]
            exact ih _ _ (by simp only; omega)
    · exact ⟨c, advanceLoop_of_nonpos dir _ c n (not_lt.mp hn)⟩

theorem AdvanceCommit_of_nonpos (w : WAL) (n : Int) (hn : n ≤ 0) : AdvanceCommit w n = some w := by
  simp [AdvanceCommit, hn]

theorem AdvanceCommit_of_pos (w : WAL) (n : Int) (hn : 0 < n) (r : CommitPos)
    (hr : advanceLoop w.dir (w.dir.length + 1) w.commit n = some r) :
    AdvanceCommit w n = some (saveCommitLocked { w with commit := r }) := by
  have hn2 : ¬ n ≤ 0 := not_le.mpr hn
  simp only [AdvanceCommit, hn2, if_false, hr]

theorem advanceLoop_full (dir : Dir) (c : CommitPos) (n : Int) :
    ∃ r, advanceLoop dir (dir.length + 1) c n = some r :=
  advanceLoop_total dir (dir.length + 1) c n (Nat.lt_succ_of_le (entriesFrom_le _ _))

theorem AdvanceCommit_total (w : WAL) (n : Int) : ∃ w', AdvanceCommit w n = some w' := by
  by_cases hn : n ≤ 0
  · exact ⟨w, AdvanceCommit_of_nonpos w n hn⟩
  · obtain ⟨r, hr⟩ := advanceLoop_full w.dir w.commit n
    exact ⟨_, AdvanceCommit_of_pos w n (not_le.mp hn) r hr⟩

theorem CommitPos.le_refl (a : CommitPos) : CommitPos.le a a := Or.inr ⟨rfl, le_rfl⟩

theorem CommitPos.le_trans {a b c : CommitPos} (h1 : CommitPos.le a b) (h2 : CommitPos.le b c) :
    CommitPos.le a c := by
  unfold CommitPos.le at *
  omega

theorem advanceLoop_ge (dir : Dir) : ∀ (f : Nat) (c : CommitPos) (n : Int) (r : CommitPos),
    advanceLoop dir f c n = some r → CommitPos.le c r := by
  intro f
  induction f with
  | zero =>
    intro c n r h
    by_cases hn : 0 < n
    · rw [advanceLoop_zero_pos dir c n hn] at h
      cases h
    · rw [advanceLoop_of_nonpos dir _ c n (not_lt.mp hn)] at h
      cases h
      exact CommitPos.le_refl c
  | succ f ih =>
    intro c n r h
    by_cases hn : 0 < n
    · cases hc : countLines dir c.seg with
      | none =>
        rw [advanceLoop_missing dir _ c n hn hc] at h
        cases h
        exact CommitPos.le_refl c
      | some L =>
        have hnext : CommitPos.le c ⟨c.seg + 1, 0⟩ := Or.inl (by simp only; omega)
        by_cases hr : (L : Int) - c.line ≤ 0
        · rw [advanceLoop_skip dir _ c n L hn hc hr] at h
          exact CommitPos.le_trans hnext (ih _ _ _ h)
        · have hr1 : 0 < (L : Int) - c.line := not_le.mp hr
          by_cases hlt : n < (L : Int) - c.line
          · rw [advanceLoop_inside dir _ c n L hn hc hr1 hlt] at h
            cases h
            exact Or.inr ⟨rfl, by simp only; omega⟩
          · have hge : (L : Int) - c.line ≤ n := not_lt.mp hlt
            rw [advanceLoop_cross dir _ c n L hn hc hr1 hge] at h
            exact CommitPos.le_trans hnext (ih _ _ _ h)
    · rw [advanceLoop_of_nonpos dir _ c n (not_lt.mp hn)] at h
      cases h
      exact CommitPos.le_refl c

theorem advanceLoop_add (dir : Dir) : ∀ (f g : Nat) (c : CommitPos) (n m : Int) (r s : CommitPos),
    0 ≤ n → 0 ≤ m → advanceLoop dir f c n = some r → advanceLoop dir g r m = some s →
    advanceLoop dir (f + g) c (n + m) = some s := by
  intro f
  induction f with
  | zero =>
    intro g c n m r s hn hm h1 h2
    by_cases hp : 0 < n
    · rw [advanceLoop_zero_pos dir c n hp] at h1
      cases h1
    · have h0 : n = 0 := by omega
      subst h0
      rw [advanceLoop_of_nonpos dir _ c 0 le_rfl] at h1
      cases h1
      simpa using h2
  | succ f ih =>
    intro g c n m r s hn hm h1 h2
    have hfg : f + 1 + g = (f + g) + 1 := by omega
    by_cases hp : 0 < n
    · have hnm : 0 < n + m := by omega
      rw [hfg]
      cases hc : countLines dir c.seg with
      | none =>
        rw [advanceLoop_missing dir _ c n hp hc] at h1
        cases h1
        rw [advanceLoop_missing dir _ c (n + m) hnm hc]
        by_cases hm0 : 0 < m
        · cases g with
          | zero =>
            rw [advanceLoop_zero_pos dir _ m hm0] at h2
            cases h2
          | succ g =>
            rw [advanceLoop_missing dir _ _ m hm0 hc] at h2
            exact h2
        · rw [advanceLoop_of_nonpos dir _ _ m (not_lt.mp hm0)] at h2
          exact h2
      | some L =>
        by_cases hr : (L : Int) - c.line ≤ 0
        · rw [advanceLoop_skip dir _ c n L hp hc hr] at h1
          rw [advanceLoop_skip dir _ c (n + m) L hnm hc hr]
          exact ih g _ n m r s hn hm h1 h2
        · have hr1 : 0 < (L : Int) - c.line := not_le.mp hr
          by_cases hlt : n < (L : Int) - c.line
          · rw [advanceLoop_inside dir _ c n L hp hc hr1 hlt] at h1
            cases h1
            by_cases hm0 : 0 < m
            · cases g with
              | zero =>
                rw [advanceLoop_zero_pos dir _ m hm0] at h2
                cases h2
              | succ g =>
                have hc2 : countLines dir (CommitPos.mk c.seg (c.line + n)).seg = some L := hc
                by_cases hlt2 : n + m < (L : Int) - c.line
                · rw [advanceLoop_inside dir _ _ m L hm0 hc2 (by simp only; omega)
                    (by simp only; omega)] at h2
                  rw [advanceLoop_inside dir _ c (n + m) L hnm hc hr1 hlt2]
                  rw [← h2]
                  simp only [add_assoc]
                · have hge2 : (L : Int) - c.line ≤ n + m := not_lt.mp hlt2
                  rw [advanceLoop_cross dir _ _ m L hm0 hc2 (by simp only; omega)
                    (by simp only; omega)] at h2
                  rw [advanceLoop_cross dir _ c (n + m) L hnm hc hr1 hge2]
                  have he : n + m - ((L : Int) - c.line) = m - ((L : Int) - (c.line + n)) := by omega
                  rw [he]
                  exact advanceLoop_mono dir g (f + (g + 1)) (by omega) _ _ _ h2
            · have hm1 : m = 0 := by omega
              subst hm1
              rw [advanceLoop_of_nonpos dir _ _ 0 le_rfl] at h2
              cases h2
              rw [add_zero]
              exact advanceLoop_inside dir _ c n L hp hc hr1 hlt
          · have hge : (L : Int) - c.line ≤ n := not_lt.mp hlt
            rw [advanceLoop_cross dir _ c n L hp hc hr1 hge] at h1
            rw [advanceLoop_cross dir _ c (n + m) L hnm hc hr1 (by omega)]
            have he : n + m - ((L : Int) - c.line) = (n - ((L : Int) - c.line)) + m := by omega
            rw [he]
            exact ih g _ _ m r s (by omega) hm h1 h2
    · have h0 : n = 0 := by omega
      subst h0
      rw [advanceLoop_of_nonpos dir _ c 0 le_rfl] at h1
      cases h1
      rw [zero_add]
      exact advanceLoop_mono dir g (f + 1 + g) (by omega) _ _ _ h2

theorem countLines_eq_none_iff (dir : Dir) (s : Int) :
    countLines dir s = none ↔ s ∉ segNums dir := by
  simp only [countLines, segNums, Option.map_eq_none', List.lookup_eq_none_iff, List.mem_toFinset,
    List.mem_map, not_exists, not_and, bne_iff_ne, ne_eq]
  constructor
  · intro h p hp hps
    exact h p hp hps.symm
  · intro h p hp hps
    exact h p hp hps.symm

theorem countLines_none_of_not_mem (dir : Dir) (s : Int) (h : s ∉ segNums dir) :
    countLines dir s = none := (countLines_eq_none_iff dir s).mpr h

theorem mem_segNums_of_countLines (dir : Dir) (s : Int) (L : Nat) (h : countLines dir s = some L) :
    s ∈ segNums dir := by
  by_contra hc
  rw [countLines_none_of_not_mem dir s hc] at h
  cases h

theorem linesBelow_succ (dir : Dir) (s : Int) :
    linesBelow dir (s + 1) = linesBelow dir s + linesIn dir s := by
  unfold linesBelow
  by_cases hs : s ∈ segNums dir
  · have hins : (segNums dir).filter (fun k => k < s + 1)
        = insert s ((segNums dir).filter (fun k => k < s)) := by
      ext k
      simp only [Finset.mem_filter, Finset.mem_insert]
      constructor
      · rintro ⟨hk, hlt⟩
        by_cases hks : k = s
        · exact Or.inl hks
        · exact Or.inr ⟨hk, by omega⟩
      · rintro (hk | ⟨hk, hlt⟩)
        · subst hk; exact ⟨hs, by omega⟩
        · exact ⟨hk, by omega⟩
    have hnot : s ∉ (segNums dir).filter (fun k => k < s) := by
      simp only [Finset.mem_filter, not_and, lt_self_iff_false, not_false_eq_true, implies_true]
    rw [hins, Finset.sum_insert hnot]
    ring
  · have heq : (segNums dir).filter (fun k => k < s + 1) = (segNums dir).filter (fun k => k < s) := by
      ext k
      simp only [Finset.mem_filter]
      constructor
      · rintro ⟨hk, hlt⟩
        have : k ≠ s := fun h => hs (h ▸ hk)
        exact ⟨hk, by omega⟩
      · rintro ⟨hk, hlt⟩
        exact ⟨hk, by omega⟩
    have h0 : linesIn dir s = 0 := by
      simp [linesIn, countLines_none_of_not_mem dir s hs]
    rw [heq, h0]
    simp

theorem linesBelow_top (dir : Dir) (hi s : Int) (htop : ∀ k, hi < k → countLines dir k = none)
    (hs : hi < s) : linesBelow dir s = recordsTotal dir := by
  unfold linesBelow recordsTotal
  congr 1
  apply Finset.filter_true_of_mem
  intro k hk
  by_contra hlt
  exact (countLines_eq_none_iff dir k).mp (htop k (by omega)) hk

theorem linesIn_of_countLines (dir : Dir) (s : Int) (L : Nat) (h : countLines dir s = some L) :
    linesIn dir s = L := by
  simp [linesIn, h]

theorem advanceLoop_records (dir : Dir) (hi : Int)
    (htop : ∀ k, hi < k → countLines dir k = none) :
    ∀ (f : Nat) (c : CommitPos) (n : Int) (r : CommitPos),
    (∀ k, c.seg ≤ k → k ≤ hi → countLines dir k ≠ none) →
    (c.seg ≤ hi ∨ 0 ≤ c.line) → c.line ≤ linesIn dir c.seg → 0 ≤ n →
    n ≤ recordsTotal dir - recordsBelow dir c →
    advanceLoop dir f c n = some r → recordsBelow dir r = recordsBelow dir c + n := by
  intro f
  induction f with
  | zero =>
    intro c n r _ _ _ hn _ h
    by_cases hp : 0 < n
    · rw [advanceLoop_zero_pos dir c n hp] at h
      cases h
    · rw [advanceLoop_of_nonpos dir _ c n (not_lt.mp hp)] at h
      cases h
      have : n = 0 := by omega
      rw [this, add_zero]
  | succ f ih =>
    intro c n r hex hhi hline hn hle h
    by_cases hp : 0 < n
    · cases hc : countLines dir c.seg with
      | none =>
        exfalso
        rcases hhi with h1 | h1
        · exact hex c.seg le_rfl h1 hc
        · by_cases h2 : c.seg ≤ hi
          · exact hex c.seg le_rfl h2 hc
          · have h3 := linesBelow_top dir hi c.seg htop (by omega)
            unfold recordsBelow at hle
            omega
      | some L =>
        have hL := linesIn_of_countLines dir c.seg L hc
        have hsucc := linesBelow_succ dir c.seg
        have hex2 : ∀ k, (CommitPos.mk (c.seg + 1) 0).seg ≤ k → k ≤ hi → countLines dir k ≠ none :=
          fun k hk1 hk2 => hex k (by simp only at hk1; omega) hk2
        by_cases hr : (L : Int) - c.line ≤ 0
        · rw [advanceLoop_skip dir _ c n L hp hc hr] at h
          have h4 := ih _ n r hex2 (Or.inr le_rfl) (by simp) hn
            (by unfold recordsBelow at hle ⊢; simp only; omega) h
          unfold recordsBelow at h4 ⊢
          simp only at h4
          omega
        · have hr1 : 0 < (L : Int) - c.line := not_le.mp hr
          by_cases hlt : n < (L : Int) - c.line
          · rw [advanceLoop_inside dir _ c n L hp hc hr1 hlt] at h
            cases h
            unfold recordsBelow
            simp only
            omega
          · have hge : (L : Int) - c.line ≤ n := not_lt.mp hlt
            rw [advanceLoop_cross dir _ c n L hp hc hr1 hge] at h
            have h4 := ih _ _ r hex2 (Or.inr le_rfl) (by simp) (by omega)
              (by unfold recordsBelow at hle ⊢; simp only; omega) h
            unfold recordsBelow at h4 ⊢
            simp only at h4
            omega
    · rw [advanceLoop_of_nonpos dir _ c n (not_lt.mp hp)] at h
      cases h
      have : n = 0 := by omega
      rw [this, add_zero]

/-- C2: for non-negative `n1`, `n2`, `AdvanceCommit(n1)` followed by `AdvanceCommit(n2)` (the
segment files are the same in both calls) ends in the same state, and so the same commit
pointer, as the single call `AdvanceCommit(n1 + n2)`. -/
theorem AdvanceCommit_add (w : WAL) (n1 n2 : Int) (h1 : 0 ≤ n1) (h2 : 0 ≤ n2) :
    ∃ w1 w2, AdvanceCommit w n1 = some w1 ∧ w1.dir = w.dir ∧ AdvanceCommit w1 n2 = some w2 ∧
      AdvanceCommit w (n1 + n2) = some w2 := by
  by_cases hp1 : 0 < n1
  · obtain ⟨r1, hr1⟩ := advanceLoop_full w.dir w.commit n1
    have hw1 := AdvanceCommit_of_pos w n1 hp1 r1 hr1
    by_cases hp2 : 0 < n2
    · obtain ⟨r2, hr2⟩ := advanceLoop_full w.dir r1 n2
      obtain ⟨r, hr⟩ := advanceLoop_full w.dir w.commit (n1 + n2)
      have hadd := advanceLoop_add w.dir _ _ w.commit n1 n2 r1 r2 h1 h2 hr1 hr2
      have hrr : r = r2 := advanceLoop_det w.dir _ _ w.commit (n1 + n2) r r2 hr hadd
      subst hrr
      refine ⟨_, _, hw1, rfl, AdvanceCommit_of_pos _ n2 hp2 r hr2, ?_⟩
      rw [AdvanceCommit_of_pos w (n1 + n2) (by omega) r hr]
      rfl
    · have h0 : n2 = 0 := by omega
      subst h0
      refine ⟨_, _, hw1, rfl, AdvanceCommit_of_nonpos _ 0 le_rfl, ?_⟩
      rw [add_zero]
      exact hw1
  · have h0 : n1 = 0 := by omega
    subst h0
    obtain ⟨w2, hw2⟩ := AdvanceCommit_total w n2
    exact ⟨w, w2, AdvanceCommit_of_nonpos w 0 le_rfl, rfl, hw2, by rw [zero_add]; exact hw2⟩

theorem AdvanceCommit_add_witness :
    ∃ w1 w2, AdvanceCommit exWAL 1 = some w1 ∧ w1.dir = exWAL.dir ∧
      AdvanceCommit w1 1 = some w2 ∧ AdvanceCommit exWAL (1 + 1) = some w2 :=
  AdvanceCommit_add exWAL 1 1 (by decide) (by decide)

/-- C3: when the segments `commit.seg .. hi` all exist and no segment lies above `hi`,
`commit.line` is at most the line count of segment `commit.seg`, and at least `n` records lie at
or beyond the commit pointer, `AdvanceCommit(n)` with `n > 0` returns and raises the number of
records below the commit pointer by exactly `n`. -/
theorem AdvanceCommit_records (w : WAL) (n hi : Int) (hn : 0 < n)
    (hcontig : ∀ k, w.commit.seg ≤ k → ((countLines w.dir k).isSome ↔ k ≤ hi))
    (hseg : w.commit.seg ≤ hi)
    (hline : w.commit.line ≤ linesIn w.dir w.commit.seg)
    (hrec : n ≤ recordsTotal w.dir - recordsBelow w.dir w.commit) :
    ∃ w', AdvanceCommit w n = some w' ∧ w'.dir = w.dir ∧
      recordsBelow w'.dir w'.commit = recordsBelow w.dir w.commit + n := by
  obtain ⟨r, hr⟩ := advanceLoop_full w.dir w.commit n
  refine ⟨_, AdvanceCommit_of_pos w n hn r hr, rfl, ?_⟩
  have htop : ∀ k, hi < k → countLines w.dir k = none := by
    intro k hk
    have h1 := hcontig k (by omega)
    cases hc : countLines w.dir k with
    | none => rfl
    | some L =>
      rw [hc] at h1
      have := h1.mp rfl
      omega
  have hex : ∀ k, w.commit.seg ≤ k → k ≤ hi → countLines w.dir k ≠ none := by
    intro k hk1 hk2 hc
    have h1 := (hcontig k hk1).mpr hk2
    rw [hc] at h1
    cases h1
  exact advanceLoop_records w.dir hi htop _ w.commit n r hex (Or.inl hseg) hline (le_of_lt hn) hrec hr

theorem exWAL_contiguous :
    ∀ k, exWAL.commit.seg ≤ k → ((countLines exWAL.dir k).isSome ↔ k ≤ 2) := by
  intro k hk
  have hk1 : (1 : Int) ≤ k := hk
  by_cases h1 : k = 1
  · subst h1; decide
  · by_cases h2 : k = 2
    · subst h2; decide
    · have hb1 : (k == 1) = false := by simpa using h1
      have hb2 : (k == 2) = false := by simpa using h2
      simp only [exWAL, countLines, List.lookup, hb1, hb2, Option.map_none', Option.isSome_none,
        Bool.false_eq_true, false_iff, not_le]
      omega

theorem AdvanceCommit_records_witness :
    ∃ w', AdvanceCommit exWAL 2 = some w' ∧ w'.dir = exWAL.dir ∧
      recordsBelow w'.dir w'.commit = recordsBelow exWAL.dir exWAL.commit + 2 :=
  AdvanceCommit_records exWAL 2 2 (by decide) exWAL_contiguous (by decide) (by decide) (by decide)

/-- C4: `AdvanceCommit(n)` returns for every state and every integer `n`, and the commit pointer
after the call is at or above the commit pointer before it in the lexicographic order. -/
theorem AdvanceCommit_commit_le (w : WAL) (n : Int) :
    ∃ w', AdvanceCommit w n = some w' ∧ CommitPos.le w.commit w'.commit := by
  by_cases hn : n ≤ 0
  · exact ⟨w, AdvanceCommit_of_nonpos w n hn, CommitPos.le_refl _⟩
  · obtain ⟨r, hr⟩ := advanceLoop_full w.dir w.commit n
    exact ⟨_, AdvanceCommit_of_pos w n (not_le.mp hn) r hr, advanceLoop_ge w.dir _ _ _ _ hr⟩

/-- C5: when the loop of `AdvanceCommit` stands at a position whose segment file does not exist
with `m > 0` records still to commit, it exits at that position and drops `m`; in particular a
call `AdvanceCommit(n)`, `n > 0`, whose segment `commit.seg` is missing persists the commit
pointer unchanged and returns without error. -/
theorem AdvanceCommit_missing_segment (w : WAL) (n : Int) (hn : 0 < n)
    (hmiss : countLines w.dir w.commit.seg = none) :
    AdvanceCommit w n = some { w with commitMeta := .parsed w.commit } ∧
    ∀ (fuel : Nat) (c : CommitPos) (m : Int), 0 < m → countLines w.dir c.seg = none →
      advanceLoop w.dir (fuel + 1) c m = some c :=
  ⟨AdvanceCommit_of_pos w n hn w.commit (advanceLoop_missing w.dir _ w.commit n hn hmiss),
   fun fuel c m hm hc => advanceLoop_missing w.dir fuel c m hm hc⟩

theorem AdvanceCommit_missing_segment_witness :
    AdvanceCommit exWALAhead 3 = some { exWALAhead with commitMeta := .parsed exWALAhead.commit } ∧
    ∀ (fuel : Nat) (c : CommitPos) (m : Int), 0 < m → countLines exWALAhead.dir c.seg = none →
      advanceLoop exWALAhead.dir (fuel + 1) c m = some c :=
  AdvanceCommit_missing_segment exWALAhead 3 (by decide) (by decide)

theorem lookup_remove (dir : Dir) (s k : Int) :
    (dir.remove s).lookup k = if k = s then none else dir.lookup k := by
  induction dir with
  | nil => simp [Dir.remove]
  | cons e t ih =>
    obtain ⟨a, v⟩ := e
    unfold Dir.remove at ih ⊢
    by_cases ha : a = s
    · subst ha
      simp only [List.filter_cons, ne_eq, not_true_eq_false, decide_False, Bool.false_eq_true,
        if_false]
      rw [ih]
      by_cases hk : k = a
      · simp [hk]
      · have hb : (k == a) = false := by simpa using hk
        simp [hk, List.lookup, hb]
    · simp only [List.filter_cons, ne_eq, ha, not_false_eq_true, decide_True, if_true]
      by_cases hk : k = a
      · subst hk
        simp [List.lookup, ha]
      · have hb : (k == a) = false := by simpa using hk
        simp only [List.lookup, hb]
        exact ih

theorem lookup_foldl_remove (limit : Int) (segs : List Int) : ∀ (dir : Dir) (k : Int),
    (segs.foldl (fun d seg => if seg < limit then d.remove seg else d) dir).lookup k
      = if k ∈ segs ∧ k < limit then none else dir.lookup k := by
  induction segs with
  | nil => intro dir k; simp
  | cons s t ih =>
    intro dir k
    rw [List.foldl_cons, ih]
    by_cases hs : s < limit
    · simp only [hs, if_true, lookup_remove, List.mem_cons]
      by_cases hks : k = s
      · subst hks
        simp [hs]
      · simp [hks]
    · simp only [hs, if_false, List.mem_cons]
      by_cases hks : k = s
      · subst hks
        simp [hs]
      · simp [hks]

theorem mem_listSegs (dir : Dir) (k : Int) : k ∈ listSegs dir ↔ k ∈ segNums dir := by
  unfold listSegs segNums
  rw [(List.perm_insertionSort _ _).mem_iff, List.mem_dedup, List.mem_toFinset]

theorem lookup_none_of_not_mem (dir : Dir) (k : Int) (h : k ∉ segNums dir) :
    dir.lookup k = none := by
  have := countLines_none_of_not_mem dir k h
  simpa [countLines] using this

theorem Compact_lookup (w : WAL) (k : Int) :
    (Compact w).dir.lookup k = if k < compactLimit w then none else w.dir.lookup k := by
  have hlim : (if w.readPos.seg < (if w.curSeg < w.commit.seg then w.curSeg else w.commit.seg)
      then w.readPos.seg else (if w.curSeg < w.commit.seg then w.curSeg else w.commit.seg))
      = compactLimit w := by
    unfold compactLimit
    simp only [min_def]
    split_ifs <;> omega
  unfold Compact
  simp only [hlim, lookup_foldl_remove, mem_listSegs]
  by_cases hk : k < compactLimit w
  · by_cases hm : k ∈ segNums w.dir
    · simp [hk, hm]
    · simp [hk, hm, lookup_none_of_not_mem w.dir k hm]
  · simp [hk]

/-- C6: after `Compact` a segment file exists exactly when it existed before and its number is
at least `min(commit.seg, curSeg, readPos.seg)`, with its content unchanged: every segment
strictly below the limit is gone, no other segment is touched, and in particular segment
`curSeg` and every segment at or above `commit.seg` or `readPos.seg` are kept. -/
theorem Compact_segments (w : WAL) :
    (∀ k, (Compact w).dir.lookup k = if k < compactLimit w then none else w.dir.lookup k) ∧
    segNums (Compact w).dir = (segNums w.dir).filter (fun k => compactLimit w ≤ k) ∧
    (Compact w).dir.lookup w.curSeg = w.dir.lookup w.curSeg ∧
    (∀ k, w.commit.seg ≤ k ∨ w.readPos.seg ≤ k → (Compact w).dir.lookup k = w.dir.lookup k) := by
  refine ⟨Compact_lookup w, ?_, ?_, ?_⟩
  · ext k
    rw [Finset.mem_filter]
    have h1 := countLines_eq_none_iff (Compact w).dir k
    have h2 := countLines_eq_none_iff w.dir k
    simp only [countLines, Option.map_eq_none', Compact_lookup w k] at h1 h2
    by_cases hk : k < compactLimit w
    · simp only [hk, if_true, true_iff, not_not] at h1
      constructor
      · intro h; exact absurd h h1
      · intro h; omega
    · simp only [hk, if_false] at h1
      constructor
      · intro h
        refine ⟨?_, by omega⟩
        by_contra hc
        exact (h1.mp (h2.mpr hc)) h
      · intro h
        by_contra hc
        exact (h2.mp (h1.mpr hc)) h.1
  · rw [Compact_lookup]
    have : ¬ w.curSeg < compactLimit w := by
      unfold compactLimit
      simp only [not_lt, min_le_iff, le_refl, true_or, or_true]
    simp only [this, if_false]
  · intro k hk
    rw [Compact_lookup]
    have : ¬ k < compactLimit w := by
      unfold compactLimit
      simp only [not_lt, min_le_iff]
      omega
    simp only [this, if_false]

theorem Compact_segments_witness :
    (∀ k, (Compact exWALOld).dir.lookup k
      = if k < compactLimit exWALOld then none else exWALOld.dir.lookup k) ∧
    segNums (Compact exWALOld).dir
      = (segNums exWALOld.dir).filter (fun k => compactLimit exWALOld ≤ k) ∧
    (Compact exWALOld).dir.lookup exWALOld.curSeg = exWALOld.dir.lookup exWALOld.curSeg ∧
    (∀ k, exWALOld.commit.seg ≤ k ∨ exWALOld.readPos.seg ≤ k →
      (Compact exWALOld).dir.lookup k = exWALOld.dir.lookup k) :=
  Compact_segments exWALOld

theorem lookup_cons_ite (k a : Int) (v : List Line) (t : Dir) :
    List.lookup k ((a, v) :: t) = if k = a then some v else List.lookup k t := by
  by_cases h : k = a
  · subst h
    simp [List.lookup]
  · have hb : (k == a) = false := by simpa using h
    simp [List.lookup, hb, h]

theorem lookup_appendLine (dir : Dir) (s k : Int) (l : Line) :
    (dir.appendLine s l).lookup k
      = if k = s then (dir.lookup s).map (fun ls => ls ++ [l]) else dir.lookup k := by
  induction dir with
  | nil => simp [Dir.appendLine]
  | cons e t ih =>
    obtain ⟨a, v⟩ := e
    unfold Dir.appendLine at ih ⊢
    rw [List.map_cons]
    by_cases ha : a = s
    · subst ha
      have hf : (if (a, v).1 = a then ((a, v).1, (a, v).2 ++ [l]) else (a, v)) = (a, v ++ [l]) := by
        simp
      rw [hf]
      simp only [lookup_cons_ite, ih]
      by_cases hk : k = a
      · subst hk
        simp
      · simp [hk]
    · have hf : (if (a, v).1 = s then ((a, v).1, (a, v).2 ++ [l]) else (a, v)) = (a, v) := by
        simp [ha]
      rw [hf]
      simp only [lookup_cons_ite, ih]
      by_cases hk : k = a
      · subst hk
        simp [ha]
      · by_cases hks : k = s
        · subst hks
          have : ¬ k = a := hk
          simp [this]
        · simp [hk, hks]

theorem lookup_append_single (dir : Dir) (s k : Int) (v : List Line) (h : dir.lookup s = none) :
    (dir ++ [(s, v)]).lookup k = if k = s then some v else dir.lookup k := by
  induction dir with
  | nil =>
    by_cases hk : k = s
    · subst hk; simp [List.lookup]
    · have hb : (k == s) = false := by simpa using hk
      simp [List.lookup, hb, hk]
  | cons e t ih =>
    obtain ⟨a, u⟩ := e
    have has : ¬ s = a := by
      intro hsa
      subst hsa
      simp [List.lookup] at h
    have hb0 : (s == a) = false := by simpa using has
    simp only [List.lookup, hb0] at h
    by_cases hk : k = a
    · subst hk
      have : ¬ k = s := fun hks => has hks.symm
      simp [List.lookup, this]
    · have hb : (k == a) = false := by simpa using hk
      simp only [List.cons_append, List.lookup, hb]
      exact ih h

theorem lookup_create (dir : Dir) (s k : Int) :
    (dir.create s).lookup k = if k = s then some ((dir.lookup s).getD []) else dir.lookup k := by
  unfold Dir.create
  cases h : dir.lookup s with
  | some v =>
    by_cases hk : k = s
    · subst hk; simp [h]
    · simp [hk]
  | none =>
    simp only [lookup_append_single dir s k [] h, Option.getD_none]

theorem openSeg_create (w : WAL) (seg : Int) :
    openSeg w seg true =
      { w with dir := w.dir.create seg, curSize := fileSize ((w.dir.lookup seg).getD []),
               curSeg := seg, curLine := (((w.dir.lookup seg).getD []).length : Nat) } := by
  unfold openSeg
  simp [lookup_create]

/-- C7: in a state where `curLine` is the number of lines of segment `curSeg`,
`curSeg >= commit.seg` and the segment is below the rotation threshold, a successful `Append`
adds exactly the one serialized line at the end of segment `curSeg`, leaves every other segment
as it was, and returns `(curSeg, curLine + 1)`, whose line number is the number of lines now in
that segment. -/
theorem Append_same_segment (cd : Codec) (w : WAL) (ev : Event) (pos : AppendPos)
    (ls : List Line)
    (hcur : w.dir.lookup w.curSeg = some ls) (hline : w.curLine = ls.length)
    (hseg : w.commit.seg ≤ w.curSeg)
    (hrot : ¬ (w.segMaxBytes > 0 ∧ w.curSize ≥ w.segMaxBytes))
    (hok : (Append cd w ev).1 = .ok pos) :
    ∃ b, cd.marshal ev = some b ∧
      (Append cd w ev).2.dir.lookup w.curSeg = some (ls ++ [b]) ∧
      (∀ k, k ≠ w.curSeg → (Append cd w ev).2.dir.lookup k = w.dir.lookup k) ∧
      pos = ⟨w.curSeg, w.curLine + 1⟩ ∧
      pos.line = ((ls ++ [b]).length : Nat) := by
  have h1 : ¬ w.curSeg < w.commit.seg := not_lt.mpr hseg
  unfold Append at hok ⊢
  simp only [h1, if_false, hrot] at hok ⊢
  cases hm : cd.marshal ev with
  | none => rw [hm] at hok; cases hok
  | some b =>
    rw [hm] at hok
    simp only [Except.ok.injEq] at hok
    refine ⟨b, rfl, ?_, ?_, hok.symm, ?_⟩
    · simp only [lookup_appendLine, if_true, hcur, Option.map_some']
    · intro k hk
      simp only [lookup_appendLine, hk, if_false]
    · rw [← hok]
      simp only [hline, List.length_append, List.length_singleton, Nat.cast_add, Nat.cast_one]

/-- C8: with `segMaxBytes > 0`, `curSeg >= commit.seg`, `curSize >= segMaxBytes` and no file for
segment `curSeg + 1`, a successful `Append` creates segment `curSeg + 1` holding exactly the new
line, returns `(curSeg + 1, 1)`, and leaves segment `curSeg` and every other segment as it was. -/
theorem Append_rotates (cd : Codec) (w : WAL) (ev : Event) (pos : AppendPos)
    (hmax : w.segMaxBytes > 0) (hseg : w.commit.seg ≤ w.curSeg)
    (hsize : w.curSize ≥ w.segMaxBytes)
    (hnew : w.dir.lookup (w.curSeg + 1) = none)
    (hok : (Append cd w ev).1 = .ok pos) :
    ∃ b, cd.marshal ev = some b ∧
      (Append cd w ev).2.dir.lookup (w.curSeg + 1) = some [b] ∧
      pos = ⟨w.curSeg + 1, 1⟩ ∧
      (Append cd w ev).2.dir.lookup w.curSeg = w.dir.lookup w.curSeg ∧
      (∀ k, k ≠ w.curSeg + 1 → (Append cd w ev).2.dir.lookup k = w.dir.lookup k) := by
  have h1 : ¬ w.curSeg < w.commit.seg := not_lt.mpr hseg
  have h2 : w.segMaxBytes > 0 ∧ w.curSize ≥ w.segMaxBytes := ⟨hmax, hsize⟩
  have hframe : ∀ (b : Line) (k : Int), k ≠ w.curSeg + 1 →
      ((w.dir.create (w.curSeg + 1)).appendLine (w.curSeg + 1) b).lookup k = w.dir.lookup k := by
    intro b k hk
    simp only [lookup_appendLine, lookup_create, hk, if_false]
  unfold Append at hok ⊢
  simp only [h1, if_false, h2, and_self, if_true, openSeg_create, hnew, Option.getD_none,
    List.length_nil] at hok ⊢
  cases hm : cd.marshal ev with
  | none => rw [hm] at hok; cases hok
  | some b =>
    rw [hm] at hok
    simp only [Except.ok.injEq] at hok
    refine ⟨b, rfl, ?_, ?_, ?_, ?_⟩
    · simp only [lookup_appendLine, lookup_create, if_true, hnew, Option.getD_none,
        Option.map_some', List.nil_append]
    · rw [← hok]
      simp
    · exact hframe b w.curSeg (by omega)
    · intro k hk
      exact hframe b k hk

theorem listSegs_getLast (dir : Dir) (last : Int) (h : (listSegs dir).getLast? = some last) :
    last ∈ segNums dir ∧ ∀ k ∈ segNums dir, k ≤ last := by
  have hmem : last ∈ listSegs dir := List.mem_of_getLast?_eq_some h
  refine ⟨(mem_listSegs dir last).mp hmem, ?_⟩
  intro k hk
  have hk2 := (mem_listSegs dir k).mpr hk
  obtain ⟨ys, hys⟩ := List.getLast?_eq_some_iff.mp h
  have hsorted : List.Sorted (· ≤ ·) (listSegs dir) := by
    unfold listSegs
    exact List.sorted_insertionSort _ _
  rw [hys] at hsorted hk2
  have hpw := List.pairwise_append.mp hsorted
  rcases List.mem_append.mp hk2 with h1 | h1
  · exact hpw.2.2 k h1 last (List.mem_singleton_self _)
  · rw [List.mem_singleton] at h1
    omega

theorem listSegs_eq_nil_iff (dir : Dir) : listSegs dir = [] ↔ segNums dir = ∅ := by
  constructor
  · intro h
    ext k
    rw [← mem_listSegs, h]
    simp
  · intro h
    apply List.eq_nil_iff_forall_not_mem.mpr
    intro k hk
    rw [mem_listSegs, h] at hk
    simp at hk

theorem openOrCreateTail_empty (w : WAL) (h : segNums w.dir = ∅) :
    openOrCreateTail w =
      { w with dir := w.dir.create 1, curSize := 0, curSeg := 1, curLine := 0 } := by
  have h1 : (listSegs w.dir).getLast? = none := by
    rw [(listSegs_eq_nil_iff w.dir).mpr h]
    rfl
  have h2 : w.dir.lookup 1 = none := by
    apply lookup_none_of_not_mem
    rw [h]
    simp
  unfold openOrCreateTail
  rw [h1]
  simp only [openSeg_create, h2, Option.getD_none]
  rfl

theorem openOrCreateTail_last (w : WAL) (last : Int) (h : (listSegs w.dir).getLast? = some last) :
    ∃ ls, w.dir.lookup last = some ls ∧
      openOrCreateTail w =
        { w with curSize := fileSize ls, curSeg := last, curLine := (ls.length : Nat) } := by
  have hmem := (listSegs_getLast w.dir last h).1
  cases hl : w.dir.lookup last with
  | none =>
    exfalso
    have : countLines w.dir last = none := by simp [countLines, hl]
    exact (countLines_eq_none_iff w.dir last).mp this hmem
  | some ls =>
    refine ⟨ls, rfl, ?_⟩
    unfold openOrCreateTail
    rw [h]
    unfold openSeg
    simp [hl]

/-- C9: a successful `NewWAL` has `commit = (1, 0)` when `commit.meta` is absent and otherwise
the stored pair with `seg <= 0` replaced by 1 and `line < 0` by 0, so `seg >= 1` and `line >= 0`;
`readPos = commit`; when the directory holds no segment, segment 1 is created empty and
`curSeg = 1`; otherwise the directory is left as it is, `curSeg` is the highest segment number
present and `curLine` is the number of lines of that segment. -/
theorem NewWAL_recovers (dir : Dir) (m : MetaFile) (segMaxMB : Int) (w : WAL)
    (h : NewWAL dir m segMaxMB = .ok w) :
    (m = .absent → w.commit = ⟨1, 0⟩) ∧
    (∀ cp, m = .parsed cp →
      w.commit = ⟨if cp.seg ≤ 0 then 1 else cp.seg, if cp.line < 0 then 0 else cp.line⟩) ∧
    m ≠ .unparsable ∧ 1 ≤ w.commit.seg ∧ 0 ≤ w.commit.line ∧ w.readPos = w.commit ∧
    (segNums dir = ∅ →
      w.curSeg = 1 ∧ w.curLine = 0 ∧ w.dir.lookup 1 = some [] ∧
      ∀ k, k ≠ 1 → w.dir.lookup k = dir.lookup k) ∧
    (segNums dir ≠ ∅ →
      w.dir = dir ∧ w.curSeg ∈ segNums dir ∧ (∀ k ∈ segNums dir, k ≤ w.curSeg) ∧
      ∃ ls, dir.lookup w.curSeg = some ls ∧ w.curLine = (ls.length : Nat)) := by
  unfold NewWAL at h
  cases hload : loadCommit m with
  | error e => rw [hload] at h; cases h
  | ok cp =>
    rw [hload] at h
    simp only [Except.ok.injEq] at h
    have hcommit : w.commit = cp ∧ w.readPos = cp ∧
        (segNums dir = ∅ →
          w.curSeg = 1 ∧ w.curLine = 0 ∧ w.dir.lookup 1 = some [] ∧
          ∀ k, k ≠ 1 → w.dir.lookup k = dir.lookup k) ∧
        (segNums dir ≠ ∅ →
          w.dir = dir ∧ w.curSeg ∈ segNums dir ∧ (∀ k ∈ segNums dir, k ≤ w.curSeg) ∧
          ∃ ls, dir.lookup w.curSeg = some ls ∧ w.curLine = (ls.length : Nat)) := by
      by_cases he : segNums dir = ∅
      · rw [openOrCreateTail_empty _ he] at h
        subst h
        refine ⟨rfl, rfl, fun _ => ⟨rfl, rfl, ?_, ?_⟩, fun hne => absurd he hne⟩
        · have h2 : dir.lookup 1 = none := by
            apply lookup_none_of_not_mem
            rw [he]
            simp
          simp only [lookup_create, if_true, h2, Option.getD_none]
        · intro k hk
          simp only [lookup_create, hk, if_false]
      · cases hlast : (listSegs dir).getLast? with
        | none =>
          exfalso
          exact he ((listSegs_eq_nil_iff dir).mp (List.getLast?_eq_none_iff.mp hlast))
        | some last =>
          obtain ⟨ls, hls, hopen⟩ := openOrCreateTail_last
            { dir := dir, commitMeta := m, segMaxBytes := segMaxMB * 1024 * 1024,
              curLine := 0, curSeg := 0, curSize := 0, commit := cp, readPos := cp } last hlast
          rw [hopen] at h
          subst h
          have hmax := listSegs_getLast dir last hlast
          exact ⟨rfl, rfl, fun h0 => absurd h0 he, fun _ => ⟨rfl, hmax.1, hmax.2, ls, hls, rfl⟩⟩
    obtain ⟨hc, hr, hempty, hsome⟩ := hcommit
    refine ⟨?_, ?_, ?_, ?_, ?_, by rw [hc, hr], hempty, hsome⟩
    · intro hm
      subst hm
      simp only [loadCommit, Except.ok.injEq] at hload
      rw [hc, ← hload]
    · intro cp0 hm
      subst hm
      simp only [loadCommit, Except.ok.injEq] at hload
      rw [hc, ← hload]
      split_ifs <;> rfl
    · intro hm
      subst hm
      simp [loadCommit] at hload
    · rw [hc]
      cases m with
      | absent => simp only [loadCommit, Except.ok.injEq] at hload; rw [← hload]
      | unparsable => simp [loadCommit] at hload
      | parsed cp0 =>
        simp only [loadCommit, Except.ok.injEq] at hload
        rw [← hload]
        split_ifs <;> (try dsimp only at *) <;> omega
    · rw [hc]
      cases m with
      | absent => simp only [loadCommit, Except.ok.injEq] at hload; rw [← hload]
      | unparsable => simp [loadCommit] at hload
      | parsed cp0 =>
        simp only [loadCommit, Except.ok.injEq] at hload
        rw [← hload]
        split_ifs <;> (try dsimp only at *) <;> omega
theorem Append_same_segment_witness :
    ∃ b, exCodec.marshal (exEvent 5) = some b ∧
      (Append exCodec exWAL (exEvent 5)).2.dir.lookup exWAL.curSeg = some ([[9]] ++ [b]) ∧
      (∀ k, k ≠ exWAL.curSeg →
        (Append exCodec exWAL (exEvent 5)).2.dir.lookup k = exWAL.dir.lookup k) ∧
      (⟨2, 2⟩ : AppendPos) = ⟨exWAL.curSeg, exWAL.curLine + 1⟩ ∧
      (⟨2, 2⟩ : AppendPos).line = (([[9]] ++ [b]).length : Nat) :=
  Append_same_segment exCodec exWAL (exEvent 5) ⟨2, 2⟩ [[9]] (by decide) (by decide) (by decide)
    (by decide) (by rfl)

theorem Append_rotates_witness :
    ∃ b, exCodec.marshal (exEvent 5) = some b ∧
      (Append exCodec exWALFull (exEvent 5)).2.dir.lookup (exWALFull.curSeg + 1) = some [b] ∧
      (⟨2, 1⟩ : AppendPos) = ⟨exWALFull.curSeg + 1, 1⟩ ∧
      (Append exCodec exWALFull (exEvent 5)).2.dir.lookup exWALFull.curSeg
        = exWALFull.dir.lookup exWALFull.curSeg ∧
      (∀ k, k ≠ exWALFull.curSeg + 1 →
        (Append exCodec exWALFull (exEvent 5)).2.dir.lookup k = exWALFull.dir.lookup k) :=
  Append_rotates exCodec exWALFull (exEvent 5) ⟨2, 1⟩ (by decide) (by decide) (by decide)
    (by decide) (by rfl)

theorem NewWAL_recovers_witness :
    NewWAL exDir (.parsed ⟨0, -4⟩) 1 = .ok exRecovered ∧
    exRecovered.commit = ⟨1, 0⟩ ∧ exRecovered.readPos = exRecovered.commit ∧
    (segNums exDir ≠ ∅ →
      exRecovered.dir = exDir ∧ exRecovered.curSeg ∈ segNums exDir ∧
      (∀ k ∈ segNums exDir, k ≤ exRecovered.curSeg) ∧
      ∃ ls, exDir.lookup exRecovered.curSeg = some ls ∧ exRecovered.curLine = (ls.length : Nat)) :=
  have h := NewWAL_recovers exDir (.parsed ⟨0, -4⟩) 1 exRecovered (by rfl)
  ⟨by rfl, h.2.1 ⟨0, -4⟩ rfl, h.2.2.2.2.2.1, h.2.2.2.2.2.2.2⟩
theorem filter_ge_of_mem : ∀ (L : List Int), L.Sorted (· < ·) → ∀ s ∈ L,
    L.filter (fun k => decide (s ≤ k)) = s :: L.filter (fun k => decide (s + 1 ≤ k)) := by
  intro L
  induction L with
  | nil => intro _ s hs; cases hs
  | cons a t ih =>
    intro hsorted s hs
    have hrel : ∀ b ∈ t, a < b := List.rel_of_sorted_cons hsorted
    have ht : t.Sorted (· < ·) := List.Sorted.of_cons hsorted
    by_cases hsa : s = a
    · subst hsa
      have h1 : t.filter (fun k => decide (s ≤ k)) = t :=
        List.filter_eq_self.mpr (fun b hb => by have := hrel b hb; simp only [decide_eq_true_eq]; omega)
      have h2 : t.filter (fun k => decide (s + 1 ≤ k)) = t :=
        List.filter_eq_self.mpr (fun b hb => by have := hrel b hb; simp only [decide_eq_true_eq]; omega)
      have h3 : ¬ (s + 1 ≤ s) := by omega
      simp only [List.filter_cons, le_refl, decide_True, if_true, h1, h2, h3, decide_False,
        Bool.false_eq_true, if_false]
    · have hst : s ∈ t := by
        rcases List.mem_cons.mp hs with h | h
        · exact absurd h hsa
        · exact h
      have has : a < s := hrel s hst
      have h3 : ¬ (s ≤ a) := by omega
      have h4 : ¬ (s + 1 ≤ a) := by omega
      simp only [List.filter_cons, h3, h4, decide_False, Bool.false_eq_true, if_false]
      exact ih ht s hst

theorem listSegs_sorted_lt (dir : Dir) : (listSegs dir).Sorted (· < ·) := by
  have h1 : (listSegs dir).Sorted (· ≤ ·) := by
    unfold listSegs
    exact List.sorted_insertionSort _ _
  have h2 : (listSegs dir).Nodup := by
    unfold listSegs
    exact (List.perm_insertionSort _ _).nodup_iff.mpr (List.nodup_dedup _)
  exact h1.lt_of_le h2

theorem mem_segNums_iff_lookup (dir : Dir) (k : Int) :
    k ∈ segNums dir ↔ ∃ ls, dir.lookup k = some ls := by
  have h := countLines_eq_none_iff dir k
  simp only [countLines, Option.map_eq_none'] at h
  constructor
  · intro hk
    cases hl : dir.lookup k with
    | none => exact absurd hk (h.mp hl)
    | some ls => exact ⟨ls, rfl⟩
  · rintro ⟨ls, hls⟩
    by_contra hc
    rw [h.mpr hc] at hls
    cases hls

theorem runFrom_unfold (dir : Dir) (s : Int) :
    runFrom dir s =
      match dir.lookup s with
      | none => []
      | some ls => ls ++ runFrom dir (s + 1) := by
  unfold runFrom
  cases hl : dir.lookup s with
  | none =>
    have hnot : s ∉ listSegs dir := by
      rw [mem_listSegs, mem_segNums_iff_lookup]
      rintro ⟨ls, hls⟩
      rw [hl] at hls
      cases hls
    cases hf : (listSegs dir).filter (fun k => decide (s ≤ k)) with
    | nil => rfl
    | cons k ks =>
      have hk : k ∈ (listSegs dir).filter (fun k => decide (s ≤ k)) := by
        rw [hf]
        exact List.mem_cons_self _ _
      have hk2 : k ∈ listSegs dir := (List.mem_filter.mp hk).1
      have hne : ¬ k = s := fun h => hnot (h ▸ hk2)
      simp only [chain, hne, if_false]
  | some ls =>
    have hmem : s ∈ listSegs dir := by
      rw [mem_listSegs, mem_segNums_iff_lookup]
      exact ⟨ls, hl⟩
    rw [filter_ge_of_mem (listSegs dir) (listSegs_sorted_lt dir) s hmem]
    simp only [chain, if_true, segLines, hl, Option.getD_some]

theorem chain_append_join (dir : Dir) : ∀ (ks : List Int) (s : Int),
    ∃ later, chain dir s ks ++ later = (ks.map (segLines dir)).flatten := by
  intro ks
  induction ks with
  | nil => intro s; exact ⟨[], rfl⟩
  | cons k ks ih =>
    intro s
    by_cases hk : k = s
    · obtain ⟨later, hl⟩ := ih (s + 1)
      refine ⟨later, ?_⟩
      simp only [chain, hk, if_true, List.map_cons, List.flatten_cons, List.append_assoc, hl]
    · exact ⟨((k :: ks).map (segLines dir)).flatten, by simp only [chain, hk, if_false, List.nil_append]⟩
theorem drop_min_length (ls : List Line) (n : Nat) : ls.drop (min n ls.length) = ls.drop n := by
  by_cases h : n ≤ ls.length
  · rw [min_eq_left h]
  · have h2 : ls.length ≤ n := by omega
    rw [min_eq_right h2, List.drop_length, List.drop_eq_nil_of_le h2]

theorem openIfNeeded_spec (w : WAL) (t : WALTailer) :
    restLines w.dir (openIfNeeded w t) = restLines w.dir t ∧
    (openIfNeeded w t).hasPending = t.hasPending ∧ (openIfNeeded w t).pending = t.pending ∧
    (openIfNeeded w t).seg = t.seg ∧ (openIfNeeded w t).line = t.line := by
  obtain ⟨seg, line, file, hp, pe⟩ := t
  cases file with
  | some off => exact ⟨rfl, rfl, rfl, rfl, rfl⟩
  | none =>
    cases hl : w.dir.lookup seg with
    | none =>
      simp [openIfNeeded, hl]
    | some ls =>
      simp [openIfNeeded, hl, restLines, segLines, drop_min_length]

theorem readNextRawLine_some (w : WAL) (t : WALTailer) (l : Line) (ok : Bool) (w2 : WAL)
    (t2 : WALTailer) (h : readNextRawLine w t = (some l, ok, w2, t2)) :
    ok = true ∧ w2 = w ∧ t2.hasPending = t.hasPending ∧ t2.pending = t.pending ∧
    t2.seg = t.seg ∧ t2.line = t.line ∧
    (∃ off, t2.file = some off) ∧ restLines w.dir t = l :: restLines w.dir t2 := by
  obtain ⟨hrest, hhp, hpe, hseg, hline⟩ := openIfNeeded_spec w t
  unfold readNextRawLine at h
  generalize openIfNeeded w t = t1 at h hrest hhp hpe hseg hline
  obtain ⟨seg, line, file, hp, pe⟩ := t1
  cases file with
  | none => simp at h
  | some off =>
    simp only at h
    cases hget : ((w.dir.lookup seg).getD [])[off]? with
    | none =>
      rw [hget] at h
      simp only [tryAdvanceToNextSeg] at h
      cases hn : w.dir.lookup (seg + 1) with
      | none => rw [hn] at h; simp at h
      | some ls => rw [hn] at h; simp at h
    | some l0 =>
      rw [hget] at h
      simp only [Prod.mk.injEq, Option.some.injEq] at h
      obtain ⟨h1, h2, h3, h4⟩ := h
      subst h1 h2 h3 h4
      refine ⟨rfl, rfl, hhp, hpe, hseg, hline, ⟨_, rfl⟩, ?_⟩
      rw [← hrest]
      have hlt : off < ((w.dir.lookup seg).getD []).length := by
        by_contra hc
        rw [List.getElem?_eq_none (by omega)] at hget
        cases hget
      have hl0 : ((w.dir.lookup seg).getD [])[off] = l0 := by
        rw [List.getElem?_eq_getElem hlt] at hget
        exact Option.some.inj hget
      simp only [restLines, segLines]
      rw [List.drop_eq_getElem_cons hlt, hl0]
      rfl

theorem readNextRawLine_none (w : WAL) (t : WALTailer) (ok : Bool) (w2 : WAL)
    (t2 : WALTailer) (h : readNextRawLine w t = (none, ok, w2, t2)) :
    w2.dir = w.dir ∧ t2.hasPending = t.hasPending ∧ t2.pending = t.pending ∧
    restLines w.dir t2 = restLines w.dir t := by
  obtain ⟨hrest, hhp, hpe, hseg, hline⟩ := openIfNeeded_spec w t
  unfold readNextRawLine at h
  generalize openIfNeeded w t = t1 at h hrest hhp hpe hseg hline
  obtain ⟨seg, line, file, hp, pe⟩ := t1
  cases file with
  | none =>
    simp only [Prod.mk.injEq, true_and] at h
    obtain ⟨_, h2, h3⟩ := h
    subst h2 h3
    exact ⟨rfl, hhp, hpe, hrest⟩
  | some off =>
    simp only at h
    cases hget : ((w.dir.lookup seg).getD [])[off]? with
    | some l0 => rw [hget] at h; simp at h
    | none =>
      rw [hget] at h
      simp only [tryAdvanceToNextSeg, WALTailer.close] at h
      cases hn : w.dir.lookup (seg + 1) with
      | none =>
        rw [hn] at h
        simp only [Prod.mk.injEq, true_and] at h
        obtain ⟨_, h2, h3⟩ := h
        subst h2 h3
        exact ⟨rfl, hhp, hpe, hrest⟩
      | some ls =>
        rw [hn] at h
        simp only [Prod.mk.injEq, true_and] at h
        obtain ⟨_, h2, h3⟩ := h
        subst h2 h3
        refine ⟨rfl, hhp, hpe, ?_⟩
        rw [← hrest]
        have hlen : ((w.dir.lookup seg).getD []).length ≤ off := List.getElem?_eq_none_iff.mp hget
        simp only [restLines, segLines, hn, Int.toNat_zero, List.drop_zero,
          List.drop_eq_nil_of_le hlen, List.nil_append]
        rw [runFrom_unfold w.dir (seg + 1), hn]
theorem pushPending_spec (t : WALTailer) (out : Chan) :
    (pushPending t out).2.2.sent ++ pendingList (pushPending t out).2.1
      = out.sent ++ pendingList t ∧
    (pushPending t out).2.1.seg = t.seg ∧ (pushPending t out).2.1.line = t.line ∧
    (pushPending t out).2.1.file = t.file ∧ (pushPending t out).2.2.room = out.room ∧
    ((pushPending t out).1 = true → (pushPending t out).2.1.hasPending = false) := by
  obtain ⟨seg, line, file, hp, pe⟩ := t
  cases hp with
  | false => simp [pushPending, pendingList]
  | true =>
    by_cases hr : out.room out.tick = true
    · simp [pushPending, pendingList, Chan.trySend, hr]
    · simp [pushPending, pendingList, Chan.trySend, hr]

theorem restLines_congr (dir : Dir) (t u : WALTailer) (hs : u.seg = t.seg) (hl : u.line = t.line)
    (hf : u.file = t.file) : restLines dir u = restLines dir t := by
  obtain ⟨seg, line, file, hp, pe⟩ := t
  obtain ⟨seg2, line2, file2, hp2, pe2⟩ := u
  simp only at hs hl hf
  subst hs hl hf
  rfl

theorem markLineRead_spec (dir : Dir) (w : WAL) (t : WALTailer) (off : Nat) (hf : t.file = some off) :
    (markLineRead w t).1.dir = w.dir ∧ restLines dir (markLineRead w t).2 = restLines dir t ∧
    pendingList (markLineRead w t).2 = pendingList t := by
  obtain ⟨seg, line, file, hp, pe⟩ := t
  simp only at hf
  subst hf
  simp [markLineRead, restLines, pendingList]

theorem readOneAndQueue_inv (cd : Codec) (w : WAL) (t : WALTailer) (out : Chan) :
    (readOneAndQueue cd w t out).2.1.dir = w.dir ∧
    (readOneAndQueue cd w t out).2.2.2.room = out.room ∧
    (readOneAndQueue cd w t out).2.2.2.sent ++ pendingList (readOneAndQueue cd w t out).2.2.1 ++
        (restLines w.dir (readOneAndQueue cd w t out).2.2.1).filterMap (decodeLine cd)
      = out.sent ++ pendingList t ++ (restLines w.dir t).filterMap (decodeLine cd) := by
  obtain ⟨hsent, hseg, hline, hfile, hroom, hpend⟩ := pushPending_spec t out
  unfold readOneAndQueue
  rcases hpp : pushPending t out with ⟨b, t1, out1⟩
  rw [hpp] at hsent hseg hline hfile hroom hpend
  simp only at hsent hseg hline hfile hroom hpend
  have hrest1 : restLines w.dir t1 = restLines w.dir t := restLines_congr w.dir t t1 hseg hline hfile
  cases b with
  | false =>
    refine ⟨rfl, hroom, ?_⟩
    show out1.sent ++ pendingList t1 ++ (restLines w.dir t1).filterMap (decodeLine cd) = _
    rw [hsent, hrest1]
  | true =>
    have hp1 : t1.hasPending = false := hpend rfl
    have hpl1 : pendingList t1 = [] := by simp [pendingList, hp1]
    rw [← hsent, ← hrest1, hpl1, List.append_nil]
    simp only
    rcases hrd : readNextRawLine w t1 with ⟨raw, ok, w2, t2⟩
    cases raw with
    | none =>
      obtain ⟨hd, hhp, _, hrest2⟩ := readNextRawLine_none w t1 ok w2 t2 hrd
      have hpl2 : pendingList t2 = [] := by simp [pendingList, hhp, hp1]
      cases ok with
      | false =>
        simp only
        exact ⟨hd, hroom, by rw [hpl2, hrest2, List.append_nil]⟩
      | true =>
        simp only
        exact ⟨hd, hroom, by rw [hpl2, hrest2, List.append_nil]⟩
    | some l =>
      obtain ⟨hok, hw2, hhp, _, _, _, ⟨off, hoff⟩, hrest2⟩ := readNextRawLine_some w t1 l ok w2 t2 hrd
      subst hok hw2
      have hpl2 : pendingList t2 = [] := by simp [pendingList, hhp, hp1]
      obtain ⟨hmd, hmrest, hmpl⟩ := markLineRead_spec w2.dir w2 t2 off hoff
      rw [hrest2]
      simp only
      by_cases hblank : (cd.trimSpace l).length = 0
      · have hdec : decodeLine cd l = none := by simp [decodeLine, hblank]
        simp only [hblank, if_true, List.filterMap_cons, hdec]
        exact ⟨hmd, hroom, by rw [hmrest, hmpl, hpl2, List.append_nil]⟩
      · simp only [hblank, if_false]
        cases hun : cd.unmarshal (cd.trimSpace l) with
        | none =>
          have hdec : decodeLine cd l = none := by simp [decodeLine, hblank, hun]
          simp only [List.filterMap_cons, hdec]
          exact ⟨hmd, hroom, by rw [hmrest, hmpl, hpl2, List.append_nil]⟩
        | some ev =>
          have hdec : decodeLine cd l = some ev := by simp [decodeLine, hblank, hun]
          simp only [List.filterMap_cons, hdec]
          cases hr : out1.room out1.tick with
          | true =>
            simp only [Chan.trySend, hr, if_true]
            refine ⟨hmd, hroom, ?_⟩
            rw [hmrest, hmpl, hpl2]
            simp
          | false =>
            simp only [Chan.trySend, hr, Bool.false_eq_true, if_false]
            refine ⟨trivial, hroom, ?_⟩
            have hrl : restLines w2.dir { t2 with hasPending := true, pending := ev }
                = restLines w2.dir t2 := restLines_congr _ _ _ rfl rfl rfl
            rw [hrl]
            simp [pendingList]
theorem weightFrom_succ_le (dir : Dir) (s : Int) : weightFrom dir (s + 1) ≤ weightFrom dir s := by
  induction dir with
  | nil => simp [weightFrom]
  | cons e t ih =>
    unfold weightFrom at ih ⊢
    simp only [List.filter_cons]
    by_cases h1 : s + 1 ≤ e.1
    · have h2 : s ≤ e.1 := by omega
      simp only [h1, h2, decide_True, if_true, List.map_cons, List.sum_cons]
      omega
    · by_cases h2 : s ≤ e.1
      · simp only [h1, h2, decide_True, decide_False, Bool.false_eq_true, if_true, if_false,
          List.map_cons, List.sum_cons]
        omega
      · simp only [h1, h2, decide_False, Bool.false_eq_true, if_false]
        exact ih

theorem weightFrom_succ_of_mem (dir : Dir) (s : Int) (ls : List Line) (h : (s, ls) ∈ dir) :
    weightFrom dir (s + 1) + ls.length + 1 ≤ weightFrom dir s := by
  induction dir with
  | nil => cases h
  | cons e t ih =>
    have hle := weightFrom_succ_le t s
    unfold weightFrom at ih hle ⊢
    simp only [List.filter_cons]
    rcases List.mem_cons.mp h with h1 | h1
    · subst h1
      have h2 : ¬ (s + 1 ≤ s) := by omega
      simp only [le_refl, decide_True, if_true, h2, decide_False, Bool.false_eq_true, if_false,
        List.map_cons, List.sum_cons]
      omega
    · have h3 := ih h1
      by_cases h4 : s + 1 ≤ e.1
      · have h5 : s ≤ e.1 := by omega
        simp only [h4, h5, decide_True, if_true, List.map_cons, List.sum_cons]
        omega
      · by_cases h5 : s ≤ e.1
        · simp only [h4, h5, decide_True, decide_False, Bool.false_eq_true, if_true, if_false,
            List.map_cons, List.sum_cons]
          omega
        · simp only [h4, h5, decide_False, Bool.false_eq_true, if_false]
          omega

theorem weightFrom_le_total (dir : Dir) (s : Int) :
    weightFrom dir s ≤ (dir.map (fun e => e.2.length + 1)).sum := by
  induction dir with
  | nil => simp [weightFrom]
  | cons e t ih =>
    unfold weightFrom at ih ⊢
    simp only [List.filter_cons]
    by_cases h1 : s ≤ e.1
    · simp only [h1, decide_True, if_true, List.map_cons, List.sum_cons]
      omega
    · simp only [h1, decide_False, Bool.false_eq_true, if_false, List.map_cons, List.sum_cons]
      omega

theorem tailMeasure_lt_bound (dir : Dir) (t : WALTailer) : tailMeasure dir t < drainBound dir := by
  unfold tailMeasure drainBound
  have h1 := weightFrom_le_total dir t.seg
  cases hl : dir.lookup t.seg with
  | none =>
    have h2 := weightFrom_le_total dir (t.seg + 1)
    simp only [segLines, hl, Option.getD_none, List.length_nil]
    omega
  | some ls =>
    have h2 := weightFrom_succ_of_mem dir t.seg ls (lookup_some_mem dir t.seg ls hl)
    simp only [segLines, hl, Option.getD_some]
    omega

theorem tailMeasure_congr (dir : Dir) (t u : WALTailer) (hs : u.seg = t.seg) (hf : u.file = t.file) :
    tailMeasure dir u = tailMeasure dir t := by
  unfold tailMeasure
  rw [hs, hf]

theorem openIfNeeded_measure (w : WAL) (t : WALTailer) :
    tailMeasure w.dir (openIfNeeded w t) ≤ tailMeasure w.dir t := by
  obtain ⟨seg, line, file, hp, pe⟩ := t
  cases file with
  | some off => exact le_rfl
  | none =>
    cases hl : w.dir.lookup seg with
    | none => simp [openIfNeeded, hl]
    | some ls => simp [openIfNeeded, hl, tailMeasure]

theorem readNextRawLine_measure (w : WAL) (t : WALTailer) (raw : Option Line) (w2 : WAL)
    (t2 : WALTailer) (h : readNextRawLine w t = (raw, true, w2, t2)) :
    tailMeasure w.dir t2 < tailMeasure w.dir t := by
  have hopen := openIfNeeded_measure w t
  unfold readNextRawLine at h
  generalize openIfNeeded w t = t1 at h hopen
  obtain ⟨seg, line, file, hp, pe⟩ := t1
  cases file with
  | none => simp at h
  | some off =>
    simp only at h
    cases hget : ((w.dir.lookup seg).getD [])[off]? with
    | some l0 =>
      rw [hget] at h
      simp only [Prod.mk.injEq, true_and] at h
      obtain ⟨_, _, h3⟩ := h
      subst h3
      have hlt : off < ((w.dir.lookup seg).getD []).length := by
        by_contra hc
        rw [List.getElem?_eq_none (by omega)] at hget
        cases hget
      refine lt_of_lt_of_le ?_ hopen
      simp only [tailMeasure, segLines, Option.getD_some]
      omega
    | none =>
      rw [hget] at h
      simp only [tryAdvanceToNextSeg, WALTailer.close] at h
      cases hn : w.dir.lookup (seg + 1) with
      | none => rw [hn] at h; simp at h
      | some ls =>
        rw [hn] at h
        simp only [Prod.mk.injEq, true_and] at h
        obtain ⟨_, _, h3⟩ := h
        subst h3
        have hw := weightFrom_succ_of_mem w.dir (seg + 1) ls (lookup_some_mem w.dir _ ls hn)
        refine lt_of_lt_of_le ?_ hopen
        simp only [tailMeasure, segLines, hn, Option.getD_some, Option.getD_none]
        omega

theorem readOneAndQueue_measure (cd : Codec) (w : WAL) (t : WALTailer) (out : Chan)
    (h : (readOneAndQueue cd w t out).1 = true) :
    tailMeasure w.dir (readOneAndQueue cd w t out).2.2.1 < tailMeasure w.dir t := by
  obtain ⟨_, hseg, _, hfile, _, _⟩ := pushPending_spec t out
  unfold readOneAndQueue at h ⊢
  rcases hpp : pushPending t out with ⟨b, t1, out1⟩
  rw [hpp] at hseg hfile h
  simp only at hseg hfile
  have hm1 : tailMeasure w.dir t1 = tailMeasure w.dir t := tailMeasure_congr w.dir t t1 hseg hfile
  rw [← hm1]
  cases b with
  | false => simp at h
  | true =>
    simp only at h ⊢
    rcases hrd : readNextRawLine w t1 with ⟨raw, ok, w2, t2⟩
    rw [hrd] at h
    cases ok with
    | false => simp at h
    | true =>
      have hm2 := readNextRawLine_measure w t1 raw w2 t2 hrd
      cases raw with
      | none => exact hm2
      | some l =>
        simp only at h ⊢
        by_cases hblank : (cd.trimSpace l).length = 0
        · simp only [hblank, if_true]
          exact hm2
        · simp only [hblank, if_false] at h ⊢
          cases hun : cd.unmarshal (cd.trimSpace l) with
          | none => exact hm2
          | some ev =>
            rw [hun] at h
            simp only at h ⊢
            cases hr : out1.room out1.tick with
            | true =>
              simp only [Chan.trySend, hr, if_true]
              exact hm2
            | false =>
              simp [Chan.trySend, hr] at h
theorem drainLoop_spec (cd : Codec) : ∀ (fuel : Nat) (w : WAL) (t : WALTailer) (out : Chan),
    tailMeasure w.dir t < fuel →
    ∃ r, drainLoop cd fuel w t out = some r ∧ r.1.dir = w.dir ∧ r.2.2.room = out.room ∧
      r.2.2.sent ++ pendingList r.2.1 ++ (restLines w.dir r.2.1).filterMap (decodeLine cd)
        = out.sent ++ pendingList t ++ (restLines w.dir t).filterMap (decodeLine cd) := by
  intro fuel
  induction fuel with
  | zero => intro w t out h; omega
  | succ fuel ih =>
    intro w t out h
    unfold drainLoop
    simp only [Chan.isFull]
    by_cases hfull : (!out.room out.tick && !t.hasPending) = true
    · simp only [hfull, if_true]
      exact ⟨_, rfl, rfl, rfl, rfl⟩
    · simp only [hfull, if_false]
      obtain ⟨hdir, hroom, hinv⟩ := readOneAndQueue_inv cd w t { out with tick := out.tick + 1 }
      have hmeas := readOneAndQueue_measure cd w t { out with tick := out.tick + 1 }
      rcases hro : readOneAndQueue cd w t { out with tick := out.tick + 1 } with ⟨b, w2, t2, out2⟩
      rw [hro] at hdir hroom hinv hmeas
      simp only at hdir hroom hinv hmeas
      cases b with
      | false => exact ⟨_, rfl, hdir, hroom, hinv⟩
      | true =>
        have hm := hmeas rfl
        obtain ⟨r, hr, hrd, hrr, hri⟩ := ih w2 t2 out2 (by rw [hdir]; omega)
        refine ⟨r, hr, by rw [hrd, hdir], by rw [hrr, hroom], ?_⟩
        rw [hdir] at hri
        rw [hri, hinv]

theorem drain_spec (cd : Codec) (w : WAL) (t : WALTailer) (out : Chan) :
    ∃ r, drain cd w t out = some r ∧ r.1.dir = w.dir ∧ r.2.2.room = out.room ∧
      r.2.2.sent ++ pendingList r.2.1 ++ (restLines w.dir r.2.1).filterMap (decodeLine cd)
        = out.sent ++ pendingList t ++ (restLines w.dir t).filterMap (decodeLine cd) :=
  drainLoop_spec cd (drainBound w.dir) w t out (tailMeasure_lt_bound w.dir t)

theorem drains_spec (cd : Codec) : ∀ (n : Nat) (w : WAL) (t : WALTailer) (out : Chan),
    ∃ r, drains cd n w t out = some r ∧ r.1.dir = w.dir ∧ r.2.2.room = out.room ∧
      r.2.2.sent ++ pendingList r.2.1 ++ (restLines w.dir r.2.1).filterMap (decodeLine cd)
        = out.sent ++ pendingList t ++ (restLines w.dir t).filterMap (decodeLine cd) := by
  intro n
  induction n with
  | zero => intro w t out; exact ⟨_, rfl, rfl, rfl, rfl⟩
  | succ n ih =>
    intro w t out
    obtain ⟨r1, h1, hd1, hr1, hi1⟩ := drain_spec cd w t out
    obtain ⟨w1, t1, out1⟩ := r1
    obtain ⟨r, h2, hd2, hr2, hi2⟩ := ih w1 t1 out1
    simp only at hd1 hr1 hi1
    refine ⟨r, ?_, by rw [hd2, hd1], by rw [hr2, hr1], ?_⟩
    · simp only [drains, h1, h2]
    · rw [hd1] at hi2
      rw [hi2, hi1]

theorem restLines_start (cd : Codec) (dir : Dir) (seg line : Int) (hp : Bool) (pe : Event) :
    ∃ later, (restLines dir ⟨seg, line, none, hp, pe⟩).filterMap (decodeLine cd) ++ later
      = recordsFrom cd dir seg line := by
  cases hl : dir.lookup seg with
  | none =>
    exact ⟨recordsFrom cd dir seg line,
      by simp only [restLines, hl, List.filterMap_nil, List.nil_append]⟩
  | some ls =>
    unfold recordsFrom
    have hmem : seg ∈ listSegs dir := by
      rw [mem_listSegs, mem_segNums_iff_lookup]
      exact ⟨ls, hl⟩
    rw [filter_ge_of_mem (listSegs dir) (listSegs_sorted_lt dir) seg hmem]
    have hmap : ((listSegs dir).filter (fun k => decide (seg + 1 ≤ k))).map
        (fun k => if k = seg then (segLines dir k).drop line.toNat else segLines dir k)
        = ((listSegs dir).filter (fun k => decide (seg + 1 ≤ k))).map (segLines dir) := by
      apply List.map_congr_left
      intro k hk
      have hk2 := (List.mem_filter.mp hk).2
      simp only [decide_eq_true_eq] at hk2
      have hne : ¬ k = seg := by omega
      simp only [hne, if_false]
    have hsl : segLines dir seg = ls := by simp [segLines, hl]
    obtain ⟨later, hlater⟩ := chain_append_join dir
      ((listSegs dir).filter (fun k => decide (seg + 1 ≤ k))) (seg + 1)
    refine ⟨later.filterMap (decodeLine cd), ?_⟩
    simp only [List.map_cons, if_true, List.flatten_cons, restLines, hl, runFrom]
    rw [hmap, ← hlater, hsl]
    simp only [List.filterMap_append, List.append_assoc]

/-- C10: from every starting read position and under every schedule of channel-full and
channel-has-room outcomes, any number of `drain` calls on an unchanged log return, and the events
enqueued so far, followed by the pending record when the slot is occupied, are an initial part
of the records at or beyond the starting position in segment then line order (lines that are
blank or do not decode are not records): nothing is skipped, nothing is enqueued twice, and the
record held back by a full channel is the next one enqueued. -/
theorem drains_deliver_in_order (cd : Codec) (w : WAL) (room : Nat → Bool) (n : Nat) :
    ∃ w' t' out', drains cd n w (NewWALTailer w) ⟨[], room, 0⟩ = some (w', t', out') ∧
      w'.dir = w.dir ∧
      ∃ later, out'.sent ++ pendingList t' ++ later
        = recordsFrom cd w.dir w.readPos.seg w.readPos.line := by
  obtain ⟨r, hr, hd, _, hi⟩ := drains_spec cd n w (NewWALTailer w) ⟨[], room, 0⟩
  obtain ⟨w', t', out'⟩ := r
  obtain ⟨later, hlater⟩ := restLines_start cd w.dir w.readPos.seg w.readPos.line false Event.zero
  refine ⟨w', t', out', hr, hd, (restLines w.dir t').filterMap (decodeLine cd) ++ later, ?_⟩
  simp only at hi
  rw [← List.append_assoc, hi, ← hlater]
  simp [NewWALTailer, pendingList]
theorem Consistent_exFresh : Consistent exFresh := by
  refine ⟨1, ?_, by decide, by decide, by decide, by decide⟩
  intro k
  by_cases h1 : k = 1
  · subst h1; decide
  · have hb1 : (k == 1) = false := by simpa using h1
    simp only [exFresh, List.lookup, hb1, Option.isSome_none, Bool.false_eq_true, false_iff,
      not_and, not_le]
    omega

theorem exAfterCommit_reachable (start : WAL → Chan → Prop) (h0 : start exFresh exChan) :
    Reachable exCodec start exAfterCommit := by
  have h1 : Reachable exCodec start ⟨exFresh, NewWALTailer exFresh, exChan, 0⟩ :=
    Reachable.init [] .absent 1 exFresh exChan (by rfl) rfl h0
  have h2 := Reachable.append _ (exEvent 5) h1
  have h3 := Reachable.drain _ h2 (fun _ => rfl)
  have h4 := Reachable.commit _ 1 exAfterCommit.wal h3 (by decide) (by decide) (by rfl)
  exact h4

/-- C1, counterexample: from an empty directory, one `Append`, one iteration of `drain` under a
channel with room and the commit of that one event reach a state with `commit = (2, 0)`,
`readPos = (1, 1)` and append position `(1, 1)`, where `commit <= readPos` fails in the
lexicographic order. -/
theorem reachable_order_fails :
    ∃ s, Reachable exCodec (fun _ _ => True) s ∧
      ¬ (CommitPos.le s.wal.commit s.wal.readPos ∧
         CommitPos.le s.wal.readPos ⟨s.wal.curSeg, s.wal.curLine⟩) :=
  ⟨exAfterCommit, exAfterCommit_reachable _ trivial, by decide⟩
theorem linesIn_create (dir : Dir) (s k : Int) : linesIn (dir.create s) k = linesIn dir k := by
  unfold linesIn countLines
  rw [lookup_create]
  by_cases hk : k = s
  · subst hk
    cases h : dir.lookup k <;> simp
  · simp [hk]

theorem isSome_lookup_create (dir : Dir) (s k : Int) :
    ((dir.create s).lookup k).isSome ↔ (k = s ∨ (dir.lookup k).isSome) := by
  rw [lookup_create]
  by_cases hk : k = s
  · simp [hk]
  · simp [hk]

theorem linesIn_appendLine (dir : Dir) (s k : Int) (l : Line) :
    linesIn (dir.appendLine s l) k
      = linesIn dir k + if k = s ∧ (dir.lookup s).isSome then 1 else 0 := by
  unfold linesIn countLines
  rw [lookup_appendLine]
  by_cases hk : k = s
  · subst hk
    cases h : dir.lookup k <;> simp
  · simp [hk]

theorem isSome_lookup_appendLine (dir : Dir) (s k : Int) (l : Line) :
    ((dir.appendLine s l).lookup k).isSome = (dir.lookup k).isSome := by
  rw [lookup_appendLine]
  by_cases hk : k = s
  · subst hk
    cases h : dir.lookup k <;> simp
  · simp [hk]

theorem linesIn_eq_zero_of_not_mem (dir : Dir) (k : Int) (h : k ∉ segNums dir) :
    linesIn dir k = 0 := by
  simp [linesIn, countLines_none_of_not_mem dir k h]

theorem sum_linesIn_superset (dir : Dir) (F : Finset Int) (hF : segNums dir ⊆ F) (p : Int) :
    Finset.sum (F.filter (fun k => k < p)) (fun k => (linesIn dir k : Int)) = linesBelow dir p := by
  unfold linesBelow
  symm
  apply Finset.sum_subset
  · intro k hk
    rw [Finset.mem_filter] at hk ⊢
    exact ⟨hF hk.1, hk.2⟩
  · intro k hk hnot
    rw [Finset.mem_filter] at hk hnot
    have : k ∉ segNums dir := fun h => hnot ⟨h, hk.2⟩
    rw [linesIn_eq_zero_of_not_mem dir k this]
    rfl

theorem sum_linesIn_superset_total (dir : Dir) (F : Finset Int) (hF : segNums dir ⊆ F) :
    Finset.sum F (fun k => (linesIn dir k : Int)) = recordsTotal dir := by
  unfold recordsTotal
  symm
  apply Finset.sum_subset hF
  intro k _ hnot
  rw [linesIn_eq_zero_of_not_mem dir k hnot]
  rfl

theorem segNums_subset_create (dir : Dir) (s : Int) : segNums dir ⊆ segNums (dir.create s) := by
  intro k hk
  rw [mem_segNums_iff_lookup] at hk ⊢
  obtain ⟨ls, hls⟩ := hk
  have h := (isSome_lookup_create dir s k).mpr (Or.inr (by rw [hls]; rfl))
  exact Option.isSome_iff_exists.mp h

theorem linesBelow_create (dir : Dir) (s p : Int) : linesBelow (dir.create s) p = linesBelow dir p := by
  rw [← sum_linesIn_superset dir (segNums (dir.create s)) (segNums_subset_create dir s) p]
  unfold linesBelow
  apply Finset.sum_congr rfl
  intro k _
  rw [linesIn_create]

theorem recordsTotal_create (dir : Dir) (s : Int) : recordsTotal (dir.create s) = recordsTotal dir := by
  rw [← sum_linesIn_superset_total dir (segNums (dir.create s)) (segNums_subset_create dir s)]
  unfold recordsTotal
  apply Finset.sum_congr rfl
  intro k _
  rw [linesIn_create]

theorem segNums_appendLine (dir : Dir) (s : Int) (l : Line) :
    segNums (dir.appendLine s l) = segNums dir := by
  ext k
  rw [mem_segNums_iff_lookup, mem_segNums_iff_lookup, ← Option.isSome_iff_exists,
    ← Option.isSome_iff_exists, isSome_lookup_appendLine]

theorem linesBelow_appendLine (dir : Dir) (s p : Int) (l : Line) (hs : (dir.lookup s).isSome) :
    linesBelow (dir.appendLine s l) p = linesBelow dir p + if s < p then 1 else 0 := by
  have hmem : s ∈ segNums dir := by
    rw [mem_segNums_iff_lookup]
    exact Option.isSome_iff_exists.mp hs
  unfold linesBelow
  rw [segNums_appendLine]
  have hterm : ∀ k, ((linesIn (dir.appendLine s l) k : Nat) : Int)
      = (linesIn dir k : Int) + if k = s then 1 else 0 := by
    intro k
    rw [linesIn_appendLine]
    by_cases hk : k = s
    · simp [hk, hs]
    · simp [hk]
  simp only [hterm, Finset.sum_add_distrib, Finset.sum_ite_eq', Finset.mem_filter, hmem, true_and]

theorem recordsTotal_appendLine (dir : Dir) (s : Int) (l : Line) (hs : (dir.lookup s).isSome) :
    recordsTotal (dir.appendLine s l) = recordsTotal dir + 1 := by
  have hmem : s ∈ segNums dir := by
    rw [mem_segNums_iff_lookup]
    exact Option.isSome_iff_exists.mp hs
  unfold recordsTotal
  rw [segNums_appendLine]
  have hterm : ∀ k, ((linesIn (dir.appendLine s l) k : Nat) : Int)
      = (linesIn dir k : Int) + if k = s then 1 else 0 := by
    intro k
    rw [linesIn_appendLine]
    by_cases hk : k = s
    · simp [hk, hs]
    · simp [hk]
  simp only [hterm, Finset.sum_add_distrib, Finset.sum_ite_eq', hmem, if_true]

theorem linesBelow_le_total (dir : Dir) (p : Int) : linesBelow dir p ≤ recordsTotal dir := by
  unfold linesBelow recordsTotal
  apply Finset.sum_le_sum_of_subset_of_nonneg (Finset.filter_subset _ _)
  intro k _ _
  exact Int.ofNat_nonneg _

theorem linesBelow_nonneg (dir : Dir) (p : Int) : 0 ≤ linesBelow dir p := by
  unfold linesBelow
  apply Finset.sum_nonneg
  intro k _
  exact Int.ofNat_nonneg _
theorem Grows.refl (lo : Int) (w : WAL) (h : WalInv lo w) : Grows lo w w :=
  ⟨h, rfl, rfl, fun _ => le_rfl, rfl, fun _ => le_rfl, le_rfl⟩

theorem Grows.trans {lo : Int} {w u v : WAL} (h1 : Grows lo w u) (h2 : Grows lo u v) :
    Grows lo w v := by
  refine ⟨h2.inv, by rw [h2.commit_eq, h1.commit_eq], by rw [h2.readPos_eq, h1.readPos_eq],
    fun k => le_trans (h1.lines_le k) (h2.lines_le k), ?_,
    fun p => le_trans (h1.below_le p) (h2.below_le p), le_trans h1.curSeg_le h2.curSeg_le⟩
  have h3 := h2.below_commit
  rw [h1.commit_eq] at h3
  rw [h3, h1.below_commit]

theorem grows_openNext (lo : Int) (w : WAL) (h : WalInv lo w) :
    Grows lo w (openSeg w (w.curSeg + 1) true) := by
  have hnone : w.dir.lookup (w.curSeg + 1) = none := by
    cases hl : w.dir.lookup (w.curSeg + 1) with
    | none => rfl
    | some ls =>
      have := (h.segs (w.curSeg + 1)).mp (by rw [hl]; rfl)
      omega
  rw [openSeg_create, hnone]
  simp only [Option.getD_none, List.length_nil]
  refine ⟨⟨?_, ?_, ?_, ?_, ?_, ?_, ?_⟩, rfl, rfl, ?_, ?_, ?_, ?_⟩
  · intro k
    simp only [isSome_lookup_create, h.segs k]
    have := h.lo_le
    omega
  · have := h.lo_le
    simp only
    omega
  · simp only [linesIn_create]
    simp [linesIn, countLines, hnone]
  · exact h.commit_lo
  · have := h.commit_hi
    simp only
    omega
  · exact h.commit_line
  · simp only [linesIn_create]
    exact h.commit_in
  · intro k
    simp only [linesIn_create]
    exact le_rfl
  · simp only [linesBelow_create]
  · intro p
    simp only [linesBelow_create]
    exact le_rfl
  · simp only
    omega

theorem grows_write (lo : Int) (w : WAL) (b : Line) (n : Int) (h : WalInv lo w)
    (hc : w.commit.seg ≤ w.curSeg) :
    Grows lo w { w with dir := w.dir.appendLine w.curSeg b, curSize := n,
                        curLine := w.curLine + 1 } := by
  have hcur : (w.dir.lookup w.curSeg).isSome := (h.segs w.curSeg).mpr ⟨h.lo_le, le_rfl⟩
  refine ⟨⟨?_, h.lo_le, ?_, h.commit_lo, h.commit_hi, h.commit_line, ?_⟩, rfl, rfl, ?_, ?_, ?_,
    le_rfl⟩
  · intro k
    simp only [isSome_lookup_appendLine]
    exact h.segs k
  · simp only [linesIn_appendLine, hcur, and_self, if_true, h.curLine, Nat.cast_add, Nat.cast_one]
  · have := h.commit_in
    simp only [linesIn_appendLine]
    have h2 : (0 : Nat) ≤ (if w.commit.seg = w.curSeg ∧ (w.dir.lookup w.curSeg).isSome = true
        then 1 else 0) := Nat.zero_le _
    push_cast
    omega
  · intro k
    simp only [linesIn_appendLine]
    omega
  · simp only [linesBelow_appendLine _ _ _ _ hcur]
    have : ¬ w.curSeg < w.commit.seg := by omega
    simp only [this, if_false, add_zero]
  · intro p
    simp only [linesBelow_appendLine _ _ _ _ hcur]
    split_ifs <;> omega

theorem Append_grows (cd : Codec) (lo : Int) (w : WAL) (ev : Event) (h : WalInv lo w) :
    Grows lo w (Append cd w ev).2 := by
  have hg1 : ∃ w1, w1 = (if w.curSeg < w.commit.seg then openSeg w w.commit.seg true else w) ∧
      Grows lo w w1 ∧ w1.commit.seg ≤ w1.curSeg := by
    refine ⟨_, rfl, ?_⟩
    by_cases hlt : w.curSeg < w.commit.seg
    · have heq : w.commit.seg = w.curSeg + 1 := by
        have := h.commit_hi
        omega
      simp only [hlt, if_true]
      rw [heq]
      refine ⟨grows_openNext lo w h, ?_⟩
      rw [openSeg_create]
      simp only
      omega
    · simp only [hlt, if_false]
      exact ⟨Grows.refl lo w h, by omega⟩
  obtain ⟨w1, hw1, hgr1, hc1⟩ := hg1
  have hg2 : ∃ w2, w2 = (if w1.segMaxBytes > 0 ∧ w1.curSize ≥ w1.segMaxBytes
      then openSeg w1 (w1.curSeg + 1) true else w1) ∧ Grows lo w w2 ∧ w2.commit.seg ≤ w2.curSeg := by
    refine ⟨_, rfl, ?_⟩
    by_cases hrot : w1.segMaxBytes > 0 ∧ w1.curSize ≥ w1.segMaxBytes
    · simp only [hrot, and_self, if_true]
      have hg := grows_openNext lo w1 hgr1.inv
      refine ⟨Grows.trans hgr1 hg, ?_⟩
      rw [hg.commit_eq]
      have := hg.curSeg_le
      omega
    · simp only [hrot, if_false]
      exact ⟨hgr1, hc1⟩
  obtain ⟨w2, hw2, hgr2, hc2⟩ := hg2
  unfold Append
  simp only
  rw [← hw1, ← hw2]
  cases hm : cd.marshal ev with
  | none => exact hgr2
  | some b => exact Grows.trans hgr2 (grows_write lo w2 b _ hgr2.inv hc2)
theorem advanceLoop_within (dir : Dir) (hi : Int)
    (htop : ∀ k, hi < k → countLines dir k = none) :
    ∀ (f : Nat) (c : CommitPos) (n : Int) (r : CommitPos),
    c.seg ≤ hi + 1 → 0 ≤ c.line → c.line ≤ linesIn dir c.seg → 0 ≤ n →
    advanceLoop dir f c n = some r →
    c.seg ≤ r.seg ∧ r.seg ≤ hi + 1 ∧ 0 ≤ r.line ∧ r.line ≤ linesIn dir r.seg := by
  intro f
  induction f with
  | zero =>
    intro c n r h1 h2 h3 hn h
    by_cases hp : 0 < n
    · rw [advanceLoop_zero_pos dir c n hp] at h
      cases h
    · rw [advanceLoop_of_nonpos dir _ c n (not_lt.mp hp)] at h
      cases h
      exact ⟨le_rfl, h1, h2, h3⟩
  | succ f ih =>
    intro c n r h1 h2 h3 hn h
    by_cases hp : 0 < n
    · cases hc : countLines dir c.seg with
      | none =>
        rw [advanceLoop_missing dir _ c n hp hc] at h
        cases h
        exact ⟨le_rfl, h1, h2, h3⟩
      | some L =>
        have hseg : c.seg ≤ hi := by
          by_contra hcon
          rw [htop c.seg (by omega)] at hc
          cases hc
        have hL := linesIn_of_countLines dir c.seg L hc
        by_cases hr : (L : Int) - c.line ≤ 0
        · rw [advanceLoop_skip dir _ c n L hp hc hr] at h
          have := ih _ n r (by simp only; omega) (by simp) (by simp) hn h
          simp only at this
          omega
        · have hr1 : 0 < (L : Int) - c.line := not_le.mp hr
          by_cases hlt : n < (L : Int) - c.line
          · rw [advanceLoop_inside dir _ c n L hp hc hr1 hlt] at h
            cases h
            simp only
            omega
          · have hge : (L : Int) - c.line ≤ n := not_lt.mp hlt
            rw [advanceLoop_cross dir _ c n L hp hc hr1 hge] at h
            have := ih _ _ r (by simp only; omega) (by simp) (by simp) (by omega) h
            simp only at this
            omega
    · rw [advanceLoop_of_nonpos dir _ c n (not_lt.mp hp)] at h
      cases h
      exact ⟨le_rfl, h1, h2, h3⟩

theorem AdvanceCommit_pos_inv (w u : WAL) (n : Int) (hn : 0 < n) (h : AdvanceCommit w n = some u) :
    ∃ r, advanceLoop w.dir (w.dir.length + 1) w.commit n = some r ∧
      u = saveCommitLocked { w with commit := r } := by
  obtain ⟨r, hr⟩ := advanceLoop_full w.dir w.commit n
  rw [AdvanceCommit_of_pos w n hn r hr] at h
  exact ⟨r, hr, (Option.some.inj h).symm⟩

theorem WalInv.top {lo : Int} {w : WAL} (h : WalInv lo w) :
    ∀ k, w.curSeg < k → countLines w.dir k = none := by
  intro k hk
  cases hl : w.dir.lookup k with
  | none => simp [countLines, hl]
  | some ls =>
    have := (h.segs k).mp (by rw [hl]; rfl)
    omega

theorem WalInv.exists_seg {lo : Int} {w : WAL} (h : WalInv lo w) :
    ∀ k, lo ≤ k → k ≤ w.curSeg → countLines w.dir k ≠ none := by
  intro k h1 h2 hc
  have h3 := (h.segs k).mpr ⟨h1, h2⟩
  simp only [countLines, Option.map_eq_none'] at hc
  rw [hc] at h3
  cases h3

theorem WalInv.total_eq {lo : Int} {w : WAL} (h : WalInv lo w) :
    recordsBelow w.dir ⟨w.curSeg, w.curLine⟩ = recordsTotal w.dir := by
  have h1 := linesBelow_top w.dir w.curSeg (w.curSeg + 1) h.top (by omega)
  have h2 := linesBelow_succ w.dir w.curSeg
  unfold recordsBelow
  simp only [h.curLine]
  omega

theorem below_le_total (dir : Dir) (p : CommitPos) (h : p.line ≤ linesIn dir p.seg) :
    recordsBelow dir p ≤ recordsTotal dir := by
  have h1 := linesBelow_succ dir p.seg
  have h2 := linesBelow_le_total dir (p.seg + 1)
  unfold recordsBelow
  omega

theorem SysInv.pos_le_total {lo : Int} {s : Sys} (h : SysInv lo s) :
    linesBelow s.wal.dir s.tailer.seg + tpos s.tailer ≤ recordsTotal s.wal.dir := by
  have h1 := linesBelow_succ s.wal.dir s.tailer.seg
  have h2 := linesBelow_le_total s.wal.dir (s.tailer.seg + 1)
  have h3 := h.pos_in
  omega

theorem commit_inv (lo : Int) (s : Sys) (k : Nat) (u : WAL) (h : SysInv lo s) (hk : 0 < k)
    (hle : s.committed + k ≤ s.out.sent.length) (hu : AdvanceCommit s.wal k = some u) :
    SysInv lo ⟨u, s.tailer, s.out, s.committed + k⟩ := by
  have hkpos : (0 : Int) < k := by exact_mod_cast hk
  obtain ⟨r, hr, hur⟩ := AdvanceCommit_pos_inv s.wal u k hkpos hu
  subst hur
  have htot := h.pos_le_total
  have henq := h.enqueued
  have hrec : (k : Int) ≤ recordsTotal s.wal.dir - recordsBelow s.wal.dir s.wal.commit := by
    have : ((s.committed + k : Nat) : Int) ≤ (s.out.sent.length : Int) := by exact_mod_cast hle
    push_cast at this
    omega
  have hcount := advanceLoop_records s.wal.dir s.wal.curSeg h.wal.top _ s.wal.commit k r
    (fun j h1 h2 => h.wal.exists_seg j (le_trans h.wal.commit_lo h1) h2)
    (Or.inr h.wal.commit_line) h.wal.commit_in (le_of_lt hkpos) hrec hr
  obtain ⟨hw1, hw2, hw3, hw4⟩ := advanceLoop_within s.wal.dir s.wal.curSeg h.wal.top _
    s.wal.commit k r h.wal.commit_hi h.wal.commit_line h.wal.commit_in (le_of_lt hkpos) hr
  refine ⟨⟨h.wal.segs, h.wal.lo_le, h.wal.curLine, le_trans h.wal.commit_lo hw1, hw2, hw3, hw4⟩,
    h.read_seg, h.read_line, h.t_line, h.line_le, h.pos_in, ?_, ?_⟩
  · show recordsBelow s.wal.dir r + (s.out.sent.length : Int) + ((pendingList s.tailer).length : Int)
      ≤ linesBelow s.wal.dir s.tailer.seg + tpos s.tailer + ((s.committed + k : Nat) : Int)
    push_cast
    omega
  · show s.committed + k ≤ s.out.sent.length
    exact hle
theorem openIfNeeded_pos (w : WAL) (t : WALTailer) (h0 : 0 ≤ t.line)
    (hin : tpos t ≤ linesIn w.dir t.seg) : tpos (openIfNeeded w t) = tpos t := by
  obtain ⟨seg, line, file, hp, pe⟩ := t
  cases file with
  | some o => rfl
  | none =>
    cases hl : w.dir.lookup seg with
    | none => simp [openIfNeeded, hl]
    | some ls =>
      simp only [tpos, linesIn, countLines, hl, Option.map_some', Option.getD_some] at hin
      simp only at h0
      simp only [openIfNeeded, hl, tpos]
      omega

theorem readNextRawLine_pos (w : WAL) (t : WALTailer) (h0 : 0 ≤ t.line)
    (hin : tpos t ≤ linesIn w.dir t.seg)
    (raw : Option Line) (ok : Bool) (w2 : WAL) (t2 : WALTailer)
    (h : readNextRawLine w t = (raw, ok, w2, t2)) :
    t2.hasPending = t.hasPending ∧ t2.pending = t.pending ∧
    ((ok = false ∧ w2 = w ∧ t2.seg = t.seg ∧ t2.line = t.line ∧ tpos t2 = tpos t) ∨
     (ok = true ∧ (∃ l, raw = some l) ∧ w2 = w ∧ t2.seg = t.seg ∧ t2.line = t.line ∧
        tpos t2 = tpos t + 1 ∧ tpos t + 1 ≤ linesIn w.dir t.seg ∧ ∃ off, t2.file = some off) ∨
     (ok = true ∧ raw = none ∧ w2 = { w with readPos := ⟨t.seg + 1, 0⟩ } ∧ t2.seg = t.seg + 1 ∧
        t2.line = 0 ∧ t2.file = none ∧ tpos t = linesIn w.dir t.seg)) := by
  have hpos := openIfNeeded_pos w t h0 hin
  obtain ⟨_, hhp, hpe, hseg, hline⟩ := openIfNeeded_spec w t
  unfold readNextRawLine at h
  generalize openIfNeeded w t = t1 at h hpos hhp hpe hseg hline
  obtain ⟨seg, line, file, hp, pe⟩ := t1
  simp only at hhp hpe hseg hline
  subst hhp hpe hseg hline
  cases file with
  | none =>
    simp only [Prod.mk.injEq] at h
    obtain ⟨_, h2, h3, h4⟩ := h
    subst h2 h3 h4
    exact ⟨rfl, rfl, Or.inl ⟨rfl, rfl, rfl, rfl, hpos⟩⟩
  | some off =>
    have hoff : (off : Int) = tpos t := hpos
    have hlen : linesIn w.dir t.seg = ((w.dir.lookup t.seg).getD []).length := by
      unfold linesIn countLines
      cases w.dir.lookup t.seg <;> rfl
    simp only at h
    cases hget : ((w.dir.lookup t.seg).getD [])[off]? with
    | some l0 =>
      rw [hget] at h
      simp only [Prod.mk.injEq] at h
      obtain ⟨h1, h2, h3, h4⟩ := h
      subst h1 h2 h3 h4
      have hlt : off < ((w.dir.lookup t.seg).getD []).length := by
        by_contra hc
        rw [List.getElem?_eq_none (by omega)] at hget
        cases hget
      refine ⟨rfl, rfl, Or.inr (Or.inl ⟨rfl, ⟨l0, rfl⟩, rfl, rfl, rfl, ?_, by omega, ⟨_, rfl⟩⟩)⟩
      show ((off + 1 : Nat) : Int) = tpos t + 1
      push_cast
      omega
    | none =>
      rw [hget] at h
      have hge : ((w.dir.lookup t.seg).getD []).length ≤ off := List.getElem?_eq_none_iff.mp hget
      simp only [tryAdvanceToNextSeg, WALTailer.close] at h
      cases hn : w.dir.lookup (t.seg + 1) with
      | none =>
        rw [hn] at h
        simp only [Prod.mk.injEq] at h
        obtain ⟨_, h2, h3, h4⟩ := h
        subst h2 h3 h4
        exact ⟨rfl, rfl, Or.inl ⟨rfl, rfl, rfl, rfl, hpos⟩⟩
      | some ls =>
        rw [hn] at h
        simp only [Prod.mk.injEq] at h
        obtain ⟨h1, h2, h3, h4⟩ := h
        subst h1 h2 h3 h4
        exact ⟨rfl, rfl, Or.inr (Or.inr ⟨rfl, rfl, rfl, rfl, rfl, rfl, by omega⟩)⟩

theorem pushPending_cases (t : WALTailer) (out : Chan) :
    (pushPending t out).2.2.room = out.room ∧
    (pushPending t out).2.1.seg = t.seg ∧ (pushPending t out).2.1.line = t.line ∧
    (pushPending t out).2.1.file = t.file ∧
    (((pushPending t out).1 = false ∧ (pushPending t out).2.1 = t ∧
        (pushPending t out).2.2.sent = out.sent) ∨
     ((pushPending t out).1 = true ∧ (pushPending t out).2.1.hasPending = false ∧
        (pushPending t out).2.2.sent = out.sent ++ pendingList t)) ∧
    (t.hasPending = false → pushPending t out = (true, t, out)) := by
  obtain ⟨seg, line, file, hp, pe⟩ := t
  cases hp with
  | false => simp [pushPending, pendingList]
  | true =>
    cases hr : out.room out.tick with
    | true => simp [pushPending, pendingList, Chan.trySend, hr]
    | false => simp [pushPending, pendingList, Chan.trySend, hr]
theorem tpos_some (t : WALTailer) (off : Nat) (h : t.file = some off) : tpos t = off := by
  simp [tpos, h]

theorem tpos_none (t : WALTailer) (h : t.file = none) : tpos t = t.line := by
  simp [tpos, h]

theorem tpos_congr (t u : WALTailer) (hl : u.line = t.line) (hf : u.file = t.file) :
    tpos u = tpos t := by
  unfold tpos
  rw [hl, hf]

theorem WAL.readPos_self (w : WAL) (p : CommitPos) (h : w.readPos = p) :
    { w with readPos := p } = w := by
  subst h
  rfl

theorem SysInv.of_tail {lo : Int} {s : Sys} (h : SysInv lo s) (t3 : WALTailer) (out3 : Chan)
    (hline : 0 ≤ t3.line) (hle : t3.line ≤ tpos t3)
    (hin : tpos t3 ≤ linesIn s.wal.dir t3.seg)
    (hsent : s.out.sent.length ≤ out3.sent.length)
    (hcount : linesBelow s.wal.dir s.tailer.seg + tpos s.tailer + out3.sent.length
        + (pendingList t3).length
      ≤ linesBelow s.wal.dir t3.seg + tpos t3 + s.out.sent.length
        + (pendingList s.tailer).length) :
    SysInv lo ⟨{ s.wal with readPos := ⟨t3.seg, t3.line⟩ }, t3, out3, s.committed⟩ := by
  refine ⟨⟨h.wal.segs, h.wal.lo_le, h.wal.curLine, h.wal.commit_lo, h.wal.commit_hi,
    h.wal.commit_line, h.wal.commit_in⟩, rfl, rfl, hline, hle, hin, ?_, ?_⟩
  · have := h.enqueued
    show recordsBelow s.wal.dir s.wal.commit + (out3.sent.length : Int)
        + ((pendingList t3).length : Int)
      ≤ linesBelow s.wal.dir t3.seg + tpos t3 + (s.committed : Int)
    omega
  · show s.committed ≤ out3.sent.length
    exact le_trans h.committed_le hsent

theorem tail_inv (cd : Codec) (lo : Int) (s : Sys) (h : SysInv lo s) :
    SysInv lo ⟨(readOneAndQueue cd s.wal s.tailer s.out).2.1,
      (readOneAndQueue cd s.wal s.tailer s.out).2.2.1,
      (readOneAndQueue cd s.wal s.tailer s.out).2.2.2, s.committed⟩ ∧
    (readOneAndQueue cd s.wal s.tailer s.out).2.2.2.room = s.out.room ∧
    (s.out.room s.out.tick = true → RoomInv s →
      RoomInv ⟨(readOneAndQueue cd s.wal s.tailer s.out).2.1,
        (readOneAndQueue cd s.wal s.tailer s.out).2.2.1,
        (readOneAndQueue cd s.wal s.tailer s.out).2.2.2, s.committed⟩) := by
  have hrp : s.wal.readPos = ⟨s.tailer.seg, s.tailer.line⟩ := by
    have h1 := h.read_seg
    have h2 := h.read_line
    cases hr : s.wal.readPos with
    | mk a b =>
      rw [hr] at h1 h2
      simp only at h1 h2
      rw [h1, h2]
  obtain ⟨hroom1, hseg1, hline1, hfile1, hcases1, hnop⟩ := pushPending_cases s.tailer s.out
  unfold readOneAndQueue
  rcases hpp : pushPending s.tailer s.out with ⟨b, t1, out1⟩
  rw [hpp] at hroom1 hseg1 hline1 hfile1 hcases1 hnop
  simp only at hroom1 hseg1 hline1 hfile1 hcases1
  have hpos1 : tpos t1 = tpos s.tailer := tpos_congr s.tailer t1 hline1 hfile1
  rcases hcases1 with ⟨hb, ht1, hs1⟩ | ⟨hb, hp1, hs1⟩
  · subst hb ht1
    simp only
    have hres := h.of_tail s.tailer out1 h.t_line h.line_le h.pos_in (by rw [hs1])
      (by rw [hs1])
    rw [WAL.readPos_self s.wal _ hrp] at hres
    exact ⟨hres, hroom1, fun _ hr => ⟨hr.no_pending, hr.pos_eq⟩⟩
  · subst hb
    simp only
    have hpl1 : pendingList t1 = [] := by simp [pendingList, hp1]
    have hlen1 : (out1.sent.length : Int)
        = (s.out.sent.length : Int) + ((pendingList s.tailer).length : Int) := by
      rw [hs1, List.length_append]
      push_cast
      rfl
    have hlen1n : s.out.sent.length ≤ out1.sent.length := by
      rw [hs1, List.length_append]
      omega
    rcases hrd : readNextRawLine s.wal t1 with ⟨raw, ok, w2, t2⟩
    obtain ⟨hhp, _, hcases⟩ := readNextRawLine_pos s.wal t1 (by rw [hline1]; exact h.t_line)
      (by rw [hpos1, hseg1]; exact h.pos_in) raw ok w2 t2 hrd
    have hp2 : t2.hasPending = false := by rw [hhp]; exact hp1
    have hpl2 : pendingList t2 = [] := by simp [pendingList, hp2]
    rcases hcases with ⟨hok, hw, hs, hl, hpos⟩ | ⟨hok, ⟨l, hraw⟩, hw, hs, hl, hpos, hin, ⟨off, hoff⟩⟩ |
      ⟨hok, hraw, hw, hs, hl, hf, heq⟩
    · subst hok hw
      have hres := h.of_tail t2 out1 (by rw [hl, hline1]; exact h.t_line)
        (by rw [hl, hline1, hpos, hpos1]; exact h.line_le)
        (by rw [hpos, hpos1, hs, hseg1]; exact h.pos_in) hlen1n
        (by rw [hpl2, hpos, hpos1, hs, hseg1]; simp only [List.length_nil, Nat.cast_zero]; omega)
      rw [WAL.readPos_self s.wal _ (by rw [hs, hl, hseg1, hline1]; exact hrp)] at hres
      have hroomy : s.out.room s.out.tick = true → RoomInv s →
          RoomInv ⟨s.wal, t2, out1, s.committed⟩ := by
        intro _ hr
        exact ⟨hp2, by
          show tpos t2 = t2.line
          rw [hpos, hpos1, hl, hline1]
          exact hr.pos_eq⟩
      cases raw <;> exact ⟨hres, hroom1, hroomy⟩
    · subst hok hw hraw
      simp only
      have hmk : ∀ out3 : Chan, out3.room = s.out.room → out1.sent.length ≤ out3.sent.length →
          out3.sent.length ≤ out1.sent.length + 1 →
          SysInv lo ⟨(markLineRead s.wal t2).1, (markLineRead s.wal t2).2, out3, s.committed⟩ ∧
          out3.room = s.out.room ∧
          (s.out.room s.out.tick = true → RoomInv s →
            RoomInv ⟨(markLineRead s.wal t2).1, (markLineRead s.wal t2).2, out3, s.committed⟩) := by
        intro out3 hr1 hr2 hr3
        have hpos3 : tpos { t2 with line := t2.line + 1 } = tpos s.tailer + 1 := by
          have hx : tpos { t2 with line := t2.line + 1 } = (off : Int) :=
            tpos_some { t2 with line := t2.line + 1 } off hoff
          have hy : tpos t2 = (off : Int) := tpos_some t2 off hoff
          rw [hx, ← hy, hpos, hpos1]
        have hpl3 : pendingList { t2 with line := t2.line + 1 } = [] := by
          simp [pendingList, hp2]
        have hres := h.of_tail { t2 with line := t2.line + 1 } out3
          (by simp only; rw [hl, hline1]; have := h.t_line; omega)
          (by rw [hpos3]; simp only; rw [hl, hline1]; have := h.line_le; omega)
          (by rw [hpos3]; simp only; rw [hs, hseg1]; rw [hpos1, hseg1] at hin; exact hin)
          (le_trans hlen1n hr2)
          (by
            rw [hpl3, hpos3]
            simp only [List.length_nil, Nat.cast_zero]
            rw [hs, hseg1]
            have : (out3.sent.length : Int) ≤ (out1.sent.length : Int) + 1 := by exact_mod_cast hr3
            omega)
        refine ⟨hres, hr1, ?_⟩
        intro _ hr
        exact ⟨hp2, by
          show tpos { t2 with line := t2.line + 1 } = t2.line + 1
          rw [hpos3, hl, hline1, hr.pos_eq]⟩
      by_cases hblank : (cd.trimSpace l).length = 0
      · simp only [hblank, if_true]
        exact hmk out1 hroom1 le_rfl (by omega)
      · simp only [hblank, if_false]
        cases hun : cd.unmarshal (cd.trimSpace l) with
        | none =>
          simp only
          exact hmk out1 hroom1 le_rfl (by omega)
        | some ev =>
          cases hr : out1.room out1.tick with
          | true =>
            simp only [Chan.trySend, hr, if_true]
            exact hmk _ hroom1 (by simp) (by simp)
          | false =>
            simp only [Chan.trySend, hr, Bool.false_eq_true, if_false]
            have hpos3 : tpos { t2 with hasPending := true, pending := ev } = tpos s.tailer + 1 := by
              have hx : tpos { t2 with hasPending := true, pending := ev } = (off : Int) :=
                tpos_some { t2 with hasPending := true, pending := ev } off hoff
              have hy : tpos t2 = (off : Int) := tpos_some t2 off hoff
              rw [hx, ← hy, hpos, hpos1]
            have hpl3 : pendingList { t2 with hasPending := true, pending := ev } = [ev] := by
              simp [pendingList]
            have hres := h.of_tail { t2 with hasPending := true, pending := ev }
              { out1 with tick := out1.tick + 1 }
              (by simp only; rw [hl, hline1]; exact h.t_line)
              (by rw [hpos3]; simp only; rw [hl, hline1]; have := h.line_le; omega)
              (by rw [hpos3]; simp only; rw [hs, hseg1]; rw [hpos1, hseg1] at hin; exact hin)
              hlen1n
              (by
                rw [hpl3, hpos3]
                simp only [List.length_singleton, Nat.cast_one]
                rw [hs, hseg1]
                omega)
            rw [WAL.readPos_self s.wal _ (by simp only; rw [hs, hl, hseg1, hline1]; exact hrp)]
              at hres
            refine ⟨hres, hroom1, ?_⟩
            intro hsend hr0
            have hsame := hnop hr0.no_pending
            simp only [Prod.mk.injEq, true_and] at hsame
            rw [hsame.2, hsend] at hr
            cases hr
    · subst hok hw hraw
      simp only
      have hpos2 : tpos t2 = 0 := by rw [tpos_none t2 hf, hl]
      have hres := h.of_tail t2 out1 (by rw [hl]) (by rw [hpos2, hl])
        (by rw [hpos2]; exact Int.ofNat_nonneg _) hlen1n
        (by
          rw [hpl2, hpos2, hs, hseg1]
          have := linesBelow_succ s.wal.dir s.tailer.seg
          rw [hpos1, hseg1] at heq
          simp only [List.length_nil, Nat.cast_zero]
          omega)
      rw [hs, hl] at hres
      refine ⟨hres, hroom1, ?_⟩
      intro _ _
      exact ⟨hp2, by
        show tpos t2 = t2.line
        rw [hpos2, hl]⟩
theorem loadCommit_line_nonneg (m : MetaFile) (cp : CommitPos) (h : loadCommit m = .ok cp) :
    0 ≤ cp.line := by
  cases m with
  | absent =>
    simp only [loadCommit, Except.ok.injEq] at h
    rw [← h]
  | unparsable => simp [loadCommit] at h
  | parsed cp0 =>
    simp only [loadCommit, Except.ok.injEq] at h
    rw [← h]
    split_ifs <;> (try dsimp only at *) <;> omega

theorem NewWAL_basic (dir : Dir) (m : MetaFile) (segMaxMB : Int) (w : WAL)
    (h : NewWAL dir m segMaxMB = .ok w) :
    w.readPos = w.commit ∧ 0 ≤ w.commit.line ∧ w.curLine = linesIn w.dir w.curSeg := by
  unfold NewWAL at h
  cases hload : loadCommit m with
  | error e => rw [hload] at h; cases h
  | ok cp =>
    rw [hload] at h
    simp only [Except.ok.injEq] at h
    have hnn := loadCommit_line_nonneg m cp hload
    by_cases he : segNums dir = ∅
    · rw [openOrCreateTail_empty _ he] at h
      subst h
      refine ⟨rfl, hnn, ?_⟩
      have h2 : dir.lookup 1 = none := by
        apply lookup_none_of_not_mem
        rw [he]
        simp
      simp only [linesIn_create]
      simp [linesIn, countLines, h2]
    · cases hlast : (listSegs dir).getLast? with
      | none =>
        exfalso
        exact he ((listSegs_eq_nil_iff dir).mp (List.getLast?_eq_none_iff.mp hlast))
      | some last =>
        obtain ⟨ls, hls, hopen⟩ := openOrCreateTail_last
          { dir := dir, commitMeta := m, segMaxBytes := segMaxMB * 1024 * 1024,
            curLine := 0, curSeg := 0, curSize := 0, commit := cp, readPos := cp } last hlast
        rw [hopen] at h
        subst h
        refine ⟨rfl, hnn, ?_⟩
        simp only at hls
        simp [linesIn, countLines, hls]

theorem init_inv (dir : Dir) (m : MetaFile) (segMaxMB : Int) (w : WAL) (out : Chan)
    (h : NewWAL dir m segMaxMB = .ok w) (hs : out.sent = []) (h0 : consistentStart w out) :
    ∃ lo, SysInv lo ⟨w, NewWALTailer w, out, 0⟩ ∧ RoomInv ⟨w, NewWALTailer w, out, 0⟩ := by
  obtain ⟨lo, hsegs, hlo, hclo, hchi, hcin⟩ := h0
  obtain ⟨hrp, hnn, hcur⟩ := NewWAL_basic dir m segMaxMB w h
  refine ⟨lo, ⟨⟨hsegs, hlo, hcur, hclo, hchi, hnn, hcin⟩, rfl, rfl, ?_, le_rfl, ?_, ?_, ?_⟩,
    ⟨rfl, rfl⟩⟩
  · show 0 ≤ w.readPos.line
    rw [hrp]
    exact hnn
  · show w.readPos.line ≤ linesIn w.dir w.readPos.seg
    rw [hrp]
    exact hcin
  · show recordsBelow w.dir w.commit + (out.sent.length : Int) + ((0 : Nat) : Int)
      ≤ linesBelow w.dir w.readPos.seg + w.readPos.line + ((0 : Nat) : Int)
    rw [hrp, hs]
    unfold recordsBelow
    simp
  · exact Nat.zero_le _

theorem append_inv (cd : Codec) (lo : Int) (s : Sys) (ev : Event) (h : SysInv lo s) :
    SysInv lo { s with wal := (Append cd s.wal ev).2 } := by
  have g := Append_grows cd lo s.wal ev h.wal
  refine ⟨g.inv, ?_, ?_, h.t_line, h.line_le, ?_, ?_, h.committed_le⟩
  · show (Append cd s.wal ev).2.readPos.seg = s.tailer.seg
    rw [g.readPos_eq]
    exact h.read_seg
  · show (Append cd s.wal ev).2.readPos.line = s.tailer.line
    rw [g.readPos_eq]
    exact h.read_line
  · show tpos s.tailer ≤ linesIn (Append cd s.wal ev).2.dir s.tailer.seg
    have h1 := h.pos_in
    have h2 : (linesIn s.wal.dir s.tailer.seg : Int)
        ≤ linesIn (Append cd s.wal ev).2.dir s.tailer.seg := by
      exact_mod_cast g.lines_le s.tailer.seg
    omega
  · show recordsBelow (Append cd s.wal ev).2.dir (Append cd s.wal ev).2.commit
        + (s.out.sent.length : Int) + ((pendingList s.tailer).length : Int)
      ≤ linesBelow (Append cd s.wal ev).2.dir s.tailer.seg + tpos s.tailer + (s.committed : Int)
    rw [g.commit_eq]
    have h1 := h.enqueued
    have h2 := g.below_commit
    have h3 := g.below_le s.tailer.seg
    unfold recordsBelow at h1 ⊢
    omega

theorem look_inv (lo : Int) (s : Sys) (h : SysInv lo s) :
    SysInv lo { s with out := s.out.isFull.2 } :=
  ⟨h.wal, h.read_seg, h.read_line, h.t_line, h.line_le, h.pos_in, h.enqueued, h.committed_le⟩

theorem drainStep_inv (cd : Codec) (lo : Int) (s : Sys) (h : SysInv lo s) (hr : RoomInv s)
    (hroom : s.out.room s.out.tick = true → s.out.room (s.out.tick + 1) = true) :
    SysInv lo (drainStep cd s) ∧ RoomInv (drainStep cd s) := by
  have hl := look_inv lo s h
  have hnp := hr.no_pending
  unfold drainStep
  cases hfull : s.out.room s.out.tick with
  | false =>
    simp only [Chan.isFull, hfull, hnp, Bool.not_false, Bool.and_self, if_true]
    exact ⟨hl, ⟨hr.no_pending, hr.pos_eq⟩⟩
  | true =>
    simp only [Chan.isFull, hfull, hnp, Bool.not_true, Bool.false_and, Bool.false_eq_true,
      if_false]
    obtain ⟨h1, _, h3⟩ := tail_inv cd lo { s with out := s.out.isFull.2 } hl
    exact ⟨h1, h3 (hroom hfull) ⟨hr.no_pending, hr.pos_eq⟩⟩

theorem reachable_inv (cd : Codec) (s : Sys) (h : Reachable cd consistentStart s) :
    ∃ lo, SysInv lo s ∧ RoomInv s := by
  induction h with
  | init dir m segMaxMB w out h hs h0 => exact init_inv dir m segMaxMB w out h hs h0
  | append s ev _ ih =>
    obtain ⟨lo, hinv, hroom⟩ := ih
    exact ⟨lo, append_inv cd lo s ev hinv, ⟨hroom.no_pending, hroom.pos_eq⟩⟩
  | drain s _ hr ih =>
    obtain ⟨lo, hinv, hroom⟩ := ih
    exact ⟨lo, drainStep_inv cd lo s hinv hroom hr⟩
  | commit s k w _ hk hle hw ih =>
    obtain ⟨lo, hinv, hroom⟩ := ih
    exact ⟨lo, commit_inv lo s k w hinv hk hle hw, ⟨hroom.no_pending, hroom.pos_eq⟩⟩

/-- C1, amended: in every state reachable from a freshly recovered WAL whose segments are
numbered without a gap and whose commit pointer lies inside them, by `Append` calls, iterations
of `drain` (under every schedule of a channel on which the tailer is the only sender, full at
any length test) and commits of events that were enqueued and not committed before, the numbers
of records below the three positions are ordered as the positions are named: records below
`commit` <= records below `readPos` <= records below the append position
`(curSeg, curLine)`. -/
theorem reachable_record_order (cd : Codec) (s : Sys) (h : Reachable cd consistentStart s) :
    recordsBelow s.wal.dir s.wal.commit ≤ recordsBelow s.wal.dir s.wal.readPos ∧
    recordsBelow s.wal.dir s.wal.readPos
      ≤ recordsBelow s.wal.dir ⟨s.wal.curSeg, s.wal.curLine⟩ := by
  obtain ⟨lo, hinv, hroom⟩ := reachable_inv cd s h
  have h1 := hinv.enqueued
  have h2 : (s.committed : Int) ≤ (s.out.sent.length : Int) := by exact_mod_cast hinv.committed_le
  have h3 := hinv.pos_le_total
  have h4 := hinv.line_le
  have hrs := hinv.read_seg
  have hrl := hinv.read_line
  have h5 := hroom.pos_eq
  have h7 : pendingList s.tailer = [] := by simp [pendingList, hroom.no_pending]
  rw [h7] at h1
  simp only [List.length_nil, Nat.cast_zero] at h1
  rw [hinv.wal.total_eq]
  constructor
  · unfold recordsBelow at h1 ⊢
    rw [hrs, hrl]
    omega
  · unfold recordsBelow
    rw [hrs, hrl]
    omega

theorem Consistent_exTwo : Consistent exTwo := by
  refine ⟨1, ?_, by decide, by decide, by decide, by decide⟩
  intro k
  by_cases h1 : k = 1
  · subst h1; decide
  · have hb1 : (k == 1) = false := by simpa using h1
    simp only [exTwo, List.lookup, hb1, Option.isSome_none, Bool.false_eq_true, false_iff,
      not_and, not_le]
    omega

theorem exAfterFull_reachable (start : WAL → Chan → Prop)
    (h0 : start exTwo exChanBusy) : Reachable exCodec start exAfterFull := by
  have h1 : Reachable exCodec start ⟨exTwo, NewWALTailer exTwo, exChanBusy, 0⟩ :=
    Reachable.init [(1, [[7], [8]])] .absent 1 exTwo exChanBusy (by rfl) rfl h0
  have h2 := Reachable.drain _ h1 (fun h => by cases h)
  have h3 := Reachable.drain _ h2 (fun _ => rfl)
  have h4 := Reachable.drain _ h3 (fun _ => rfl)
  have h5 := Reachable.commit _ 2 exAfterFull.wal h4 (by decide) (by decide) (by rfl)
  exact h5

theorem reachable_record_order_witness :
    (recordsBelow exAfterCommit.wal.dir exAfterCommit.wal.commit
        ≤ recordsBelow exAfterCommit.wal.dir exAfterCommit.wal.readPos ∧
      recordsBelow exAfterCommit.wal.dir exAfterCommit.wal.readPos
        ≤ recordsBelow exAfterCommit.wal.dir
          ⟨exAfterCommit.wal.curSeg, exAfterCommit.wal.curLine⟩) ∧
    (recordsBelow exAfterFull.wal.dir exAfterFull.wal.commit
        ≤ recordsBelow exAfterFull.wal.dir exAfterFull.wal.readPos ∧
      recordsBelow exAfterFull.wal.dir exAfterFull.wal.readPos
        ≤ recordsBelow exAfterFull.wal.dir ⟨exAfterFull.wal.curSeg, exAfterFull.wal.curLine⟩) ∧
    exAfterFull.wal.commit = ⟨2, 0⟩ ∧ exAfterFull.wal.readPos = ⟨1, 2⟩ ∧
    recordsBelow exAfterFull.wal.dir exAfterFull.wal.commit = 2 :=
  ⟨reachable_record_order exCodec exAfterCommit
      (exAfterCommit_reachable consistentStart Consistent_exFresh),
    reachable_record_order exCodec exAfterFull
      (exAfterFull_reachable consistentStart Consistent_exTwo),
    rfl, rfl, by decide⟩

theorem drains_deliver_in_order_witness :
    (∃ w' t' out', drains exCodec 2 exWAL (NewWALTailer exWAL) ⟨[], fun n => n != 1, 0⟩
        = some (w', t', out') ∧ w'.dir = exWAL.dir ∧
      ∃ later, out'.sent ++ pendingList t' ++ later
        = recordsFrom exCodec exWAL.dir exWAL.readPos.seg exWAL.readPos.line) ∧
    (drains exCodec 1 exWAL (NewWALTailer exWAL) ⟨[], fun n => n != 1, 0⟩).map
        (fun r => (r.2.2.sent, pendingList r.2.1)) = some ([], [exEvent 8]) ∧
    (drains exCodec 2 exWAL (NewWALTailer exWAL) ⟨[], fun n => n != 1, 0⟩).map
        (fun r => (r.2.2.sent, pendingList r.2.1)) = some ([exEvent 8, exEvent 9], []) ∧
    recordsFrom exCodec exWAL.dir exWAL.readPos.seg exWAL.readPos.line = [exEvent 8, exEvent 9] :=
  ⟨drains_deliver_in_order exCodec exWAL (fun n => n != 1) 2, by decide, by decide, by decide⟩

theorem readOneAndQueue_corrupt (cd : Codec) (w : WAL) (t t1 : WALTailer) (out out1 : Chan)
    (l : Line) (ok : Bool) (w2 : WAL) (t2 : WALTailer)
    (hpush : pushPending t out = (true, t1, out1))
    (hread : readNextRawLine w t1 = (some l, ok, w2, t2))
    (hne : (cd.trimSpace l).length ≠ 0)
    (hbad : cd.unmarshal (cd.trimSpace l) = none) :
    readOneAndQueue cd w t out
      = (true, { w with readPos := ⟨t2.seg, t2.line + 1⟩ }, { t2 with line := t2.line + 1 }, out1) := by
  obtain ⟨hok, hw, _⟩ := readNextRawLine_some w t1 l ok w2 t2 hread
  subst hok hw
  unfold readOneAndQueue
  rw [hpush]
  simp only
  rw [hread]
  simp only [hne, if_false, hbad, markLineRead]

/-- C11: when the line that `readOneAndQueue` reads is not blank after trimming and does not
decode, the call enqueues nothing for it (the events sent are those sent before, preceded only
by the record an earlier call left pending, and the channel is not touched at all when nothing
was pending), moves the line cursor and the published read position one line forward, leaves no
pending record and returns `true`, so that `drain` goes on; the reader then stands right behind
the skipped line, and whatever later `drain` calls enqueue are, in order, the records of the
lines that follow it. -/
theorem readOneAndQueue_skips_corrupt_line (cd : Codec) (w : WAL) (t : WALTailer) (out : Chan)
    (l : Line) (ok : Bool) (w2 : WAL) (t2 : WALTailer)
    (hpush : (pushPending t out).1 = true)
    (hread : readNextRawLine w (pushPending t out).2.1 = (some l, ok, w2, t2))
    (hne : (cd.trimSpace l).length ≠ 0)
    (hbad : cd.unmarshal (cd.trimSpace l) = none) :
    (readOneAndQueue cd w t out).1 = true ∧
    (readOneAndQueue cd w t out).2.2.2.sent = out.sent ++ pendingList t ∧
    (t.hasPending = false → (readOneAndQueue cd w t out).2.2.2 = out) ∧
    (readOneAndQueue cd w t out).2.2.1.seg = t.seg ∧
    (readOneAndQueue cd w t out).2.2.1.line = t.line + 1 ∧
    (readOneAndQueue cd w t out).2.1.readPos = ⟨t.seg, t.line + 1⟩ ∧
    (readOneAndQueue cd w t out).2.2.1.hasPending = false ∧
    (readOneAndQueue cd w t out).2.1.dir = w.dir ∧
    restLines w.dir t = l :: restLines w.dir (readOneAndQueue cd w t out).2.2.1 ∧
    ∀ n, ∃ r, drains cd n (readOneAndQueue cd w t out).2.1 (readOneAndQueue cd w t out).2.2.1
        (readOneAndQueue cd w t out).2.2.2 = some r ∧
      ∃ later, r.2.2.sent ++ pendingList r.2.1 ++ later
        = out.sent ++ pendingList t ++
          (restLines w.dir (readOneAndQueue cd w t out).2.2.1).filterMap (decodeLine cd) := by
  obtain ⟨hsent, hseg, hline, hfile, _, hpend⟩ := pushPending_spec t out
  have hnop : t.hasPending = false → pushPending t out = (true, t, out) := by
    intro h
    simp [pushPending, h]
  rcases hpp : pushPending t out with ⟨b, t1, out1⟩
  rw [hpp] at hsent hseg hline hfile hpend hpush hread hnop
  simp only at hsent hseg hline hfile hpend hpush hread
  subst hpush
  have hp1 : t1.hasPending = false := hpend rfl
  have hpl1 : pendingList t1 = [] := by simp [pendingList, hp1]
  rw [hpl1, List.append_nil] at hsent
  obtain ⟨_, _, hhp2, _, hseg2, hline2, ⟨off, hoff⟩, hrest⟩ :=
    readNextRawLine_some w t1 l ok w2 t2 hread
  have hrest1 : restLines w.dir t1 = restLines w.dir t := restLines_congr w.dir t t1 hseg hline hfile
  rw [readOneAndQueue_corrupt cd w t t1 out out1 l ok w2 t2 hpp hread hne hbad]
  have hrest3 : restLines w.dir { t2 with line := t2.line + 1 } = restLines w.dir t2 := by
    obtain ⟨seg, line, file, hp, pe⟩ := t2
    simp only at hoff
    subst hoff
    rfl
  have hpl3 : pendingList { t2 with line := t2.line + 1 } = [] := by
    simp [pendingList, hhp2, hp1]
  refine ⟨rfl, hsent, ?_, by simp only [hseg2, hseg], by simp only [hline2, hline],
    by simp only [hseg2, hseg, hline2, hline], by simp only [hhp2, hp1], rfl, ?_, ?_⟩
  · intro h
    have h2 := hnop h
    simp only [Prod.mk.injEq, true_and] at h2
    exact h2.2
  · rw [← hrest1, hrest, hrest3]
  · intro n
    obtain ⟨r, hr, _, _, hi⟩ := drains_spec cd n { w with readPos := ⟨t2.seg, t2.line + 1⟩ }
      { t2 with line := t2.line + 1 } out1
    refine ⟨r, hr, (restLines w.dir r.2.1).filterMap (decodeLine cd), ?_⟩
    simp only at hi
    rw [hi, hpl3, List.append_nil, hsent]

theorem readOneAndQueue_skips_corrupt_line_witness :
    (readOneAndQueue exCodec exCorrupt (NewWALTailer exCorrupt) exChan).1 = true ∧
    (readOneAndQueue exCodec exCorrupt (NewWALTailer exCorrupt) exChan).2.2.2.sent
      = exChan.sent ++ pendingList (NewWALTailer exCorrupt) ∧
    (readOneAndQueue exCodec exCorrupt (NewWALTailer exCorrupt) exChan).2.2.1.line
      = (NewWALTailer exCorrupt).line + 1 ∧
    (readOneAndQueue exCodec exCorrupt (NewWALTailer exCorrupt) exChan).2.1.readPos = ⟨1, 2⟩ ∧
    (readOneAndQueue exCodec exCorrupt (NewWALTailer exCorrupt) exChan).2.2.2.sent = [] ∧
    (drains exCodec 1 (readOneAndQueue exCodec exCorrupt (NewWALTailer exCorrupt) exChan).2.1
      (readOneAndQueue exCodec exCorrupt (NewWALTailer exCorrupt) exChan).2.2.1
      (readOneAndQueue exCodec exCorrupt (NewWALTailer exCorrupt) exChan).2.2.2).map
        (fun r => r.2.2.sent) = some [exEvent 8] :=
  have h := readOneAndQueue_skips_corrupt_line exCodec exCorrupt (NewWALTailer exCorrupt) exChan
    [1, 2] true exCorrupt ⟨1, 1, some 2, false, Event.zero⟩ (by decide) (by rfl) (by decide)
    (by decide)
  ⟨h.1, h.2.1, h.2.2.2.2.1, h.2.2.2.2.2.1, by decide, by decide⟩

theorem utf8ByteSize_go_ascii : ∀ (cs : List Char), (∀ c ∈ cs, c.val ≤ 127) →
    String.utf8ByteSize.go cs = cs.length := by
  intro cs
  induction cs with
  | nil => intro _; rfl
  | cons c cs ih =>
    intro h
    have hc : c.val ≤ 127 := h c (List.mem_cons_self c cs)
    have h1 : c.utf8Size = 1 := by
      unfold Char.utf8Size
      exact if_pos hc
    simp only [String.utf8ByteSize.go, List.length_cons, h1]
    rw [ih (fun d hd => h d (List.mem_cons_of_mem c hd))]

theorem len_ascii (s : String) (h : ∀ c ∈ s.data, c.val ≤ 127) : len s = s.length := by
  obtain ⟨cs⟩ := s
  exact utf8ByteSize_go_ascii cs h

theorem GeoMapper_Get_eq (lib : GoLib) (g : GeoMapper) (s : String) :
    GeoMapper.Get lib g s =
      if len (lib.toUpper (lib.trimSpace s)) ≠ 2 then (none, g)
      else
        match g.iso.lookup (lib.toUpper (lib.trimSpace s)) with
        | none => (none, { g with mu := g.mu.RLock, lookups := g.lookups + 1 })
        | some v => (some v, { g with mu := g.mu.RLock.RUnlock, lookups := g.lookups + 1 }) := by
  unfold GeoMapper.Get
  by_cases h : len (lib.toUpper (lib.trimSpace s)) ≠ 2
  · simp only [h, if_true]
  · simp only [h, if_false]

/-- C16, amended: for every string `s`, `GeoMapper.Get(s)` returns the row stored under the
key `upper(trim(s))` when that key is exactly two bytes long (`len` of a Go string counts
bytes) and present in the map, and `nil` in every other case; a key whose length in bytes is
not 2 is never looked up (the call returns before the lock is taken and the map is read), a
key of two bytes is looked up once, and the map is left as it was.  For a key of ASCII
characters two bytes are two characters. -/
theorem GeoMapper_Get_by_byte_length (lib : GoLib) (g : GeoMapper) (s : String) :
    (GeoMapper.Get lib g s).1 =
      (if len (lib.toUpper (lib.trimSpace s)) = 2 then
        g.iso.lookup (lib.toUpper (lib.trimSpace s)) else none) ∧
    (len (lib.toUpper (lib.trimSpace s)) ≠ 2 → GeoMapper.Get lib g s = (none, g)) ∧
    (len (lib.toUpper (lib.trimSpace s)) = 2 →
      (GeoMapper.Get lib g s).2.lookups = g.lookups + 1) ∧
    (GeoMapper.Get lib g s).2.iso = g.iso ∧
    ((∀ c ∈ (lib.toUpper (lib.trimSpace s)).data, c.val ≤ 127) →
      (len (lib.toUpper (lib.trimSpace s)) = 2 ↔ (lib.toUpper (lib.trimSpace s)).length = 2)) := by
  rw [GeoMapper_Get_eq]
  refine ⟨?_, ?_, ?_, ?_, ?_⟩
  · by_cases h : len (lib.toUpper (lib.trimSpace s)) = 2
    · simp only [h, ne_eq, not_true_eq_false, if_false, if_true]
      cases g.iso.lookup (lib.toUpper (lib.trimSpace s)) <;> rfl
    · simp only [h, ne_eq, not_false_eq_true, if_true, if_false]
  · intro h
    simp only [h, ne_eq, not_false_eq_true, if_true]
  · intro h
    simp only [h, ne_eq, not_true_eq_false, if_false]
    cases g.iso.lookup (lib.toUpper (lib.trimSpace s)) <;> rfl
  · by_cases h : len (lib.toUpper (lib.trimSpace s)) = 2
    · simp only [h, ne_eq, not_true_eq_false, if_false]
      cases g.iso.lookup (lib.toUpper (lib.trimSpace s)) <;> rfl
    · simp only [h, ne_eq, not_false_eq_true, if_true]
  · intro h
    rw [len_ascii _ h]

theorem GeoMapper_Get_by_byte_length_witness :
    (GeoMapper.Get exLib exGeo " de ").1 = some ⟨20, "DE", 5⟩ ∧
    (GeoMapper.Get exLib exGeo "deu") = (none, exGeo) ∧
    (GeoMapper.Get exLib exGeo " de ").2.lookups = exGeo.lookups + 1 ∧
    (len (exLib.toUpper (exLib.trimSpace " de ")) = 2 ↔
      (exLib.toUpper (exLib.trimSpace " de ")).length = 2) :=
  have h := GeoMapper_Get_by_byte_length exLib exGeo " de "
  have k := GeoMapper_Get_by_byte_length exLib exGeo "deu"
  ⟨h.1.trans (by decide), k.2.1 (by decide), h.2.2.1 (by decide), h.2.2.2.2 (by decide)⟩

/-- C16, counterexample: the claim fails where bytes and characters differ.  The key `É` is one
character of two bytes: it is looked up, and the row a reload has stored under it is returned.
The key `ÉÉ` is two characters of four bytes: its row is in the map, and `Get` returns `nil`
without a lookup. -/
theorem GeoMapper_Get_counts_bytes :
    ("É".length = 1 ∧ len "É" = 2 ∧ exLib.toUpper (exLib.trimSpace "É") = "É") ∧
    (GeoMapper.reload exLib exGeo [(9, "É", 4), (8, "ÉÉ", 3)]).map
        (fun g => (g.iso, GeoMapper.Get exLib g "É"))
      = some ([("ÉÉ", ⟨8, "ÉÉ", 3⟩), ("É", ⟨9, "É", 4⟩)],
          (some ⟨9, "É", 4⟩,
            { mu := ⟨0⟩, iso := [("ÉÉ", ⟨8, "ÉÉ", 3⟩), ("É", ⟨9, "É", 4⟩)], lookups := 1 })) ∧
    ("ÉÉ".length = 2 ∧ len "ÉÉ" = 4 ∧ exLib.toUpper (exLib.trimSpace "ÉÉ") = "ÉÉ") ∧
    (GeoMapper.reload exLib exGeo [(9, "É", 4), (8, "ÉÉ", 3)]).map
        (fun g => (g.iso.lookup "ÉÉ", GeoMapper.Get exLib g "ÉÉ"))
      = some (some ⟨8, "ÉÉ", 3⟩,
          (none, { mu := ⟨0⟩, iso := [("ÉÉ", ⟨8, "ÉÉ", 3⟩), ("É", ⟨9, "É", 4⟩)], lookups := 0 })) := by
  refine ⟨by decide, by decide, by decide, by decide⟩

/-- C19, the code at the failing input: a two-letter code that is not in the map.  `Get`
takes the read lock, finds no row and returns `nil` without `RUnlock`, so one more read lock is
held after the call than before it, and the `Lock` of the next `reload` is not granted.  On a
hit, and for a key that is not two bytes long, the count is the same after the call as before
it, and a `reload` goes through.  The same holds for every map and every string whose key is
two bytes long and absent. -/
theorem GeoMapper_Get_miss_keeps_read_lock :
    GeoMapper.Get exLib exGeo "zz" = (none, { exGeo with mu := ⟨1⟩, lookups := 1 }) ∧
    GeoMapper.reload exLib (GeoMapper.Get exLib exGeo "zz").2 [(20, "DE", 5)] = none ∧
    (GeoMapper.Get exLib exGeo "de").2.mu = exGeo.mu ∧
    (GeoMapper.Get exLib exGeo "deu").2.mu = exGeo.mu ∧
    (GeoMapper.reload exLib (GeoMapper.Get exLib exGeo "de").2 [(20, "DE", 5)]).isSome = true ∧
    ∀ (lib : GoLib) (g : GeoMapper) (s : String), len (lib.toUpper (lib.trimSpace s)) = 2 →
      g.iso.lookup (lib.toUpper (lib.trimSpace s)) = none →
      (GeoMapper.Get lib g s).1 = none ∧
      (GeoMapper.Get lib g s).2.mu.readers = g.mu.readers + 1 ∧
      ∀ rows, GeoMapper.reload lib (GeoMapper.Get lib g s).2 rows = none := by
  refine ⟨by decide, by decide, by decide, by decide, by decide, ?_⟩
  intro lib g s hlen hmiss
  rw [GeoMapper_Get_eq]
  simp only [hlen, ne_eq, not_true_eq_false, if_false, hmiss]
  refine ⟨trivial, rfl, ?_⟩
  intro rows
  simp [GeoMapper.reload, RWMutex.Lock, RWMutex.RLock]

/-- The five ways `buildEvent` ends: the four errors, each with its cause and the geo mapper
untouched, and the event built from the domain row and the geo lookup. -/
theorem buildEvent_cases (lib : GoLib) (now : Int) (r : Request) (dc : DomainCache)
    (geo : GeoMapper) :
    (r.query.Get "event" ∉ allowedEvents ∧
      buildEvent lib now r dc geo = (.error .noEvent, geo)) ∨
    (r.query.Get "event" ∈ allowedEvents ∧
      lib.toLower (lib.trimSpace (r.query.Get "domain")) = "" ∧
      buildEvent lib now r dc geo = (.error .noDomain, geo)) ∨
    (r.query.Get "event" ∈ allowedEvents ∧
      lib.toLower (lib.trimSpace (r.query.Get "domain")) ≠ "" ∧
      (lib.atoi (r.query.Get "file_id") = none ∨
        ∃ n, lib.atoi (r.query.Get "file_id") = some n ∧ n ≤ 0) ∧
      buildEvent lib now r dc geo = (.error .noFileID, geo)) ∨
    (r.query.Get "event" ∈ allowedEvents ∧
      lib.toLower (lib.trimSpace (r.query.Get "domain")) ≠ "" ∧
      (∃ n, lib.atoi (r.query.Get "file_id") = some n ∧ 0 < n) ∧
      dc.Get lib (lib.toLower (lib.trimSpace (r.query.Get "domain"))) = none ∧
      buildEvent lib now r dc geo = (.error .domainNotFound, geo)) ∨
    (r.query.Get "event" ∈ allowedEvents ∧
      lib.toLower (lib.trimSpace (r.query.Get "domain")) ≠ "" ∧
      ∃ n d, lib.atoi (r.query.Get "file_id") = some n ∧ 0 < n ∧
        dc.Get lib (lib.toLower (lib.trimSpace (r.query.Get "domain"))) = some d ∧
        buildEvent lib now r dc geo =
          (.ok ⟨now, d.parentID, d.id,
              (((geo.Get lib (countryCode r)).1.map (fun c => c.id)).getD 0),
              (((geo.Get lib (countryCode r)).1.map (fun c => c.groupID)).getD 0),
              d.domainTypeID, clientIP16 lib r, n, r.query.Get "event"⟩,
            (geo.Get lib (countryCode r)).2)) := by
  unfold buildEvent
  by_cases hev : r.query.Get "event" ∈ allowedEvents
  · have hc : allowedEvents.contains (r.query.Get "event") = true := by simpa using hev
    simp only [hc, Bool.not_true, Bool.false_eq_true, if_false]
    by_cases hd : lib.toLower (lib.trimSpace (r.query.Get "domain")) = ""
    · simp only [hd, if_true]
      exact Or.inr (Or.inl ⟨hev, trivial, trivial⟩)
    · simp only [hd, if_false]
      cases ha : lib.atoi (r.query.Get "file_id") with
      | none =>
        exact Or.inr (Or.inr (Or.inl ⟨hev, by simpa using hd, Or.inl rfl, rfl⟩))
      | some n =>
        simp only
        by_cases hn : n ≤ 0
        · simp only [hn, if_true]
          exact Or.inr (Or.inr (Or.inl ⟨hev, by simpa using hd, Or.inr ⟨n, rfl, hn⟩, trivial⟩))
        · simp only [hn, if_false]
          cases hg : dc.Get lib (lib.toLower (lib.trimSpace (r.query.Get "domain"))) with
          | none =>
            exact Or.inr (Or.inr (Or.inr (Or.inl
              ⟨hev, by simpa using hd, ⟨n, rfl, by omega⟩, rfl, rfl⟩)))
          | some d =>
            refine Or.inr (Or.inr (Or.inr (Or.inr
              ⟨hev, by simpa using hd, n, d, rfl, by omega, rfl, ?_⟩)))
            simp only
            have hcc : (if r.query.Get "force_country" ≠ "" then r.query.Get "force_country"
                else r.header.Get "CF-IPCountry") = countryCode r := rfl
            rw [hcc]
            rcases hget : geo.Get lib (countryCode r) with ⟨c, geo2⟩
            cases c <;> rfl
  · have hc : allowedEvents.contains (r.query.Get "event") = false := by simpa using hev
    simp only [hc, Bool.not_false, if_true]
    exact Or.inl ⟨hev, trivial⟩
/-- C13: `buildEvent` returns an error, and with it no event, exactly when the `event`
parameter is not one of the 13 allowed names (an absent parameter reads as the empty name), or
the `domain` parameter is empty after trimming and lower-casing, or `file_id` is not an integer
for `Atoi` (a missing one reads as the empty text) or is not positive, or `DomainCache.Get`
finds no row for the normalised domain.  An error leaves the geo mapper untouched. -/
theorem buildEvent_error_iff (lib : GoLib) (now : Int) (r : Request) (dc : DomainCache)
    (geo : GeoMapper) :
    ((∃ err, (buildEvent lib now r dc geo).1 = .error err) ↔
      (r.query.Get "event" ∉ allowedEvents ∨
       lib.toLower (lib.trimSpace (r.query.Get "domain")) = "" ∨
       (lib.atoi (r.query.Get "file_id") = none ∨
         ∃ n, lib.atoi (r.query.Get "file_id") = some n ∧ n ≤ 0) ∨
       dc.Get lib (lib.toLower (lib.trimSpace (r.query.Get "domain"))) = none)) ∧
    ((∃ e, (buildEvent lib now r dc geo).1 = .ok e) ↔
      (r.query.Get "event" ∈ allowedEvents ∧
       lib.toLower (lib.trimSpace (r.query.Get "domain")) ≠ "" ∧
       (∃ n, lib.atoi (r.query.Get "file_id") = some n ∧ 0 < n) ∧
       ∃ d, dc.Get lib (lib.toLower (lib.trimSpace (r.query.Get "domain"))) = some d)) ∧
    (r.query.lookup "event" = none → ∃ err, (buildEvent lib now r dc geo).1 = .error err) ∧
    (r.query.lookup "file_id" = none → ∃ err, (buildEvent lib now r dc geo).1 = .error err) ∧
    ((∃ err, (buildEvent lib now r dc geo).1 = .error err) →
      (buildEvent lib now r dc geo).2 = geo) ∧
    allowedEvents.length = 13 ∧ allowedEvents.Nodup := by
  have hiff : (∃ err, (buildEvent lib now r dc geo).1 = .error err) ↔
      (r.query.Get "event" ∉ allowedEvents ∨
       lib.toLower (lib.trimSpace (r.query.Get "domain")) = "" ∨
       (lib.atoi (r.query.Get "file_id") = none ∨
         ∃ n, lib.atoi (r.query.Get "file_id") = some n ∧ n ≤ 0) ∨
       dc.Get lib (lib.toLower (lib.trimSpace (r.query.Get "domain"))) = none) := by
    rcases buildEvent_cases lib now r dc geo with ⟨h1, h2⟩ | ⟨h1, h2, h3⟩ | ⟨h1, h2, h3, h4⟩ |
      ⟨h1, h2, h3, h4, h5⟩ | ⟨h1, h2, n, d, h3, h4, h5, h6⟩
    · rw [h2]
      exact ⟨fun _ => Or.inl h1, fun _ => ⟨_, rfl⟩⟩
    · rw [h3]
      exact ⟨fun _ => Or.inr (Or.inl h2), fun _ => ⟨_, rfl⟩⟩
    · rw [h4]
      exact ⟨fun _ => Or.inr (Or.inr (Or.inl h3)), fun _ => ⟨_, rfl⟩⟩
    · rw [h5]
      exact ⟨fun _ => Or.inr (Or.inr (Or.inr h4)), fun _ => ⟨_, rfl⟩⟩
    · rw [h6]
      constructor
      · rintro ⟨err, herr⟩
        cases herr
      · rintro (h | h | h | h)
        · exact absurd h1 h
        · exact absurd h h2
        · rcases h with h | ⟨m, hm, hle⟩
          · rw [h3] at h; cases h
          · rw [h3] at hm
            cases hm
            omega
        · rw [h5] at h; cases h
  refine ⟨hiff, ?_, ?_, ?_, ?_, by decide, by decide⟩
  · rcases buildEvent_cases lib now r dc geo with ⟨h1, h2⟩ | ⟨h1, h2, h3⟩ | ⟨h1, h2, h3, h4⟩ |
      ⟨h1, h2, h3, h4, h5⟩ | ⟨h1, h2, n, d, h3, h4, h5, h6⟩
    · rw [h2]
      exact ⟨(fun ⟨e, he⟩ => by cases he), fun h => absurd h.1 h1⟩
    · rw [h3]
      exact ⟨(fun ⟨e, he⟩ => by cases he), fun h => absurd h2 h.2.1⟩
    · rw [h4]
      refine ⟨(fun ⟨e, he⟩ => by cases he), ?_⟩
      rintro ⟨_, _, ⟨m, hm, hpos⟩, _⟩
      rcases h3 with h | ⟨k, hk, hle⟩
      · rw [h] at hm; cases hm
      · rw [hk] at hm
        cases hm
        omega
    · rw [h5]
      refine ⟨(fun ⟨e, he⟩ => by cases he), ?_⟩
      rintro ⟨_, _, _, d, hd⟩
      rw [h4] at hd
      cases hd
    · rw [h6]
      exact ⟨fun _ => ⟨h1, h2, ⟨n, h3, h4⟩, d, h5⟩, fun _ => ⟨_, rfl⟩⟩
  · intro habs
    refine hiff.mpr (Or.inl ?_)
    simp only [Values.Get, habs, Option.getD_none]
    decide
  · intro habs
    refine hiff.mpr (Or.inr (Or.inr (Or.inl (Or.inl ?_))))
    simp only [Values.Get, habs, Option.getD_none]
    exact lib.atoi_empty
  · rcases buildEvent_cases lib now r dc geo with ⟨h1, h2⟩ | ⟨h1, h2, h3⟩ | ⟨h1, h2, h3, h4⟩ |
      ⟨h1, h2, h3, h4, h5⟩ | ⟨h1, h2, n, d, h3, h4, h5, h6⟩
    · rw [h2]; exact fun _ => rfl
    · rw [h3]; exact fun _ => rfl
    · rw [h4]; exact fun _ => rfl
    · rw [h5]; exact fun _ => rfl
    · rw [h6]
      rintro ⟨err, herr⟩
      cases herr

theorem buildEvent_error_iff_witness :
    (∃ err, (buildEvent exLib 100 { exRequest with query := [("event", "play")] } exDomains
      exGeo).1 = .error err) ∧
    (∃ e, (buildEvent exLib 100 exRequest exDomains exGeo).1 = .ok e) :=
  have h := buildEvent_error_iff exLib 100 { exRequest with query := [("event", "play")] }
    exDomains exGeo
  have k := buildEvent_error_iff exLib 100 exRequest exDomains exGeo
  ⟨h.2.2.2.1 (by decide),
    k.2.1.mpr ⟨by decide, by decide, ⟨42, by decide, by decide⟩, ⟨_, by rfl⟩⟩⟩

/-- C14: on every request on which `buildEvent` succeeds, `DomainCache.Get` has found a row
`d` for the normalised domain and the event has `user_id = d.parent_id`, `domain_id = d.id`,
`domain_type_id = d.domain_type_id`, `file_id` the integer that `Atoi` reads and `event_name`
the `event` parameter; `geo_id` and `geo_group_id` are those of the row that `GeoMapper.Get`
returns for the country code, which is `force_country` when that parameter is not empty and
the `CF-IPCountry` header otherwise, and both are zero when `Get` returns no row. -/
theorem buildEvent_fields (lib : GoLib) (now : Int) (r : Request) (dc : DomainCache)
    (geo : GeoMapper) (e : Event) (h : (buildEvent lib now r dc geo).1 = .ok e) :
    (∃ d, dc.Get lib (lib.toLower (lib.trimSpace (r.query.Get "domain"))) = some d ∧
      e.userID = d.parentID ∧ e.domainID = d.id ∧ e.domainTypeID = d.domainTypeID) ∧
    lib.atoi (r.query.Get "file_id") = some e.fileID ∧
    e.eventName = r.query.Get "event" ∧
    (∀ c, (geo.Get lib (countryCode r)).1 = some c →
      e.geoID = c.id ∧ e.geoGroupID = c.groupID) ∧
    ((geo.Get lib (countryCode r)).1 = none → e.geoID = 0 ∧ e.geoGroupID = 0) ∧
    (r.query.Get "force_country" ≠ "" → countryCode r = r.query.Get "force_country") ∧
    (r.query.Get "force_country" = "" → countryCode r = r.header.Get "CF-IPCountry") ∧
    e.ts = now := by
  rcases buildEvent_cases lib now r dc geo with ⟨h1, h2⟩ | ⟨h1, h2, h3⟩ | ⟨h1, h2, h3, h4⟩ |
    ⟨h1, h2, h3, h4, h5⟩ | ⟨h1, h2, n, d, h3, h4, h5, h6⟩
  · rw [h2] at h; cases h
  · rw [h3] at h; cases h
  · rw [h4] at h; cases h
  · rw [h5] at h; cases h
  · rw [h6] at h
    simp only [Except.ok.injEq] at h
    subst h
    refine ⟨⟨d, h5, rfl, rfl, rfl⟩, h3, rfl, ?_, ?_, ?_, ?_, rfl⟩
    · intro c hc
      simp only [hc, Option.map_some', Option.getD_some, and_self]
    · intro hc
      simp only [hc, Option.map_none', Option.getD_none, and_self]
    · intro hf
      simp only [countryCode, hf, ne_eq, not_false_eq_true, if_true]
    · intro hf
      simp only [countryCode, hf, ne_eq, not_true_eq_false, if_false]

theorem buildEvent_fields_witness :
    (buildEvent exLib 100 exRequest exDomains exGeo).1
      = .ok ⟨100, 3, 7, 20, 5, 1, [0, 0, 0, 0, 0, 0, 0, 0, 0, 0, 255, 255, 1, 2, 3, 4], 42, "play"⟩ ∧
    (∃ d, exDomains.Get exLib (exLib.toLower (exLib.trimSpace (exRequest.query.Get "domain")))
        = some d ∧ (3 : Int) = d.parentID ∧ (7 : Int) = d.id ∧ (1 : Int) = d.domainTypeID) ∧
    countryCode exRequest = "de" ∧
    (exGeo.Get exLib "de").1 = some ⟨20, "DE", 5⟩ :=
  have h := buildEvent_fields exLib 100 exRequest exDomains exGeo
    ⟨100, 3, 7, 20, 5, 1, [0, 0, 0, 0, 0, 0, 0, 0, 0, 0, 255, 255, 1, 2, 3, 4], 42, "play"⟩ (by rfl)
  ⟨by rfl, h.1, h.2.2.2.2.2.1 (by decide), by decide⟩
theorem To16_length (ip b : List Nat) (h : To16 ip = some b) : b.length = 16 := by
  unfold To16 at h
  by_cases h4 : ip.length = 4
  · simp only [h4, if_true, Option.some.injEq] at h
    subst h
    simp [h4]
  · by_cases h16 : ip.length = 16
    · rw [if_neg h4, if_pos h16] at h
      cases h
      exact h16
    · simp [h4, h16] at h

theorem ipTo16_eq (lib : GoLib) (s : String) : ipTo16 lib s = (canonical16 lib s).getD [] := by
  unfold ipTo16 canonical16
  cases lib.parseIP s with
  | none => rfl
  | some ip =>
    simp only [Option.some_bind]
    cases To16 ip <;> rfl

theorem clientIP16_eq (lib : GoLib) (r : Request)
    (hx : lib.trimSpace (r.header.Get "CF-Connecting-IP") ≠ "" ∨
      r.header.Get "X-Forwarded-For" = "" ∨
      lib.trimSpace (firstField (r.header.Get "X-Forwarded-For")) ≠ "") :
    clientIP16 lib r = ipTo16 lib (specAddress lib r) := by
  unfold clientIP16 specAddress
  by_cases hcf : lib.trimSpace (r.header.Get "CF-Connecting-IP") = ""
  · have hx2 : r.header.Get "X-Forwarded-For" = "" ∨
        lib.trimSpace (firstField (r.header.Get "X-Forwarded-For")) ≠ "" := by
      rcases hx with h | h | h
      · exact absurd hcf h
      · exact Or.inl h
      · exact Or.inr h
    by_cases hxff : r.header.Get "X-Forwarded-For" = ""
    · have hff : lib.trimSpace (firstField "") = "" := lib.trimSpace_empty
      simp only [hcf, hxff, ne_eq, not_true_eq_false, if_false, firstNonEmpty, hff, peerHost]
      cases lib.splitHostPort r.remoteAddr with
      | none =>
        simp only
        by_cases hr : r.remoteAddr = ""
        · simp only [hr, not_true_eq_false, if_false]
        · simp only [hr, not_false_eq_true, if_true]
      | some host =>
        simp only
        by_cases hh : host = ""
        · simp only [hh, not_true_eq_false, if_false]
        · simp only [hh, not_false_eq_true, if_true]
    · have htok : lib.trimSpace (firstField (r.header.Get "X-Forwarded-For")) ≠ "" := by
        rcases hx2 with h | h
        · exact absurd h hxff
        · exact h
      simp only [hcf, hxff, htok, ne_eq, not_true_eq_false, not_false_eq_true, if_false, if_true,
        firstNonEmpty]
  · simp only [hcf, ne_eq, not_false_eq_true, if_true, firstNonEmpty]

/-- What `clientIP16` gives on an accepted request whose `X-Forwarded-For` header is empty or
has a non-empty first field whenever `CF-Connecting-IP` is empty: `ipTo16` of the first
non-empty of the `CF-Connecting-IP` header, the first comma-separated field of
`X-Forwarded-For` and the peer address.  That is the canonical 16-byte form (IPv4-mapped for an
IPv4 address) when the text is an IP address; when it is not, `buildEvent` stores the `nil` of
`ipTo16` in a field that `event.go` comments as `16 bytes`. -/
theorem buildEvent_visitorIP (lib : GoLib) (now : Int) (r : Request) (dc : DomainCache)
    (geo : GeoMapper) (e : Event) (h : (buildEvent lib now r dc geo).1 = .ok e)
    (hx : lib.trimSpace (r.header.Get "CF-Connecting-IP") ≠ "" ∨
      r.header.Get "X-Forwarded-For" = "" ∨
      lib.trimSpace (firstField (r.header.Get "X-Forwarded-For")) ≠ "") :
    e.visitorIP = clientIP16 lib r ∧
    (∀ b, canonical16 lib (specAddress lib r) = some b → e.visitorIP = b ∧ b.length = 16) ∧
    (canonical16 lib (specAddress lib r) = none → e.visitorIP = []) ∧
    (e.visitorIP.length = 16 ↔ (canonical16 lib (specAddress lib r)).isSome = true) := by
  have hv : e.visitorIP = clientIP16 lib r := by
    rcases buildEvent_cases lib now r dc geo with ⟨h1, h2⟩ | ⟨h1, h2, h3⟩ | ⟨h1, h2, h3, h4⟩ |
      ⟨h1, h2, h3, h4, h5⟩ | ⟨h1, h2, n, d, h3, h4, h5, h6⟩
    · rw [h2] at h; cases h
    · rw [h3] at h; cases h
    · rw [h4] at h; cases h
    · rw [h5] at h; cases h
    · rw [h6] at h
      simp only [Except.ok.injEq] at h
      subst h
      rfl
  have hc : e.visitorIP = (canonical16 lib (specAddress lib r)).getD [] := by
    rw [hv, clientIP16_eq lib r hx, ipTo16_eq]
  refine ⟨hv, ?_, ?_, ?_⟩
  · intro b hb
    have hlen : b.length = 16 := by
      unfold canonical16 at hb
      cases hp : lib.parseIP (specAddress lib r) with
      | none => rw [hp] at hb; cases hb
      | some ip =>
        rw [hp] at hb
        exact To16_length ip b hb
    rw [hc, hb]
    exact ⟨rfl, hlen⟩
  · intro hn
    rw [hc, hn]
    rfl
  · rw [hc]
    cases hb : canonical16 lib (specAddress lib r) with
    | none => simp
    | some b =>
      have hlen : b.length = 16 := by
        unfold canonical16 at hb
        cases hp : lib.parseIP (specAddress lib r) with
        | none => rw [hp] at hb; cases hb
        | some ip =>
          rw [hp] at hb
          exact To16_length ip b hb
      simp [hlen]

theorem buildEvent_visitorIP_witness :
    specAddress exLib exRequest = "1.2.3.4" ∧
    canonical16 exLib "1.2.3.4" = some [0, 0, 0, 0, 0, 0, 0, 0, 0, 0, 255, 255, 1, 2, 3, 4] ∧
    ∀ b, canonical16 exLib (specAddress exLib exRequest) = some b →
      [0, 0, 0, 0, 0, 0, 0, 0, 0, 0, 255, 255, 1, 2, 3, 4] = b ∧ b.length = 16 :=
  have h := buildEvent_visitorIP exLib 100 exRequest exDomains exGeo
    ⟨100, 3, 7, 20, 5, 1, [0, 0, 0, 0, 0, 0, 0, 0, 0, 0, 255, 255, 1, 2, 3, 4], 42, "play"⟩ (by rfl)
    (Or.inl (by decide))
  ⟨by decide, by decide, h.2.1⟩

/-- C15, the code at the failing input: a request with the header `CF-Connecting-IP: unknown`
is accepted and its `visitor_ip` is `nil`, zero bytes long, where the claim and the comment
`16 bytes` of the field ask for 16 bytes.  So is a request without `CF-Connecting-IP` whose
`X-Forwarded-For` header starts with a comma: the first non-empty text is the peer address
`5.6.7.8`, which has a 16-byte form, and `visitor_ip` is `nil`. -/
theorem buildEvent_visitorIP_can_be_nil :
    (buildEvent exLib 100 exRequestBadIP exDomains exGeo).1
      = .ok ⟨100, 3, 7, 20, 5, 1, [], 42, "play"⟩ ∧
    (buildEvent exLib 100 exRequestEmptyField exDomains exGeo).1
      = .ok ⟨100, 3, 7, 20, 5, 1, [], 42, "play"⟩ ∧
    specAddress exLib exRequestEmptyField = "5.6.7.8" ∧
    canonical16 exLib "5.6.7.8" = some [0, 0, 0, 0, 0, 0, 0, 0, 0, 0, 255, 255, 5, 6, 7, 8] ∧
    ¬ (∀ (lib : GoLib) (now : Int) (r : Request) (dc : DomainCache) (geo : GeoMapper) (e : Event),
      (buildEvent lib now r dc geo).1 = .ok e → e.visitorIP.length = 16) := by
  refine ⟨by rfl, by rfl, by decide, by decide, ?_⟩
  intro hall
  have := hall exLib 100 exRequestBadIP exDomains exGeo ⟨100, 3, 7, 20, 5, 1, [], 42, "play"⟩
    (by rfl)
  simp at this

theorem insertBatch_spec (db : Store) (batch : List Event) :
    (insertBatch db batch).1 = db.ok db.calls ∧
    (insertBatch db batch).2.ok = db.ok ∧ (insertBatch db batch).2.cancelled = db.cancelled ∧
    (insertBatch db batch).2.calls = db.calls + 1 ∧ (insertBatch db batch).2.waits = db.waits ∧
    (insertBatch db batch).2.rows = if db.ok db.calls then db.rows ++ [batch] else db.rows := by
  unfold insertBatch
  by_cases h : db.ok db.calls = true
  · simp [h]
  · simp [h]

/-- The two ways the retry loop of `flush` ends.  It returns `true` exactly when some attempt
among the `left` ones is a successful write that no failed wait precedes; then the batch has
been written once, whole, `AdvanceCommit` has been called once after it with the length of the
batch, and the batch is cleared.  Otherwise nothing is written, `AdvanceCommit` is not called
and the batch is kept. -/
theorem flushLoop_spec : ∀ (left : Nat) (f : Flusher),
    ((flushLoop left f).1 = true ↔
      ∃ k, k < left ∧ f.db.ok (f.db.calls + k) = true ∧
        ∀ i, i < k → f.db.ok (f.db.calls + i) = false ∧ f.db.cancelled (f.db.waits + i) = false) ∧
    (flushLoop left f).2.blocked = f.blocked ∧ (flushLoop left f).2.returned = f.returned ∧
    ((flushLoop left f).1 = true →
      (flushLoop left f).2.db.rows = f.db.rows ++ [f.buf] ∧
      (flushLoop left f).2.wal = (AdvanceCommit f.wal f.buf.length).getD f.wal ∧
      (flushLoop left f).2.acts = f.acts ++ [.stored f.buf, .advanced f.buf.length] ∧
      (flushLoop left f).2.buf = []) ∧
    ((flushLoop left f).1 = false →
      (flushLoop left f).2.db.rows = f.db.rows ∧ (flushLoop left f).2.wal = f.wal ∧
      (flushLoop left f).2.acts = f.acts ∧ (flushLoop left f).2.buf = f.buf) := by
  intro left
  induction left with
  | zero =>
    intro f
    simp [flushLoop]
  | succ left ih =>
    intro f
    obtain ⟨h1, h2, h3, h4, h5, h6⟩ := insertBatch_spec f.db f.buf
    unfold flushLoop
    rcases hib : insertBatch f.db f.buf with ⟨b, db1⟩
    rw [hib] at h1 h2 h3 h4 h5 h6
    simp only at h1 h2 h3 h4 h5 h6
    cases b with
    | true =>
      have hok : f.db.ok f.db.calls = true := h1.symm
      simp only [hok, if_true] at h6
      dsimp only
      exact ⟨⟨fun _ => ⟨0, Nat.succ_pos _, by simpa using hok,
          fun i hi => absurd hi (Nat.not_lt_zero i)⟩, fun _ => rfl⟩, rfl, rfl,
        fun _ => ⟨h6, rfl, rfl, rfl⟩, fun h => Bool.noConfusion h⟩
    | false =>
      have hok : f.db.ok f.db.calls = false := h1.symm
      simp only [hok, Bool.false_eq_true, if_false] at h6
      simp only [Store.wait]
      by_cases hc : db1.cancelled db1.waits = true
      · simp only [hc]
        refine ⟨⟨fun h => Bool.noConfusion h, ?_⟩, by trivial, by trivial,
          fun h => Bool.noConfusion h, fun _ => ⟨h6, by trivial, by trivial, by trivial⟩⟩
        rintro ⟨k, _, hk, hall⟩
        cases k with
        | zero => rw [Nat.add_zero, hok] at hk; cases hk
        | succ k =>
          have h0 := (hall 0 (Nat.succ_pos _)).2
          rw [Nat.add_zero, ← h5, ← h3, hc] at h0
          cases h0
      · have hc2 : db1.cancelled db1.waits = false := by simpa using hc
        simp only [hc2]
        obtain ⟨i1, i2, i3, i4, i5⟩ := ih { f with db := { db1 with waits := db1.waits + 1 } }
        simp only at i1 i2 i3 i4 i5
        refine ⟨?_, i2, i3, ?_, ?_⟩
        · rw [i1, h2, h3, h4, h5]
          constructor
          · rintro ⟨k, hk, hok2, hall⟩
            refine ⟨k + 1, by omega, ?_, ?_⟩
            · rw [← hok2]; congr 1; omega
            · intro i hi
              cases i with
              | zero =>
                rw [Nat.add_zero, Nat.add_zero, hok]
                rw [h3, h5] at hc2
                exact ⟨rfl, hc2⟩
              | succ i =>
                have := hall i (by omega)
                rw [show f.db.calls + (i + 1) = f.db.calls + 1 + i by omega,
                  show f.db.waits + (i + 1) = f.db.waits + 1 + i by omega]
                exact this
          · rintro ⟨k, hk, hok2, hall⟩
            cases k with
            | zero => rw [Nat.add_zero, hok] at hok2; cases hok2
            | succ k =>
              refine ⟨k, by omega, ?_, ?_⟩
              · rw [← hok2]; congr 1; omega
              · intro i hi
                have := hall (i + 1) (by omega)
                rw [show f.db.calls + 1 + i = f.db.calls + (i + 1) by omega,
                  show f.db.waits + 1 + i = f.db.waits + (i + 1) by omega]
                exact this
        · intro h
          obtain ⟨j1, j2, j3, j4⟩ := i4 h
          exact ⟨j1.trans (by rw [h6]), j2, j3, j4⟩
        · intro h
          obtain ⟨j1, j2, j3, j4⟩ := i5 h
          exact ⟨j1.trans h6, j2, j3, j4⟩

theorem flush_spec (f : Flusher) :
    (flush f).2.blocked = f.blocked ∧ (flush f).2.returned = f.returned ∧
    ((flush f).1 = true → (flush f).2.buf = []) ∧
    ((flush f).1 = false → (flush f).2.buf = f.buf) := by
  unfold flush
  by_cases h : f.buf.length = 0
  · simp only [h, if_true]
    exact ⟨by trivial, by trivial, fun _ => List.length_eq_zero.mp h, fun _ => by trivial⟩
  · simp only [h, if_false]
    obtain ⟨_, h2, h3, h4, h5⟩ := flushLoop_spec 10 f
    exact ⟨h2, h3, fun hs => (h4 hs).2.2.2, fun hs => (h5 hs).2.2.2⟩

theorem AdvanceCommit_counts (w : WAL) (n hi : Int) (hn : 0 < n)
    (hcontig : ∀ k, w.commit.seg ≤ k → ((countLines w.dir k).isSome ↔ k ≤ hi))
    (hseg : w.commit.seg ≤ hi)
    (hline : w.commit.line ≤ linesIn w.dir w.commit.seg)
    (hrec : n ≤ recordsTotal w.dir - recordsBelow w.dir w.commit) :
    recordsBelow ((AdvanceCommit w n).getD w).dir ((AdvanceCommit w n).getD w).commit
      = recordsBelow w.dir w.commit + n := by
  obtain ⟨r, hr⟩ := advanceLoop_full w.dir w.commit n
  rw [AdvanceCommit_of_pos w n hn r hr]
  have htop : ∀ k, hi < k → countLines w.dir k = none := by
    intro k hk
    have h1 := hcontig k (by omega)
    cases hc : countLines w.dir k with
    | none => rfl
    | some L =>
      rw [hc] at h1
      have := h1.mp rfl
      omega
  have hex : ∀ k, w.commit.seg ≤ k → k ≤ hi → countLines w.dir k ≠ none := by
    intro k hk1 hk2 hc
    have h1 := (hcontig k hk1).mpr hk2
    rw [hc] at h1
    cases h1
  exact advanceLoop_records w.dir hi htop _ w.commit n r hex (Or.inl hseg) hline (le_of_lt hn) hrec hr

/-- C12: for every non-empty batch, `flush` returns `true` exactly when one of its 10 attempts
is a successful write that is not preceded by a wait in which the context is done.  Then the
whole batch has been written once, `AdvanceCommit` has been called once, after that write, with
exactly the length of the batch (the call returns, and on a log whose segments from `commit.seg`
on are all there and hold that many records beyond the commit pointer it raises the number of
committed records by exactly that length), and the batch is cleared.  When `flush` returns
`false`, as it does when all 10 writes fail or when the context is done during a wait, nothing
is written, `AdvanceCommit` is not called, the log is untouched and the batch is kept as it
was. -/
theorem flush_commits_only_after_write (f : Flusher) (hbuf : f.buf ≠ []) :
    ((flush f).1 = true ↔
      ∃ k, k < 10 ∧ f.db.ok (f.db.calls + k) = true ∧
        ∀ i, i < k → f.db.ok (f.db.calls + i) = false ∧ f.db.cancelled (f.db.waits + i) = false) ∧
    ((flush f).1 = true →
      (flush f).2.db.rows = f.db.rows ++ [f.buf] ∧
      (∃ w, AdvanceCommit f.wal f.buf.length = some w ∧ (flush f).2.wal = w) ∧
      (flush f).2.acts = f.acts ++ [.stored f.buf, .advanced f.buf.length] ∧
      (flush f).2.buf = [] ∧
      ∀ hi : Int, (∀ k, f.wal.commit.seg ≤ k → ((countLines f.wal.dir k).isSome ↔ k ≤ hi)) →
        f.wal.commit.seg ≤ hi → f.wal.commit.line ≤ linesIn f.wal.dir f.wal.commit.seg →
        (f.buf.length : Int) ≤ recordsTotal f.wal.dir - recordsBelow f.wal.dir f.wal.commit →
        recordsBelow (flush f).2.wal.dir (flush f).2.wal.commit
          = recordsBelow f.wal.dir f.wal.commit + f.buf.length) ∧
    ((flush f).1 = false →
      (flush f).2.db.rows = f.db.rows ∧ (flush f).2.wal = f.wal ∧
      (flush f).2.acts = f.acts ∧ (flush f).2.buf = f.buf) ∧
    ((∀ i, i < 10 → f.db.ok (f.db.calls + i) = false) → (flush f).1 = false) ∧
    (∀ k, k < 10 → (∀ i, i ≤ k → f.db.ok (f.db.calls + i) = false) →
      f.db.cancelled (f.db.waits + k) = true → (flush f).1 = false) := by
  have hlen : ¬ f.buf.length = 0 := fun h => hbuf (List.length_eq_zero.mp h)
  have hfl : flush f = flushLoop 10 f := by simp only [flush, hlen, if_false]
  rw [hfl]
  obtain ⟨h1, _, _, h4, h5⟩ := flushLoop_spec 10 f
  refine ⟨h1, ?_, h5, ?_, ?_⟩
  · intro hs
    obtain ⟨j1, j2, j3, j4⟩ := h4 hs
    obtain ⟨w, hw⟩ := AdvanceCommit_total f.wal f.buf.length
    refine ⟨j1, ⟨w, hw, by rw [j2, hw]; rfl⟩, j3, j4, ?_⟩
    intro hi hcontig hseg hline hrec
    rw [j2]
    have hpos : (0 : Int) < f.buf.length := by
      have : 0 < f.buf.length := Nat.pos_of_ne_zero hlen
      exact_mod_cast this
    exact AdvanceCommit_counts f.wal f.buf.length hi hpos hcontig hseg hline hrec
  · intro hall
    cases hr : (flushLoop 10 f).1 with
    | false => rfl
    | true =>
      obtain ⟨k, hk, hok, _⟩ := h1.mp hr
      rw [hall k hk] at hok
      cases hok
  · intro k hk hall hc
    cases hr : (flushLoop 10 f).1 with
    | false => rfl
    | true =>
      obtain ⟨j, _, hok, hbefore⟩ := h1.mp hr
      by_cases hjk : j ≤ k
      · rw [hall j hjk] at hok
        cases hok
      · have := (hbefore k (by omega)).2
        rw [hc] at this
        cases this

theorem flush_commits_only_after_write_witness :
    ((flush (exFlusher exStore)).1 = true ∧
      (flush (exFlusher exStore)).2.db.rows = [[exEvent 8, exEvent 9]] ∧
      (flush (exFlusher exStore)).2.wal.commit = ⟨3, 0⟩ ∧
      (flush (exFlusher exStore)).2.acts = [.stored [exEvent 8, exEvent 9], .advanced 2] ∧
      (flush (exFlusher exStore)).2.buf = []) ∧
    ((flush (exFlusher exStoreDown)).1 = false ∧
      (flush (exFlusher exStoreDown)).2.db.rows = [] ∧
      (flush (exFlusher exStoreDown)).2.wal.commit = exWAL.commit ∧
      (flush (exFlusher exStoreDown)).2.acts = [] ∧
      (flush (exFlusher exStoreDown)).2.buf = [exEvent 8, exEvent 9]) :=
  have h := flush_commits_only_after_write (exFlusher exStore) (by decide)
  have g := flush_commits_only_after_write (exFlusher exStoreDown) (by decide)
  have hs : (flush (exFlusher exStore)).1 = true := by decide
  have gs : (flush (exFlusher exStoreDown)).1 = false := g.2.2.2.1 (fun _ _ => rfl)
  ⟨⟨hs, (h.2.1 hs).1, by decide, (h.2.1 hs).2.2.1, (h.2.1 hs).2.2.2.1⟩,
    ⟨gs, (g.2.2.1 gs).1, by rw [(g.2.2.1 gs).2.1]; rfl, (g.2.2.1 gs).2.2.1, (g.2.2.1 gs).2.2.2⟩⟩

theorem flusherStep_bound (batchMax : Int) (hb : 1 ≤ batchMax) (f g : Flusher) (s : Select)
    (hstep : flusherStep batchMax f s = some g)
    (h1 : (f.buf.length : Int) ≤ batchMax)
    (h2 : f.blocked = false → (f.buf.length : Int) < batchMax) :
    (g.buf.length : Int) ≤ batchMax ∧ (g.blocked = false → (g.buf.length : Int) < batchMax) := by
  have key : ∀ f0 : Flusher, (f0.buf.length : Int) ≤ batchMax →
      (({ (flush f0).2 with blocked := !(flush f0).1 } : Flusher).buf.length : Int) ≤ batchMax ∧
      (({ (flush f0).2 with blocked := !(flush f0).1 } : Flusher).blocked = false →
        (({ (flush f0).2 with blocked := !(flush f0).1 } : Flusher).buf.length : Int) < batchMax) := by
    intro f0 hf0
    obtain ⟨_, _, hs, hk⟩ := flush_spec f0
    cases hr : (flush f0).1 with
    | true =>
      have := hs hr
      simp only [this, List.length_nil, Nat.cast_zero]
      exact ⟨by omega, fun _ => by omega⟩
    | false =>
      have := hk hr
      simp only [this]
      exact ⟨hf0, fun h => by simp at h⟩
  cases s with
  | done =>
    simp only [flusherStep] at hstep
    by_cases hret : f.returned = true
    · simp [hret] at hstep
    · simp only [hret, if_false, Option.some.injEq, Bool.false_eq_true] at hstep
      subst hstep
      obtain ⟨hbl, _, hs, hk⟩ := flush_spec f
      dsimp only
      cases hr : (flush f).1 with
      | true =>
        rw [hs hr]
        simp only [List.length_nil, Nat.cast_zero]
        exact ⟨by omega, fun _ => by omega⟩
      | false =>
        rw [hk hr, hbl]
        exact ⟨h1, h2⟩
  | tick =>
    simp only [flusherStep] at hstep
    by_cases hret : f.returned = true
    · simp [hret] at hstep
    · simp only [hret, if_false, Option.some.injEq, Bool.false_eq_true] at hstep
      subst hstep
      exact key f h1
  | recv e =>
    simp only [flusherStep] at hstep
    by_cases hrb : (f.returned || f.blocked) = true
    · simp [hrb] at hstep
    · simp only [hrb, if_false, Bool.false_eq_true] at hstep
      have hnb : f.blocked = false := by
        cases hx : f.blocked with
        | false => rfl
        | true => simp [hx] at hrb
      have hlt := h2 hnb
      by_cases hfull : ((f.buf ++ [e]).length : Int) ≥ batchMax
      · simp only [hfull, if_true, Option.some.injEq] at hstep
        subst hstep
        apply key
        simp only [List.length_append, List.length_singleton, Nat.cast_add, Nat.cast_one]
        omega
      · simp only [hfull, if_false, Option.some.injEq] at hstep
        subst hstep
        simp only [List.length_append, List.length_singleton, Nat.cast_add, Nat.cast_one] at hfull ⊢
        exact ⟨by omega, fun _ => by omega⟩

theorem flusherReach_bound (batchMax : Int) (hb : 1 ≤ batchMax) (f : Flusher)
    (h : FlusherReach batchMax f) :
    (f.buf.length : Int) ≤ batchMax ∧ (f.blocked = false → (f.buf.length : Int) < batchMax) := by
  induction h with
  | start wal db =>
    simp only [List.length_nil, Nat.cast_zero]
    exact ⟨by omega, fun _ => by omega⟩
  | step f g s _ hstep ih => exact flusherStep_bound batchMax hb f g s hstep ih.1 ih.2

/-- C17: in every state that the loop of `flusher` reaches with `batchMax >= 1` the batch holds
at most `batchMax` events, and fewer while the flusher is accepting.  An event is received only
when `blocked` is not set; a receive that brings the batch to `batchMax` runs `flush` in the
same iteration; an iteration whose `flush` fails leaves the flusher blocked with its batch
intact; and a blocked flusher becomes accepting again only through the ticker case with a
`flush` that succeeds. -/
theorem flusher_batch_bounded (batchMax : Int) (hb : 1 ≤ batchMax) (f : Flusher)
    (h : FlusherReach batchMax f) :
    (f.buf.length : Int) ≤ batchMax ∧
    (f.blocked = false → (f.buf.length : Int) < batchMax) ∧
    (∀ e, (flusherStep batchMax f (.recv e)).isSome = true ↔
      (f.blocked = false ∧ f.returned = false)) ∧
    (∀ e g, flusherStep batchMax f (.recv e) = some g →
      (g.buf = f.buf ++ [e] ∧ (g.buf.length : Int) < batchMax ∧ g.blocked = false) ∨
      (((f.buf ++ [e]).length : Int) = batchMax ∧
        g = { (flush { f with buf := f.buf ++ [e] }).2 with
          blocked := !(flush { f with buf := f.buf ++ [e] }).1 })) ∧
    (∀ g, flusherStep batchMax f .tick = some g →
      g = { (flush f).2 with blocked := !(flush f).1 }) ∧
    (∀ f0 : Flusher, (flush f0).1 = false →
      ({ (flush f0).2 with blocked := !(flush f0).1 } : Flusher).blocked = true ∧
      ({ (flush f0).2 with blocked := !(flush f0).1 } : Flusher).buf = f0.buf) ∧
    (∀ s g, f.blocked = true → flusherStep batchMax f s = some g →
      (∀ e, s ≠ .recv e) ∧
      (g.blocked = false → s = .tick ∧ (flush f).1 = true ∧ g.buf = [])) := by
  obtain ⟨b1, b2⟩ := flusherReach_bound batchMax hb f h
  refine ⟨b1, b2, ?_, ?_, ?_, ?_, ?_⟩
  · intro e
    simp only [flusherStep]
    cases hr : f.returned <;> cases hbk : f.blocked
    · simp only [Bool.or_self, Bool.false_eq_true, if_false, and_self, iff_true]
      split <;> simp
    · simp
    · simp
    · simp
  · intro e g hstep
    simp only [flusherStep] at hstep
    by_cases hrb : (f.returned || f.blocked) = true
    · simp [hrb] at hstep
    · simp only [hrb, if_false, Bool.false_eq_true] at hstep
      have hnb : f.blocked = false := by
        cases hx : f.blocked with
        | false => rfl
        | true => simp [hx] at hrb
      have hlt := b2 hnb
      by_cases hfull : ((f.buf ++ [e]).length : Int) ≥ batchMax
      · simp only [hfull, if_true, Option.some.injEq] at hstep
        right
        refine ⟨?_, hstep.symm⟩
        simp only [List.length_append, List.length_singleton, Nat.cast_add, Nat.cast_one] at hfull ⊢
        omega
      · simp only [hfull, if_false, Option.some.injEq] at hstep
        subst hstep
        left
        exact ⟨rfl, by simpa using hfull, hnb⟩
  · intro g hstep
    simp only [flusherStep] at hstep
    by_cases hret : f.returned = true
    · simp [hret] at hstep
    · simp only [hret, if_false, Option.some.injEq, Bool.false_eq_true] at hstep
      exact hstep.symm
  · intro f0 hf0
    obtain ⟨_, _, _, hk⟩ := flush_spec f0
    exact ⟨by simp [hf0], hk hf0⟩
  · intro s g hbk hstep
    obtain ⟨hbl, _, hs, hk⟩ := flush_spec f
    cases s with
    | done =>
      simp only [flusherStep] at hstep
      by_cases hret : f.returned = true
      · simp [hret] at hstep
      · simp only [hret, if_false, Option.some.injEq, Bool.false_eq_true] at hstep
        subst hstep
        refine ⟨fun e he => Select.noConfusion he, fun hg => ?_⟩
        dsimp only at hg
        rw [hbl, hbk] at hg
        cases hg
    | tick =>
      simp only [flusherStep] at hstep
      by_cases hret : f.returned = true
      · simp [hret] at hstep
      · simp only [hret, if_false, Option.some.injEq, Bool.false_eq_true] at hstep
        subst hstep
        refine ⟨fun e he => Select.noConfusion he, fun hg => ?_⟩
        cases hr : (flush f).1 with
        | false => simp [hr] at hg
        | true => exact ⟨rfl, rfl, hs hr⟩
    | recv e =>
      simp only [flusherStep] at hstep
      simp [hbk] at hstep

theorem exBlocked_reach : FlusherReach 2 exBlocked :=
  FlusherReach.step ⟨exWAL, exStoreDown, [exEvent 8], false, false, []⟩ exBlocked
    (.recv (exEvent 9))
    (FlusherReach.step ⟨exWAL, exStoreDown, [], false, false, []⟩ _ (.recv (exEvent 8))
      (FlusherReach.start exWAL exStoreDown) (by rfl))
    (by rfl)

theorem flusher_batch_bounded_witness :
    (exBlocked.buf.length : Int) ≤ 2 ∧
    (∀ e, (flusherStep 2 exBlocked (.recv e)).isSome = true ↔
      (exBlocked.blocked = false ∧ exBlocked.returned = false)) ∧
    exBlocked.blocked = true ∧ (flush exBlocked).1 = false :=
  have h := flusher_batch_bounded 2 (by decide) exBlocked exBlocked_reach
  ⟨h.1, h.2.2.1, rfl, by decide⟩

theorem readNextRawLine_open (w : WAL) (t : WALTailer) (raw : Option Line) (ok : Bool) (w2 : WAL)
    (t2 : WALTailer) (h : readNextRawLine w t = (raw, ok, w2, t2))
    (hopen : ∀ off, t.file = some off → (w.dir.lookup t.seg).isSome = true) :
    w2.dir = w.dir ∧ ∀ off, t2.file = some off → (w.dir.lookup t2.seg).isSome = true := by
  unfold readNextRawLine at h
  have ho : ∀ off, (openIfNeeded w t).file = some off →
      (w.dir.lookup (openIfNeeded w t).seg).isSome = true := by
    obtain ⟨seg, line, file, hp, pe⟩ := t
    cases file with
    | some o => exact hopen
    | none =>
      cases hl : w.dir.lookup seg with
      | none => simp [openIfNeeded, hl]
      | some ls => simp [openIfNeeded, hl]
  generalize openIfNeeded w t = t1 at h ho
  obtain ⟨seg, line, file, hp, pe⟩ := t1
  cases file with
  | none =>
    simp only [Prod.mk.injEq] at h
    obtain ⟨_, _, h3, h4⟩ := h
    subst h3 h4
    exact ⟨rfl, ho⟩
  | some off =>
    simp only at h
    cases hget : ((w.dir.lookup seg).getD [])[off]? with
    | some l0 =>
      rw [hget] at h
      simp only [Prod.mk.injEq] at h
      obtain ⟨_, _, h3, h4⟩ := h
      subst h3 h4
      exact ⟨rfl, fun o _ => ho off rfl⟩
    | none =>
      rw [hget] at h
      simp only [tryAdvanceToNextSeg, WALTailer.close] at h
      cases hn : w.dir.lookup (seg + 1) with
      | none =>
        rw [hn] at h
        simp only [Prod.mk.injEq] at h
        obtain ⟨_, _, h3, h4⟩ := h
        subst h3 h4
        exact ⟨rfl, ho⟩
      | some ls =>
        rw [hn] at h
        simp only [Prod.mk.injEq] at h
        obtain ⟨_, _, h3, h4⟩ := h
        subst h3 h4
        exact ⟨rfl, fun o ho2 => by simp at ho2⟩

theorem readOneAndQueue_inStep (cd : Codec) (w : WAL) (t : WALTailer) (out : Chan)
    (h : InStep w t) (hroom : out.room out.tick = true) :
    (readOneAndQueue cd w t out).2.1.dir = w.dir ∧
    InStep (readOneAndQueue cd w t out).2.1 (readOneAndQueue cd w t out).2.2.1 := by
  have hdir := (readOneAndQueue_inv cd w t out).1
  refine ⟨hdir, ?_⟩
  have hpp : pushPending t out = (true, t, out) := by simp [pushPending, h.no_pending]
  unfold readOneAndQueue
  rw [hpp]
  simp only
  rcases hrd : readNextRawLine w t with ⟨raw, ok, w2, t2⟩
  obtain ⟨hhp, _, hcases⟩ := readNextRawLine_pos w t h.line_nonneg h.pos_in raw ok w2 t2 hrd
  obtain ⟨hd2, hopen2⟩ := readNextRawLine_open w t raw ok w2 t2 hrd h.open_seg
  have hp2 : t2.hasPending = false := by rw [hhp]; exact h.no_pending
  rcases hcases with ⟨hok, hw, hs, hl, hpos⟩ | ⟨hok, ⟨l, hraw⟩, hw, hs, hl, hpos, hin, ⟨off, hoff⟩⟩ |
    ⟨hok, hraw, hw, hs, hl, hf, _⟩
  · subst hok
    rw [hw]
    have hres : InStep w t2 :=
      ⟨hp2, by rw [hl]; exact h.line_nonneg, by rw [hs, hl]; exact h.published,
        by rw [hpos, hl]; exact h.pos_eq, by rw [hpos, hs]; exact h.pos_in, hopen2⟩
    cases raw <;> exact hres
  · subst hok hraw
    rw [hw]
    simp only
    have hmk : InStep (markLineRead w t2).1 (markLineRead w t2).2 := by
      have hposm : tpos { t2 with line := t2.line + 1 } = tpos t2 := by
        have hx : tpos { t2 with line := t2.line + 1 } = (off : Int) :=
          tpos_some { t2 with line := t2.line + 1 } off hoff
        rw [hx, tpos_some t2 off hoff]
      refine ⟨hp2, ?_, rfl, ?_, ?_, hopen2⟩
      · show 0 ≤ t2.line + 1
        have := h.line_nonneg
        omega
      · show tpos { t2 with line := t2.line + 1 } = t2.line + 1
        rw [hposm, hpos, hl, h.pos_eq]
      · show tpos { t2 with line := t2.line + 1 } ≤ linesIn w.dir t2.seg
        rw [hposm, hpos, hs]
        exact hin
    by_cases hblank : (cd.trimSpace l).length = 0
    · simp only [hblank, if_true]
      exact hmk
    · simp only [hblank, if_false]
      cases hun : cd.unmarshal (cd.trimSpace l) with
      | none => exact hmk
      | some ev =>
        simp only [Chan.trySend, hroom, if_true]
        exact hmk
  · subst hok hraw
    rw [hw]
    simp only
    refine ⟨hp2, by rw [hl], by rw [hs, hl], by rw [tpos_none t2 hf, hl], ?_, ?_⟩
    · rw [tpos_none t2 hf, hl]
      exact Int.ofNat_nonneg _
    · intro off ho
      rw [hf] at ho
      cases ho

theorem drainLoop_inStep (cd : Codec) : ∀ (fuel : Nat) (w : WAL) (t : WALTailer) (out : Chan)
    (r : WAL × WALTailer × Chan), InStep w t → loneSenderLoop cd fuel w t out = true →
    drainLoop cd fuel w t out = some r → r.1.dir = w.dir ∧ InStep r.1 r.2.1 := by
  intro fuel
  induction fuel with
  | zero =>
    intro w t out r _ _ h
    simp [drainLoop] at h
  | succ fuel ih =>
    intro w t out r hin hreal h
    unfold loneSenderLoop at hreal
    unfold drainLoop at h
    have hnp := hin.no_pending
    cases hfull : out.room out.tick with
    | false =>
      simp only [Chan.isFull, hfull, hnp, Bool.not_false, Bool.and_self, if_true,
        Option.some.injEq] at h
      subst h
      exact ⟨rfl, hin⟩
    | true =>
      simp only [Chan.isFull, hfull, hnp, Bool.not_true, Bool.false_and, Bool.false_eq_true,
        if_false, Bool.false_or, Bool.and_eq_true] at h hreal
      obtain ⟨hnext, hrest⟩ := hreal
      obtain ⟨hd, hstep⟩ := readOneAndQueue_inStep cd w t { out with tick := out.tick + 1 } hin
        hnext
      rcases hro : readOneAndQueue cd w t { out with tick := out.tick + 1 } with ⟨b, w2, t2, out2⟩
      rw [hro] at h hrest hd hstep
      simp only at hd hstep
      cases b with
      | false =>
        simp only [Option.some.injEq] at h
        subst h
        exact ⟨hd, hstep⟩
      | true =>
        simp only at h hrest
        obtain ⟨h1, h2⟩ := ih w2 t2 out2 r hstep hrest h
        exact ⟨h1.trans hd, h2⟩

theorem drains_inStep (cd : Codec) : ∀ (n : Nat) (w : WAL) (t : WALTailer) (out : Chan)
    (r : WAL × WALTailer × Chan), InStep w t → loneSender cd n w t out = true →
    drains cd n w t out = some r → r.1.dir = w.dir ∧ InStep r.1 r.2.1 := by
  intro n
  induction n with
  | zero =>
    intro w t out r hin _ h
    simp only [drains, Option.some.injEq] at h
    subst h
    exact ⟨rfl, hin⟩
  | succ n ih =>
    intro w t out r hin hreal h
    unfold loneSender at hreal
    unfold drains at h
    simp only [Bool.and_eq_true] at hreal
    obtain ⟨hloop, hrest⟩ := hreal
    cases hd : drain cd w t out with
    | none => rw [hd] at h; cases h
    | some r1 =>
      obtain ⟨w1, t1, out1⟩ := r1
      rw [hd] at h hrest
      simp only at h hrest
      obtain ⟨g1, g2⟩ := drainLoop_inStep cd (drainBound w.dir) w t out (w1, t1, out1) hin hloop hd
      obtain ⟨k1, k2⟩ := ih w1 t1 out1 r g2 hrest h
      exact ⟨k1.trans g1, k2⟩

theorem InStep.reopen {w : WAL} {t : WALTailer} (h : InStep w t) :
    restLines w.dir t.close = restLines w.dir t ∧
    ∀ off : Nat, t.file = some off → t.line = off ∧ openIfNeeded w t.close = t := by
  obtain ⟨seg, line, file, hp, pe⟩ := t
  cases file with
  | none => exact ⟨rfl, fun off ho => by cases ho⟩
  | some o =>
    have hex := h.open_seg o rfl
    have hpe : (o : Int) = line := h.pos_eq
    have hpi := h.pos_in
    simp only at hex
    cases hl : w.dir.lookup seg with
    | none => rw [hl] at hex; cases hex
    | some ls =>
      have hlen : linesIn w.dir seg = ls.length := by simp [linesIn, countLines, hl]
      have hle : o ≤ ls.length := by
        have : ((o : Nat) : Int) ≤ (ls.length : Int) := by
          have h2 : tpos ⟨seg, line, some o, hp, pe⟩ = (o : Int) := rfl
          rw [h2, hlen] at hpi
          exact hpi
        exact_mod_cast this
      have hto : line.toNat = o := by omega
      refine ⟨?_, ?_⟩
      · simp only [WALTailer.close, restLines, hl, segLines, Option.getD_some, hto]
      · intro off ho
        simp only [Option.some.injEq] at ho
        subst ho
        refine ⟨hpe.symm, ?_⟩
        simp only [WALTailer.close, openIfNeeded, hl, hto, min_eq_left hle]

/-- C18: take a log whose read position lies inside its segment, any number of `drain` calls on
it, and any schedule that a channel with the tailer as its only sender can show (the channel
may be full at any length test; a send that follows a length test that has found room finds
room).  The calls return; afterwards nothing is pending, the published read position is the
tailer's cursor, and whenever a segment is open the cursor `line` is the number of its lines
consumed, that is, the lines whose records have been enqueued or skipped; closing the handle
and opening the segment again, which skips `line` lines, puts the reader where it was, and the
events enqueued followed by the records that reader has still to read are exactly the records
from the starting position, so the reader resumes at the first record not yet delivered. -/
theorem drains_line_counts_consumed (cd : Codec) (w : WAL) (room : Nat → Bool) (n : Nat)
    (h0 : 0 ≤ w.readPos.line) (hin : w.readPos.line ≤ linesIn w.dir w.readPos.seg)
    (hlone : loneSender cd n w (NewWALTailer w) ⟨[], room, 0⟩ = true) :
    ∃ w' t' out', drains cd n w (NewWALTailer w) ⟨[], room, 0⟩ = some (w', t', out') ∧
      w'.dir = w.dir ∧ t'.hasPending = false ∧ w'.readPos = ⟨t'.seg, t'.line⟩ ∧
      (∀ off : Nat, t'.file = some off → t'.line = off ∧ openIfNeeded w' t'.close = t') ∧
      restLines w.dir t'.close = restLines w.dir t' ∧
      out'.sent ++ (restLines w.dir t'.close).filterMap (decodeLine cd)
        = (restLines w.dir (NewWALTailer w)).filterMap (decodeLine cd) := by
  have hstart : InStep w (NewWALTailer w) :=
    ⟨rfl, h0, rfl, rfl, hin, fun off ho => by cases ho⟩
  obtain ⟨r, hr, hd, _, hi⟩ := drains_spec cd n w (NewWALTailer w) ⟨[], room, 0⟩
  obtain ⟨w', t', out'⟩ := r
  obtain ⟨_, hstep⟩ := drains_inStep cd n w (NewWALTailer w) ⟨[], room, 0⟩ (w', t', out') hstart
    hlone hr
  simp only at hd hi hstep
  obtain ⟨hre, hoff⟩ := hstep.reopen
  rw [hd] at hre
  have hpl : pendingList t' = [] := by simp [pendingList, hstep.no_pending]
  refine ⟨w', t', out', hr, hd, hstep.no_pending, hstep.published, hoff, hre, ?_⟩
  rw [hre]
  rw [hpl, List.append_nil] at hi
  rw [hi]
  simp [NewWALTailer, pendingList]

theorem drains_line_counts_consumed_witness :
    (∃ w' t' out', drains exCodec 2 exTwo (NewWALTailer exTwo) exChanTight = some (w', t', out') ∧
      w'.dir = exTwo.dir ∧ t'.hasPending = false ∧ w'.readPos = ⟨t'.seg, t'.line⟩ ∧
      (∀ off : Nat, t'.file = some off → t'.line = off ∧ openIfNeeded w' t'.close = t') ∧
      restLines exTwo.dir t'.close = restLines exTwo.dir t' ∧
      out'.sent ++ (restLines exTwo.dir t'.close).filterMap (decodeLine exCodec)
        = (restLines exTwo.dir (NewWALTailer exTwo)).filterMap (decodeLine exCodec)) ∧
    (drains exCodec 1 exTwo (NewWALTailer exTwo) exChanTight).map
        (fun r => (r.2.2.sent, pendingList r.2.1, r.2.1.file, r.2.1.line, r.1.readPos))
      = some ([exEvent 7], [], some 1, 1, ⟨1, 1⟩) ∧
    (drains exCodec 2 exTwo (NewWALTailer exTwo) exChanTight).map
        (fun r => (r.2.2.sent, pendingList r.2.1, r.2.1.file, r.2.1.line, r.1.readPos))
      = some ([exEvent 7, exEvent 8], [], some 2, 2, ⟨1, 2⟩) :=
  ⟨drains_line_counts_consumed exCodec exTwo (fun n => n != 2) 2 (by decide) (by decide)
    (by decide), by decide, by decide⟩

end PlayerStat
